import Mathlib

/-!
# Gillespie stochastic simulator: scheduler, propensity cache and simulation loop

A shallow embedding of `src/lib/Sched.cc` and of the simulation engine and the
reader of `src/gil/Gillespie.cc` / `src/gil/Gillespie.hh` (`verify`,
`parseFormula`, `expandReactionWildcard` and the directives of `readGilFile`
that store a molecule or a reaction).

Conventions of the embedding.
* A C++ `double` is a rational number (`ℚ`): the arithmetic of the source is
  read as exact arithmetic, NaN and infinities are outside the model.
* A C++ `uint` is a natural number; where the source computes with it, the
  result is reduced modulo `2 ^ 32`.
* A `std::vector` is a `List`; `v[i]` is `v.getD i d`, and the places where the
  source would index outside the vector are stated as hypotheses.
* The singly linked list of `Sched.cc` (`nextEvent`, `Event::next`) is the list
  of its cells, first cell first.
* The functions of `Util.cc` and of the C and C++ libraries are outside the
  sources: the random numbers and `log` are parameters of the model, and
  `strCiEq`, `isDigitsOnly`, `strtoul` and `std::to_string` are modelled from
  their names and their use.
-/

namespace Sched

/-- The tag `EventDataType` of `Sched.cc`. -/
inductive EventDataType where
  | NONE
  | UINT
  | DBLE
  | VOID_PTR
  deriving DecidableEq, Repr

/-- The callback of an event together with the data it is called with.  The two
callbacks the simulator schedules (`setCount` and `setInhib` of `Gillespie.cc`,
both of type `VOID_PTR`) carry their `SetCountData` / `SetInhibData`; every
other callback is identified by its type tag and a number. -/
inductive Callback where
  | setCount (m : Nat) (count : Nat)
  | setInhib (r : Nat) (level : ℚ)
  | other (type : EventDataType) (id : Nat)
  deriving DecidableEq, Repr

/-- A scheduled event (`struct Event`); the `next` pointer is the tail of the
list the event is stored in. -/
structure Event where
  time : ℚ
  cb : Callback
  deriving DecidableEq, Repr

/-- The loop and the `else` branch of `scheduleEvent`, seen from the cell
`prevEv`: the argument is the list `prevEv->next`.  While there is a next cell
whose time is `<= time` the scan moves on; the new event is linked in where the
scan stops. -/
def insertAfter (newEv : Event) : List Event → List Event
  | [] => [newEv]
  | nxt :: rest =>
    if nxt.time ≤ newEv.time then nxt :: insertAfter newEv rest
    else newEv :: nxt :: rest

/-- The function `Sched::scheduleEvent`: `prevEv` starts at `nextEvent`; for
an empty list the new event becomes the list, otherwise it is linked in
behind `prevEv`, which is at least the first cell. -/
def scheduleEvent (nextEvent : List Event) (newEv : Event) : List Event :=
  match nextEvent with
  | [] => [newEv]
  | prevEv :: rest => prevEv :: insertAfter newEv rest

/-- The function `Sched::processEvents`: while the first event is due it is
processed and unlinked.  The result is the list of processed events, in the
order of processing, and the list that remains. -/
def processEvents (now : ℚ) : List Event → List Event × List Event
  | [] => ([], [])
  | ev :: rest =>
    if ev.time ≤ now then
      ((ev :: (processEvents now rest).1), (processEvents now rest).2)
    else ([], ev :: rest)

/-- A read of memory that has been given back: the field `next` of the cell of
the given event is read after the cell has been deleted. -/
inductive MemoryFault where
  | useAfterFree (ev : Event)
  deriving DecidableEq, Repr

/-- The function `Sched::clearEvents`.  Its loop
`for (ev = nextEvent; ev != NULL; ev = ev->next) delete ev;` deletes the cell
`ev` and then evaluates `ev->next` on the deleted cell in order to go on: on a
queue that is not empty the first round ends in this read, whose result the
language leaves undefined.  On the empty queue the loop is not entered and
`nextEvent = NULL` leaves the empty queue. -/
def clearEvents : List Event → Except MemoryFault (List Event)
  | [] => .ok []
  | ev :: _ => .error (.useAfterFree ev)

/-- A queue is sorted when the fire times never decrease along it. -/
def Sorted (q : List Event) : Prop :=
  List.Pairwise (fun a b => a.time ≤ b.time) q

instance decidableSorted (q : List Event) : Decidable (Sorted q) := by
  unfold Sorted; infer_instance

/-- The queue obtained from the empty queue by scheduling the given events in
the given order. -/
def scheduleAll (evs : List Event) : List Event :=
  evs.foldl scheduleEvent []

/-- A call of one of the three functions of the scheduler. -/
inductive Call where
  | schedule (ev : Event)
  | process (now : ℚ)
  | clear
  deriving DecidableEq, Repr

/-- The scheduler together with a record of what has happened to the events:
the queue `nextEvent`, the events whose callback has been invoked, in the order
of invocation, and the events deleted by `clearEvents`. -/
structure State where
  queue : List Event
  invoked : List Event
  discarded : List Event
  deriving DecidableEq, Repr

/-- The effect of one call on the scheduler and the record.  A call of
`clearEvents` is recorded as it runs when every deleted cell still holds its
field `next` at the time the loop reads it (see `clearEvents` for that read):
every cell is deleted, no callback is invoked and `nextEvent` is `NULL`. -/
def step (s : State) : Call → State
  | .schedule ev => { s with queue := scheduleEvent s.queue ev }
  | .process now =>
    { s with
      queue := (processEvents now s.queue).2
      invoked := s.invoked ++ (processEvents now s.queue).1 }
  | .clear => { s with queue := [], discarded := s.discarded ++ s.queue }

/-- The scheduler after a sequence of calls, starting with the empty queue. -/
def runCalls (calls : List Call) : State :=
  calls.foldl step ⟨[], [], []⟩

/-- The events handed to `scheduleEvent` in a sequence of calls, in the order
of the calls. -/
def scheduledEvents : List Call → List Event
  | [] => []
  | .schedule ev :: calls => ev :: scheduledEvents calls
  | .process _ :: calls => scheduledEvents calls
  | .clear :: calls => scheduledEvents calls

end Sched

/-! ## The reaction network (`Gillespie.hh`) -/

/-- The ways in which the program stops without completing an operation:
`fail` is the function `fail` of `Gillespie.cc` (message and `exit(1)`),
`abort` is `ABORT_IF` / `TRACE_FATAL` / `SIGABRT`, `outOfBounds` is an access
outside a vector, `diverges` is a loop that never ends. -/
inductive Fault where
  | fail
  | abort
  | outOfBounds
  | diverges
  deriving DecidableEq, Repr

/-- The struct `Gillespie::Molecule`; the reference `g` to the owning object is
the `Gillespie` value the operations take. -/
structure Gillespie.Molecule where
  id : String
  description : String
  downstreamReactions : List Nat
  count : Nat
  deriving DecidableEq, Repr

/-- The class `Gillespie::Reaction`. -/
structure Gillespie.Reaction where
  id : String
  formula : String
  k : ℚ
  description : String
  inhibition : ℚ
  left : List Nat
  right : List Nat
  h : Nat
  a : ℚ
  c : ℚ
  isDirty : Bool
  recalc : Bool
  deriving DecidableEq, Repr

/-- The data members of the class `Gillespie`, and with them the file-level
`static uint maxK` of `Gillespie.cc`.  The pre-iteration function is not a
member of the model: `gil_main.cc` constructs the object without one. -/
structure Gillespie where
  volume : ℚ
  runIdle : Bool
  idleTick : ℚ
  molecules : List Gillespie.Molecule
  reactions : List Gillespie.Reaction
  twidth : Nat
  mwidth : Nat
  rwidth : Nat
  fwidths : List Nat
  maxK : Nat
  deriving DecidableEq, Repr

namespace Gillespie

/-- The number of values of a `uint`. -/
def UINT_RANGE : Nat := 2 ^ 32

/-- The expression `molecules[m].getCount()`. -/
def getCount (molecules : List Molecule) (m : Nat) : Nat :=
  match molecules[m]? with
  | some x => x.count
  | none => 0

/-- The expression `reactions[r].left[m]`. -/
def leftAt (reactions : List Reaction) (r m : Nat) : Nat :=
  match reactions[r]? with
  | some x => x.left.getD m 0
  | none => 0

/-- Modelled from the spec: `Util::binom` (the file `Util.cc` is not part of
the sources at hand), "the number of ways to choose k identical items from n":
the binomial coefficient. -/
def binom (n k : Nat) : Nat := Nat.choose n k

/-- The value returned by `numCombinations(n, k)`, a `uint`.  The growth of the
binomial table (`maxN`, `Util::initBinom`) does not enter the value. -/
def numCombinations (n k : Nat) : Nat :=
  if k = 1 then n else binom n k % UINT_RANGE

/-- The innermost loop of `calcReactProbs`,
`for (n = 0; n < left[m]; n++) r.h *= f`, run for `times` rounds on the
`uint` `h`. -/
def mulRepeat (f : Nat) : Nat → Nat → Nat
  | 0, h => h
  | times + 1, h => mulRepeat f times (h * f % UINT_RANGE)

/-- The body of the loop over the molecules in `calcReactProbs`, for molecule
index `m`. -/
def calcHStep (molecules : List Molecule) (left : List Nat) (h m : Nat) : Nat :=
  if getCount molecules m ≥ left.getD m 0 then
    mulRepeat (numCombinations (getCount molecules m) (left.getD m 0)) (left.getD m 0) h
  else h

/-- The value of `r.h` computed by `calcReactProbs` for a dirty reaction:
`r.h = 1.0` followed by the loop over `m = 0 .. molecules.size() - 1`. -/
def calcH (molecules : List Molecule) (left : List Nat) : Nat :=
  (List.range molecules.length).foldl (calcHStep molecules left) 1

/-- The function `Gillespie::isPossible`: the loop runs over the indices of
`r.left` and answers `false` at the first molecule that is too scarce. -/
def isPossible (molecules : List Molecule) (r : Reaction) : Bool :=
  (List.range r.left.length).all
    (fun m => !(decide (r.left.getD m 0 > getCount molecules m)))

/-- The body of the loop over the reactions in `calcReactProbs`, without the
update of `a0`. -/
def recalcReaction (molecules : List Molecule) (r : Reaction) : Reaction :=
  if r.isDirty then
    let r1 : Reaction := { r with h := calcH molecules r.left }
    let r2 : Reaction :=
      if isPossible molecules r1 then
        { r1 with a := (r1.h : ℚ) * r1.c * (1 - r1.inhibition) }
      else { r1 with a := 0 }
    { r2 with isDirty := false, recalc := true }
  else { r with recalc := false }

/-- The loop over the reactions in `calcReactProbs`: every reaction is
recalculated when dirty and its `a` is added to `a0`. -/
def calcLoop (molecules : List Molecule) : List Reaction → ℚ → ℚ × List Reaction
  | [], a0 => (a0, [])
  | r :: rs, a0 =>
    ((calcLoop molecules rs (a0 + (recalcReaction molecules r).a)).1,
     recalcReaction molecules r ::
       (calcLoop molecules rs (a0 + (recalcReaction molecules r).a)).2)

/-- The function `Gillespie::calcReactProbs`: the returned `a0` and the object
after the call. -/
def calcReactProbs (g : Gillespie) : ℚ × Gillespie :=
  ((calcLoop g.molecules g.reactions 0).1,
   { g with reactions := (calcLoop g.molecules g.reactions 0).2 })

/-- The assignment `g.reactions[r].isDirty = true`. -/
def markDirty (reactions : List Reaction) (r : Nat) : List Reaction :=
  reactions.modify (fun x => { x with isDirty := true }) r

/-- The function `Gillespie::Molecule::setCount`, called on `g.molecules[m]`. -/
def Molecule.setCount (g : Gillespie) (m : Nat) (value : Nat) : Gillespie :=
  { g with
    molecules := g.molecules.modify (fun x => { x with count := value }) m
    reactions :=
      (match g.molecules[m]? with
        | some x => x.downstreamReactions
        | none => []).foldl markDirty g.reactions }

/-- The function `Gillespie::setMoleculeCount`.  `ABORT_IF` lets `id` equal to
the size through; the access `molecules[id]` is then outside the vector. -/
def setMoleculeCount (g : Gillespie) (id count : Nat) : Except Fault Gillespie :=
  if id > g.molecules.length then .error .abort
  else if id = g.molecules.length then .error .outOfBounds
  else .ok (Molecule.setCount g id count)

/-- The function `Gillespie::setReactionInhibition`. -/
def setReactionInhibition (g : Gillespie) (id : Nat) (inhibition : ℚ) :
    Except Fault Gillespie :=
  if id > g.reactions.length then .error .abort
  else if id = g.reactions.length then .error .outOfBounds
  else .ok { g with
    reactions := g.reactions.modify (fun x => { x with inhibition := inhibition }) id }

/-- The statement `molecules[m].downstreamReactions.push_back(r)`. -/
def pushDownstream (r : Nat) (molecules : List Molecule) (m : Nat) : List Molecule :=
  molecules.modify
    (fun x => { x with downstreamReactions := x.downstreamReactions ++ [r] }) m

/-- The inner loop of the last part of `verify`, for reaction index `r`. -/
def downstreamOfReaction (reactions : List Reaction) (molecules : List Molecule)
    (r : Nat) : List Molecule :=
  (List.range molecules.length).foldl
    (fun ms m => if leftAt reactions r m ≠ 0 then pushDownstream r ms m else ms)
    molecules

/-- The last part of `verify`: for each molecule, the vector of the reactions
in which it is a reactant. -/
def buildDownstream (reactions : List Reaction) (molecules : List Molecule) :
    List Molecule :=
  (List.range reactions.length).foldl (downstreamOfReaction reactions) molecules

/-- The function `Gillespie::verify`. -/
def verify (g : Gillespie) : Except Fault Gillespie :=
  if g.molecules.length = 0 then .error .fail
  else if g.reactions.length = 0 then .error .fail
  else if g.volume = 0 then .error .fail
  else .ok { g with
    maxK := g.reactions.foldl
      (fun k r => r.left.foldl (fun k m => if m > k then m else k) k) g.maxK
    rwidth := g.reactions.foldl (fun w r => max w (r.id.utf8ByteSize % UINT_RANGE)) 0
    molecules := buildDownstream g.reactions g.molecules }

/-- A reaction is feasible when every molecule is at least as numerous as the
left side asks. -/
def Feasible (molecules : List Molecule) (r : Reaction) : Prop :=
  ∀ m, m < molecules.length → r.left.getD m 0 ≤ getCount molecules m

/-- One molecule `A` with count 3 and the dirty reaction `2 A ---> A`. -/
def dimerNet : Gillespie :=
  { volume := 1, runIdle := false, idleTick := 3 / 10,
    molecules := [⟨"A", "", [0], 3⟩],
    reactions := [{ id := "r", formula := "2 A ---> A", k := 1, description := "",
                    inhibition := 0, left := [2], right := [1], h := 0, a := 0,
                    c := 2, isDirty := true, recalc := true }],
    twidth := 9, mwidth := 7, rwidth := 1, fwidths := [], maxK := 2 }

/-- The reaction `A + B ---> C` with `c = 1`, as the loader leaves it: not
inhibited and dirty. -/
def abcReaction : Reaction :=
  { id := "r", formula := "A + B ---> C", k := 1, description := "",
    inhibition := 0, left := [1, 1, 0], right := [0, 0, 1], h := 0, a := 0,
    c := 1, isDirty := true, recalc := true }

/-- The network `A = 10`, `B = 10`, `C = 0` with the single reaction
`A + B ---> C` (`c = 1`), as the loader leaves it: no downstream lists yet,
the reaction dirty. -/
def abcLoaded : Gillespie :=
  { volume := 1, runIdle := false, idleTick := 3 / 10,
    molecules := [⟨"A", "", [], 10⟩, ⟨"B", "", [], 10⟩, ⟨"C", "", [], 0⟩],
    reactions := [abcReaction],
    twidth := 9, mwidth := 7, rwidth := 0, fwidths := [], maxK := 0 }

/-- The network `abcLoaded` after `verify`. -/
def abcNet : Gillespie :=
  { abcLoaded with
    molecules := [⟨"A", "", [0], 10⟩, ⟨"B", "", [0], 10⟩, ⟨"C", "", [], 0⟩],
    rwidth := 1, maxK := 1 }

/-- The network `abcNet` after a first `calcReactProbs` (the reaction is clean,
`h = 100`, `a = 100`) and a following `setReactionInhibition(0, 1/2)`. -/
def abcStale : Gillespie :=
  { abcNet with
    reactions := [{ id := "r", formula := "A + B ---> C", k := 1, description := "",
                    inhibition := 1 / 2, left := [1, 1, 0], right := [0, 0, 1], h := 100,
                    a := 100, c := 1, isDirty := false, recalc := true }] }

/-! ### The simulation loop (`Gillespie::run`) -/

/-- The expression `reactions[r].right[m]`. -/
def rightAt (reactions : List Reaction) (r m : Nat) : Nat :=
  match reactions[r]? with
  | some x => x.right.getD m 0
  | none => 0

/-- The reaction selection loop of `run`,
`for (r = 0; r < (int) reactions.size() - 1; r++) if ((sum += reactions[r].a) >= r2) break;`
seen from index `r`: the list argument holds `reactions[r]`, `reactions[r+1]`,
...; the loop goes on while at least two of them are left, that is while
`r < size - 1`.  The result is the value of `r` after the loop.  (The vector
has fewer than `2 ^ 31` elements, so the cast to `int` keeps the size.) -/
def selectFrom (r2 : ℚ) : List Reaction → Int → ℚ → Int
  | [], r, _ => r
  | [_], r, _ => r
  | x :: y :: rest, r, sum =>
    if sum + x.a ≥ r2 then r else selectFrom r2 (y :: rest) (r + 1) (sum + x.a)

/-- What `run` is called with, and the locals it fixes before its loop.
`rand i` is the value returned by the `i`-th call of `Util::randDouble` and
`log` is the function `log` of the C library; both are outside the sources
at hand and are parameters of the model. -/
structure RunConfig where
  plotInterval : ℚ
  monitoring : Bool
  monitorIndex : Nat
  monitorInitState : Bool
  threshold : ℚ
  monitorDelay : ℚ
  rand : Nat → ℚ
  log : ℚ → ℚ

/-- The state that the loop of `run` works on: the object, the queue of the
scheduler, the locals `stopTime`, `thresholdReached`, `plotTime` and `t`, the
number of random numbers drawn so far and the samples printed so far (plot
time and molecule counts). -/
structure RunState where
  g : Gillespie
  nextEvent : List Sched.Event
  stopTime : ℚ
  thresholdReached : Bool
  plotTime : ℚ
  t : ℚ
  drawn : Nat
  output : List (ℚ × List Nat)

/-- The function `Sched::processEvent` for the callbacks of `Gillespie.cc`:
`setCount` calls `setMoleculeCount`, `setInhib` calls `setReactionInhibition`;
any other callback leaves the simulation alone. -/
def processEvent (g : Gillespie) (ev : Sched.Event) : Except Fault Gillespie :=
  match ev.cb with
  | .setCount m count => setMoleculeCount g m count
  | .setInhib r level => setReactionInhibition g r level
  | .other _ _ => .ok g

/-- The effect on the object of processing the given events one after the
other. -/
def processAll : Gillespie → List Sched.Event → Except Fault Gillespie
  | g, [] => .ok g
  | g, ev :: rest =>
    match processEvent g ev with
    | .ok g1 => processAll g1 rest
    | .error e => .error e

/-- The monitor block of `run` (lines 264-272). -/
def monitorStep (cfg : RunConfig) (s : RunState) : RunState :=
  if cfg.monitoring ∧ s.thresholdReached = false then
    if ((getCount s.g.molecules cfg.monitorIndex : ℚ) = cfg.threshold) ∨
        (decide ((getCount s.g.molecules cfg.monitorIndex : ℚ) > cfg.threshold)
          ≠ cfg.monitorInitState) then
      { s with stopTime := s.t + cfg.monitorDelay, thresholdReached := true }
    else s
  else s

/-- Lines 291-316 of `run`: the two random numbers, the waiting time and the
selected reaction.  The result is `tau`, `r` (`-1` for none) and the number of
random numbers drawn afterwards; a waiting time of exactly `0` is fatal. -/
def drawAndSelect (cfg : RunConfig) (reactions : List Reaction) (a0 : ℚ) (drawn : Nat) :
    Except Fault (ℚ × Int × Nat) :=
  if a0 ≠ 0 then
    if 1 / a0 * cfg.log (1 / cfg.rand drawn) = 0 then .error .abort
    else
      .ok (1 / a0 * cfg.log (1 / cfg.rand drawn),
           selectFrom (cfg.rand (drawn + 1)) reactions 0 0,
           drawn + 2)
  else .ok (0, -1, drawn)

/-- The loop that prints the samples,
`for (; plotTime <= t && plotTime <= stopTime; plotTime += plotInterval)`,
run for at most `fuel + 1` tests of its condition: the value of `plotTime`
after the loop and the samples printed, or `none` when the loop is still
running when the fuel is used up. -/
def plotLoop (plotInterval t stopTime : ℚ) (counts : List Nat) :
    Nat → ℚ → Option (ℚ × List (ℚ × List Nat))
  | 0, plotTime =>
    if plotTime ≤ t ∧ plotTime ≤ stopTime then none else some (plotTime, [])
  | fuel + 1, plotTime =>
    if plotTime ≤ t ∧ plotTime ≤ stopTime then
      (plotLoop plotInterval t stopTime counts fuel (plotTime + plotInterval)).map
        (fun res => (res.1, (plotTime, counts) :: res.2))
    else some (plotTime, [])

/-- A number of rounds after which the sample loop has ended if its step
`plotInterval` is positive: more than `(min t stopTime - plotTime) / plotInterval`. -/
def plotFuel (plotInterval t stopTime plotTime : ℚ) : Nat :=
  (⌊(min t stopTime - plotTime) / plotInterval⌋ + 1).toNat

/-- The sample loop of `run` as a whole.  With a step that is not positive the
loop never ends once its condition holds. -/
def plotSamples (plotInterval t stopTime : ℚ) (counts : List Nat) (plotTime : ℚ) :
    Except Fault (ℚ × List (ℚ × List Nat)) :=
  if plotInterval ≤ 0 then
    if plotTime ≤ t ∧ plotTime ≤ stopTime then .error .diverges else .ok (plotTime, [])
  else
    match plotLoop plotInterval t stopTime counts
        (plotFuel plotInterval t stopTime plotTime) plotTime with
    | some res => .ok res
    | none => .error .diverges

/-- The value of `delta` in `run`, `-left + right` computed on `uint`s, as the
`uint` it is before the conversion to `int`. -/
def delta (left right : Nat) : Nat :=
  (UINT_RANGE - left % UINT_RANGE + right) % UINT_RANGE

/-- The loop of `run` that applies reaction `r` (lines 425-436), over the
molecule indices still to visit: a molecule with `delta != 0` gets its new
count through `setCount`, and a count above 1000000 is fatal. -/
def applyLoop (r : Nat) : List Nat → Gillespie → Except Fault Gillespie
  | [], g => .ok g
  | m :: ms, g =>
    if delta (leftAt g.reactions r m) (rightAt g.reactions r m) ≠ 0 then
      if getCount
          (Molecule.setCount g m
            ((getCount g.molecules m
              + delta (leftAt g.reactions r m) (rightAt g.reactions r m)) % UINT_RANGE)).molecules
          m > 1000000 then .error .abort
      else
        applyLoop r ms
          (Molecule.setCount g m
            ((getCount g.molecules m
              + delta (leftAt g.reactions r m) (rightAt g.reactions r m)) % UINT_RANGE))
    else applyLoop r ms g

/-- Lines 422-444 of `run`, after the samples have been printed: a selected
reaction is applied, and without one the loop is left when `runIdle` is off.
The boolean is `false` when the `break` is taken. -/
def applyOrStop (s : RunState) (r : Int) : Except Fault (RunState × Bool) :=
  if r ≠ -1 then
    match applyLoop r.toNat (List.range s.g.molecules.length) s.g with
    | .ok g1 => .ok ({ s with g := g1 }, true)
    | .error e => .error e
  else if s.g.runIdle = false then .ok (s, false)
  else .ok (s, true)

/-- Lines 286-444 of `run`: one pass through the body of the loop from the
call of `calcReactProbs` on. -/
def stepFrom (cfg : RunConfig) (s : RunState) : Except Fault (RunState × Bool) :=
  match drawAndSelect cfg (calcReactProbs s.g).2.reactions (calcReactProbs s.g).1 s.drawn with
  | .error e => .error e
  | .ok (tau, r, drawn1) =>
    match plotSamples cfg.plotInterval
        (s.t + (if r = -1 ∧ s.g.runIdle = true then s.g.idleTick else tau)) s.stopTime
        ((calcReactProbs s.g).2.molecules.map (fun x => x.count)) s.plotTime with
    | .error e => .error e
    | .ok (plotTime1, samples) =>
      applyOrStop
        { s with
          g := (calcReactProbs s.g).2
          t := s.t + (if r = -1 ∧ s.g.runIdle = true then s.g.idleTick else tau)
          plotTime := plotTime1
          drawn := drawn1
          output := s.output ++ samples } r

/-- One pass through the body of the loop of `run`: the due events are
processed, the monitor is consulted, and the step is made. -/
def runIter (cfg : RunConfig) (s : RunState) : Except Fault (RunState × Bool) :=
  match processAll s.g (Sched.processEvents s.t s.nextEvent).1 with
  | .error e => .error e
  | .ok g1 =>
    stepFrom cfg
      (monitorStep cfg
        { s with g := g1, nextEvent := (Sched.processEvents s.t s.nextEvent).2 })

/-- The running sum `start + a[0] + ... + a[i]` of the propensities, added up
in the order of the reactions. -/
def runningSum (reactions : List Reaction) (start : ℚ) (i : Nat) : ℚ :=
  ((reactions.take (i + 1)).map (fun r => r.a)).foldl (fun s x => s + x) start

/-- A clean reaction with the given cached propensity and no reactants. -/
def withPropensity (a : ℚ) : Reaction :=
  { id := "", formula := "", k := 0, description := "", inhibition := 0, left := [],
    right := [], h := 0, a := a, c := 0, isDirty := false, recalc := false }

/-- The network `abcNet` with no molecule of `A`: no reaction is feasible. -/
def abcEmpty : Gillespie :=
  { abcNet with
    molecules := [⟨"A", "", [0], 0⟩, ⟨"B", "", [0], 10⟩, ⟨"C", "", [], 0⟩] }

/-- A call of `run` with ten plot points per time unit and no monitor. -/
def plainConfig : RunConfig :=
  { plotInterval := 1 / 10, monitoring := false, monitorIndex := 0,
    monitorInitState := false, threshold := 0, monitorDelay := 0,
    rand := fun _ => 1 / 2, log := fun x => x - 1 }

/-- The loop `while (t <= stopTime)` of `run`, for at most `fuel` passes
through its body.  The boolean tells whether the loop has ended, by its
condition or by the `break`; it is `false` when the fuel is used up first. -/
def runLoop (cfg : RunConfig) : Nat → RunState → Except Fault (RunState × Bool)
  | 0, s => .ok (s, false)
  | fuel + 1, s =>
    if s.t ≤ s.stopTime then
      match runIter cfg s with
      | .error e => .error e
      | .ok (s1, true) => runLoop cfg fuel s1
      | .ok (s1, false) => .ok (s1, true)
    else .ok (s, true)

/-- The locals of `run` when its loop is entered (lines 240-256), for the
object, the scheduler queue and the stop time it is called with. -/
def runInit (g : Gillespie) (nextEvent : List Sched.Event) (stopTime : ℚ) : RunState :=
  { g := g, nextEvent := nextEvent, stopTime := stopTime, thresholdReached := false,
    plotTime := 0, t := 0, drawn := 0, output := [] }

/-- The loop of the function `factorial` of `Gillespie.cc`,
`for (i = 1; i <= n; i++) f *= i`, on the `uint` `f`: the argument `steps`
counts the rounds still to make and `i` is the current factor. -/
def factorialLoop : Nat → Nat → Nat → Nat
  | 0, _, f => f
  | steps + 1, i, f => factorialLoop steps (i + 1) (f * i % UINT_RANGE)

/-- The function `factorial` of `Gillespie.cc`. -/
def factorial (n : Nat) : Nat := factorialLoop n 1 1

/-- The end of `Reaction::parseFormula` (lines 537-543): the `uint`s `n` and
`p` are accumulated over `left`, and `c = p * k / pow(volume, n - 1)`, where
`n - 1` is computed on `uint`s before it is passed to `pow`. -/
def stochasticConstant (left : List Nat) (k volume : ℚ) : ℚ :=
  ((left.foldl (fun p m => p * factorial m % UINT_RANGE) 1 : Nat) : ℚ) * k
    / volume ^ ((left.foldl (fun n m => (n + m) % UINT_RANGE) 0 + (UINT_RANGE - 1)) % UINT_RANGE)

/-- The state at the start of the loop of `run` on `abcNet` with stop time 1
and no scheduled event. -/
def abcStart : RunState := runInit abcNet [] 1

/-- The call of `run` that monitors molecule `A` (index 0) of `abcNet` with
threshold 10 and delay 5; the count of `A` is 10 at the start, so the recorded
`count > threshold` is `false`. -/
def monitorConfig : RunConfig :=
  { plainConfig with
    monitoring := true, monitorIndex := 0, monitorInitState := false,
    threshold := 10, monitorDelay := 5 }

/-- The call of `run` that `main` makes for `numPlotPoints = 0`: the plot
interval is 0. -/
def everyStepConfig : RunConfig := { plainConfig with plotInterval := 0 }

/-- The expression `reactions[i].isDirty`. -/
def isDirtyAt (reactions : List Reaction) (i : Nat) : Bool :=
  match reactions[i]? with
  | some x => x.isDirty
  | none => false

/-- The expression `molecules[m].downstreamReactions`. -/
def downstreamAt (molecules : List Molecule) (m : Nat) : List Nat :=
  match molecules[m]? with
  | some x => x.downstreamReactions
  | none => []

/-- The value `molecules[m].getCount() + delta` that `run` passes to `setCount`
when it applies reaction `r`, as a `uint`. -/
def newCount (g : Gillespie) (r m : Nat) : Nat :=
  (getCount g.molecules m
    + delta (leftAt g.reactions r m) (rightAt g.reactions r m)) % UINT_RANGE

/-- The network `abcNet` with 999999 molecules of `C`: one firing of the
reaction brings the count of `C` to exactly 1000000. -/
def abcNearBound : Gillespie :=
  { abcNet with
    molecules := [⟨"A", "", [0], 10⟩, ⟨"B", "", [0], 10⟩, ⟨"C", "", [], 999999⟩] }

/-- The event "set the count of molecule 0 (`A`) to 0 at time 5". -/
def setAZeroAtFive : Sched.Event := ⟨5, .setCount 0 0⟩

/-- The scenario of the scheduled perturbation: `run` on `abcNet` with stop
time 10, the event `setAZeroAtFive` having been scheduled before. -/
def scenarioStart : RunState := runInit abcNet (Sched.scheduleAll [setAZeroAtFive]) 10

/-- A call of `run` with one plot point per 100 time units in which the draws
are so small that the first waiting time, `1 / 100 * log (1 / r1)`, is 6. -/
def lateConfig : RunConfig :=
  { plainConfig with plotInterval := 100, rand := fun _ => 1 / 601 }

/-- The state after the first pass of `run` from `scenarioStart` with
`lateConfig`: the time is 6, the reaction has been applied once and the event
is still queued. -/
def scenarioAfterFirst : RunState :=
  { g := { abcNet with
           molecules := [⟨"A", "", [0], 9⟩, ⟨"B", "", [0], 9⟩, ⟨"C", "", [], 1⟩],
           reactions := [{ abcReaction with h := 100, a := 100, isDirty := true,
                                            recalc := true }] },
    nextEvent := [setAZeroAtFive], stopTime := 10, thresholdReached := false,
    plotTime := 100, t := 6, drawn := 2, output := [(0, [10, 10, 0])] }

/-- The function `numCombinations` seen from its `static uint maxN`: the value
of `maxN` after the call `numCombinations(n, k)`, given its value before.  The
table is regrown, with `maxN = 10 * n`, when `k != 1` and `n > maxN`. -/
def numCombinationsMaxN (maxN n k : Nat) : Nat :=
  if k = 1 then maxN
  else if n > maxN then 10 * n % UINT_RANGE
  else maxN

/-- The value of `maxN` after a sequence of calls `numCombinations(n, k)`, given
as the pairs `(n, k)`. -/
def maxNAfter (maxN : Nat) (calls : List (Nat × Nat)) : Nat :=
  calls.foldl (fun b c => numCombinationsMaxN b c.1 c.2) maxN

/-- The calls `numCombinations(n, k)`, as pairs `(n, k)`, that the loop over
the molecules in `calcReactProbs` makes for molecule index `m`: `left[m]`
calls when the count suffices, none otherwise. -/
def calcHCallsStep (molecules : List Molecule) (left : List Nat) (m : Nat) :
    List (Nat × Nat) :=
  if getCount molecules m ≥ left.getD m 0 then
    List.replicate (left.getD m 0) (getCount molecules m, left.getD m 0)
  else []

/-- The calls of `numCombinations` made by `calcReactProbs` for one dirty
reaction, in the order they are made. -/
def calcHCalls (molecules : List Molecule) (left : List Nat) : List (Nat × Nat) :=
  (List.range molecules.length).flatMap (calcHCallsStep molecules left)

/-- The calls of `numCombinations` made by one call of `calcReactProbs`. -/
def calcReactProbsCalls (g : Gillespie) : List (Nat × Nat) :=
  g.reactions.flatMap (fun r => if r.isDirty then calcHCalls g.molecules r.left else [])

/-- Every reaction has one left coefficient per molecule, as `parseFormula`
leaves them (`left` is sized to the number of molecules). -/
def WellFormed (g : Gillespie) : Prop :=
  ∀ r ∈ g.reactions, r.left.length = g.molecules.length

/-- The downstream lists name every reaction a molecule is a reactant of, as
after `verify`. -/
def DownstreamComplete (g : Gillespie) : Prop :=
  ∀ m i : Nat, i < g.reactions.length → leftAt g.reactions i m ≠ 0 →
    i ∈ downstreamAt g.molecules m

/-- The cached propensity of a clean reaction that is not feasible is `0`. -/
def CacheSound (g : Gillespie) : Prop :=
  ∀ r ∈ g.reactions, r.isDirty = false → ¬ Feasible g.molecules r → r.a = 0

/-- The three conditions on the object that every operation keeps. -/
def CacheInvariant (g : Gillespie) : Prop :=
  WellFormed g ∧ DownstreamComplete g ∧ CacheSound g

/-- Every reaction has `c >= 0` and an inhibition level in `[0, 1]`. -/
def RatesValid (g : Gillespie) : Prop :=
  ∀ r ∈ g.reactions, 0 ≤ r.c ∧ 0 ≤ r.inhibition ∧ r.inhibition ≤ 1

/-- The cached propensity of every clean reaction is `>= 0`. -/
def CacheNonneg (g : Gillespie) : Prop :=
  ∀ r ∈ g.reactions, r.isDirty = false → 0 ≤ r.a

/-- An event that sets an inhibition level sets one in `[0, 1]`, as the loader
checks for the `setInhib` directive. -/
def LevelValid (ev : Sched.Event) : Prop :=
  ∀ (r : Nat) (level : ℚ), ev.cb = .setInhib r level → 0 ≤ level ∧ level ≤ 1

/-- The operations on the object that change or use the propensity cache: the
two setters, `calcReactProbs`, and the firing of reaction `r` (the loop of
`run` that applies it). -/
inductive NetOp where
  | setMoleculeCount (id count : Nat)
  | setReactionInhibition (id : Nat) (level : ℚ)
  | calcReactProbs
  | fire (r : Nat)
  deriving DecidableEq, Repr

/-- The effect of one operation on the object. -/
def applyNetOp (g : Gillespie) : NetOp → Except Fault Gillespie
  | .setMoleculeCount id count => setMoleculeCount g id count
  | .setReactionInhibition id level => setReactionInhibition g id level
  | .calcReactProbs => .ok (calcReactProbs g).2
  | .fire r => applyLoop r (List.range g.molecules.length) g

/-- The effect of a sequence of operations, one after the other. -/
def applyNetOps : Gillespie → List NetOp → Except Fault Gillespie
  | g, [] => .ok g
  | g, op :: ops =>
    match applyNetOp g op with
    | .ok g1 => applyNetOps g1 ops
    | .error e => .error e

/-- The state in which pass number `n` (counted from 0) through the body of
the loop `while (t <= stopTime)` of `run` starts, or `none` when the loop has
ended before that pass. -/
def passStart (cfg : RunConfig) : Nat → RunState → Except Fault (Option RunState)
  | 0, s => .ok (if s.t ≤ s.stopTime then some s else none)
  | n + 1, s =>
    if s.t ≤ s.stopTime then
      match runIter cfg s with
      | .error e => .error e
      | .ok (s1, true) => passStart cfg n s1
      | .ok (_, false) => .ok none
    else .ok none

/-- The reaction `A ---> 2 A` with `c = 1`, dirty as the constructor leaves
it. -/
def growReaction : Reaction :=
  { id := "g", formula := "A ---> 2 A", k := 1, description := "",
    inhibition := 0, left := [1], right := [2], h := 0, a := 0,
    c := 1, isDirty := true, recalc := true }

/-- The network with the single molecule `A`, 4294967295 of them (the greatest
`uint`), and the single reaction `A ---> 2 A`, as the loader leaves it. -/
def growLoaded : Gillespie :=
  { volume := 1, runIdle := false, idleTick := 3 / 10,
    molecules := [⟨"A", "", [], 4294967295⟩],
    reactions := [growReaction],
    twidth := 9, mwidth := 7, rwidth := 0, fwidths := [], maxK := 0 }

/-- The network `growLoaded` after `verify`. -/
def growNet : Gillespie :=
  { growLoaded with
    molecules := [⟨"A", "", [0], 4294967295⟩],
    rwidth := 1, maxK := 1 }

/-- The plain cumulative-sum search that the selection loop of `run` is
compared with: the least index `i`, counted from `i0`, at which the cumulative
sum `sum + a[0] + ... + a[i]` reaches `r2`; `none` when it never does. -/
def cumulativeSearch (r2 : ℚ) : List ℚ → ℚ → Nat → Option Nat
  | [], _, _ => none
  | a :: rest, sum, i =>
    if sum + a ≥ r2 then some i else cumulativeSearch r2 rest (sum + a) (i + 1)

/-! ### Reading a network (`readGilFile`, `parseFormula`, `expandReactionWildcard`) -/

/-- Modelled from its name and its use (the file `Util.cc` is not part of the
sources at hand): `Util::strCiEq`, equality of two strings up to the case of
their letters. -/
def strCiEq (a b : String) : Bool :=
  decide (a.toList.map Char.toLower = b.toList.map Char.toLower)

/-- Modelled from its name and its use (`Util.cc` is not part of the sources at
hand): `Util::isDigitsOnly`, every character of the token is a decimal
digit. -/
def isDigitsOnly (token : String) : Bool :=
  token.toList.all Char.isDigit

/-- The library function `strtoul(token, NULL, 10)` on a token of decimal
digits: its value, or the greatest `unsigned long` (64 bits) when the value is
beyond that. -/
def strtoul (token : String) : Nat :=
  min (token.toList.foldl (fun v c => 10 * v + (c.toNat - 48)) 0) (2 ^ 64 - 1)

/-- The library function `std::to_string` on an unsigned value: its decimal
digits. -/
def to_string (n : Nat) : List Char := Nat.toDigits 10 n

/-- The loop of `moleculeIndex` and of `reactionIndex` over the ids, seen from
index `i`: the index of the first id that equals `id` up to case, and
`UINT_MAX` when there is none.  (A vector has fewer than `2 ^ 32` elements, so
the `uint` index does not wrap.) -/
def indexLoop (id : String) : List String → Nat → Nat
  | [], _ => UINT_RANGE - 1
  | x :: rest, i => if strCiEq id x then i else indexLoop id rest (i + 1)

/-- The function `Gillespie::moleculeIndex`. -/
def moleculeIndex (molecules : List Molecule) (id : String) : Nat :=
  indexLoop id (molecules.map (fun x => x.id)) 0

/-- The function `Gillespie::reactionIndex`. -/
def reactionIndex (reactions : List Reaction) (id : String) : Nat :=
  indexLoop id (reactions.map (fun x => x.id)) 0

/-- The function `Molecule::operator=`, whose body is `return other;`: the
value is the object that is assigned to, as it is after the call. -/
def Molecule.assign (self _other : Molecule) : Molecule := self

/-- The function `Reaction::operator=`, whose body is `return other;`: the
value is the object that is assigned to, as it is after the call. -/
def Reaction.assign (self _other : Reaction) : Reaction := self

/-- The end of the `molecule` directive in `readGilFile` (lines 799-818): the
molecule `m` just constructed is looked up by its id and, when the id exists,
assigned to the entry if overriding is allowed, or else appended. -/
def storeMolecule (g : Gillespie) (overrideAllowed : Bool) (m : Molecule) :
    Except Fault Gillespie :=
  if moleculeIndex g.molecules m.id < g.molecules.length then
    if overrideAllowed then
      .ok { g with
        molecules := g.molecules.modify (fun x => Molecule.assign x m)
          (moleculeIndex g.molecules m.id) }
    else .error .fail
  else .ok { g with molecules := g.molecules ++ [m] }

/-- The end of the `reaction` directive in `readGilFile` (lines 837-847): the
reaction `r`, constructed and parsed, is looked up by its id and, when the id
exists, assigned to the entry if overriding is allowed, or else appended. -/
def storeReaction (g : Gillespie) (overrideAllowed : Bool) (r : Reaction) :
    Except Fault Gillespie :=
  if reactionIndex g.reactions r.id < g.reactions.length then
    if overrideAllowed then
      .ok { g with
        reactions := g.reactions.modify (fun x => Reaction.assign x r)
          (reactionIndex g.reactions r.id) }
    else .error .fail
  else .ok { g with reactions := g.reactions ++ [r] }

/-- The string `id.substr(0, pos) + std::to_string(n) + id.substr(pos + 1)` of
`expandReactionWildcard`, where `pos` is the position of the first `*`. -/
def newId (id : String) (n : Nat) : String :=
  String.mk (id.toList.takeWhile (fun c => c ≠ '*') ++ to_string n
    ++ (id.toList.dropWhile (fun c => c ≠ '*')).tail)

/-- The `do ... while` loop of `expandReactionWildcard` for at most `fuel`
rounds, seen from the value `n` of the counter: the value of `n` in the round
whose `newId` is the id of no reaction, or `none` when the loop is still
running when the fuel is used up.  The counter is a `uint`. -/
def expandLoop (reactions : List Reaction) (id : String) : Nat → Nat → Option Nat
  | 0, _ => none
  | fuel + 1, n =>
    if reactionIndex reactions (newId id n) < reactions.length then
      expandLoop reactions id fuel ((n + 1) % UINT_RANGE)
    else some n

/-- The function `Gillespie::expandReactionWildcard` together with the
file-level map `rNumbers`: the new value of `id` and the map afterwards.  A
pattern that is not in the map counts from 0.  The counter takes at most
`2 ^ 32` values, so the loop that has not ended after `2 ^ 32` rounds never
ends. -/
def expandReactionWildcard (reactions : List Reaction) (rNumbers : String → Option Nat)
    (id : String) : Except Fault (String × (String → Option Nat)) :=
  if '*' ∈ id.toList then
    match expandLoop reactions id UINT_RANGE ((rNumbers id).getD 0) with
    | some n =>
      .ok (newId id n,
           fun key => if key = id then some ((n + 1) % UINT_RANGE) else rNumbers key)
    | none => .error .diverges
  else .ok (id, rNumbers)

/-- The local `side` of `parseFormula`. -/
inductive Side where
  | LEFT
  | RIGHT
  deriving DecidableEq, Repr

/-- The local `expect` of `parseFormula`. -/
inductive Expect where
  | COUNT
  | MOLECULE
  | OPERATOR
  deriving DecidableEq, Repr

/-- The locals of `parseFormula` that its loop over the tokens works on, and
the vectors `left` and `right` of the reaction. -/
structure ParseState where
  side : Side
  expect : Expect
  count : Nat
  left : List Nat
  right : List Nat
  deriving DecidableEq, Repr

/-- The case `MOLECULE` of the `switch` in `parseFormula`. -/
def parseMolecule (molecules : List Molecule) (st : ParseState) (token : String) :
    Except Fault ParseState :=
  if moleculeIndex molecules token < molecules.length then
    match st.side with
    | .LEFT =>
      .ok { st with
        left := st.left.set (moleculeIndex molecules token) st.count, expect := .OPERATOR }
    | .RIGHT =>
      .ok { st with
        right := st.right.set (moleculeIndex molecules token) st.count, expect := .OPERATOR }
  else .error .fail

/-- The body of the loop over the tokens in `parseFormula`: the `switch` on
`expect`, with the case `COUNT` falling through to the case `MOLECULE` for a
token that is not made of digits. -/
def parseToken (molecules : List Molecule) (st : ParseState) (token : String) :
    Except Fault ParseState :=
  match st.expect with
  | .COUNT =>
    if isDigitsOnly token then
      .ok { st with
        count := strtoul token % UINT_RANGE,
        expect := if strtoul token % UINT_RANGE ≠ 0 then .MOLECULE else .OPERATOR }
    else parseMolecule molecules { st with count := 1 } token
  | .MOLECULE => parseMolecule molecules st token
  | .OPERATOR =>
    if st.side = .LEFT ∧ token = "--->" then .ok { st with side := .RIGHT, expect := .COUNT }
    else if token = "+" then .ok { st with expect := .COUNT }
    else .error .fail

/-- The loop over the tokens in `parseFormula`. -/
def parseLoop (molecules : List Molecule) : ParseState → List String → Except Fault ParseState
  | st, [] => .ok st
  | st, token :: rest =>
    match parseToken molecules st token with
    | .ok st1 => parseLoop molecules st1 rest
    | .error e => .error e

/-- The function `Reaction::parseFormula`, called on the reaction `r` of the
object `g`, from the tokens of the formula on (the function `Util::tokenize`
that gives them is not part of the sources at hand). -/
def parseFormula (g : Gillespie) (r : Reaction) (tokens : List String) :
    Except Fault Reaction :=
  match parseLoop g.molecules
      ⟨.LEFT, .COUNT, 0, List.replicate g.molecules.length 0,
        List.replicate g.molecules.length 0⟩ tokens with
  | .error e => .error e
  | .ok st =>
    if st.side ≠ .RIGHT ∨ st.expect ≠ .OPERATOR then .error .fail
    else
      .ok { r with
        left := st.left, right := st.right,
        c := stochasticConstant st.left r.k g.volume }

/-- A term of a formula, as the tokens it is written with: a lone count of
value 0 ("nothing"), a molecule id alone, or a count followed by a molecule
id. -/
inductive Term where
  | nothing (zero : String)
  | plain (molecule : String)
  | counted (count : String) (molecule : String)
  deriving DecidableEq, Repr

/-- The tokens of a term. -/
def Term.tokens : Term → List String
  | .nothing zero => [zero]
  | .plain molecule => [molecule]
  | .counted count molecule => [count, molecule]

/-- The count that a term gives: 1 when none is written. -/
def Term.count : Term → Nat
  | .nothing _ => 0
  | .plain _ => 1
  | .counted count _ => strtoul count % UINT_RANGE

/-- The index of the molecule that a term names, if it names one. -/
def Term.index (molecules : List Molecule) : Term → Option Nat
  | .nothing _ => none
  | .plain molecule => some (moleculeIndex molecules molecule)
  | .counted _ molecule => some (moleculeIndex molecules molecule)

/-- A term is well formed when its count is made of digits and is not 0 unless
it stands alone, its molecule id is not made of digits when it stands alone,
and the molecule is known. -/
def Term.Valid (molecules : List Molecule) : Term → Prop
  | .nothing zero => isDigitsOnly zero = true ∧ strtoul zero % UINT_RANGE = 0
  | .plain molecule =>
    isDigitsOnly molecule = false ∧ moleculeIndex molecules molecule < molecules.length
  | .counted count molecule =>
    isDigitsOnly count = true ∧ strtoul count % UINT_RANGE ≠ 0
      ∧ moleculeIndex molecules molecule < molecules.length

/-- The tokens of one side of a formula: its terms separated by `+`. -/
def sideTokens : List Term → List String
  | [] => []
  | [t] => t.tokens
  | t :: u :: ts => t.tokens ++ "+" :: sideTokens (u :: ts)

/-- The last term of a side that names the molecule with index `m`. -/
def lastOccurrence (molecules : List Molecule) (terms : List Term) (m : Nat) : Option Term :=
  (terms.filter (fun t => decide (Term.index molecules t = some m))).getLast?

/-- The network with the molecules `A` and `B`, used to parse formulas. -/
def abNet : Gillespie :=
  { volume := 1, runIdle := false, idleTick := 3 / 10,
    molecules := [⟨"A", "", [], 10⟩, ⟨"B", "", [], 0⟩],
    reactions := [],
    twidth := 9, mwidth := 7, rwidth := 0, fwidths := [], maxK := 0 }

/-- The network with the molecules `A` and `--->`. -/
def arrowNet : Gillespie :=
  { abNet with molecules := [⟨"A", "", [], 10⟩, ⟨"--->", "", [], 0⟩] }

/-- A reaction as its constructor leaves it, before `parseFormula`. -/
def freshReaction (id formula : String) (k : ℚ) : Reaction :=
  { id := id, formula := formula, k := k, description := "", inhibition := 0,
    left := [], right := [], h := 0, a := 0, c := 0, isDirty := true, recalc := true }

/-- The effect of a term on the vector of its side: the entry of the molecule
it names is set to its count. -/
def Term.assign (molecules : List Molecule) (v : List Nat) (t : Term) : List Nat :=
  match Term.index molecules t with
  | none => v
  | some i => v.set i t.count

end Gillespie

/-! ## Theorems -/

namespace Sched

/-- C1 (evaluation at the failing input): the queue holding one event at time 5
is sorted; scheduling an event for time 3 puts it behind that event, and the
resulting queue, built from the empty queue by two `scheduleEvent` calls, is
not sorted. -/
theorem scheduleEvent_unsorted_before_head :
    Sorted [⟨5, .other .NONE 0⟩]
    ∧ scheduleEvent [⟨5, .other .NONE 0⟩] ⟨3, .other .NONE 1⟩
        = [⟨5, .other .NONE 0⟩, ⟨3, .other .NONE 1⟩]
    ∧ scheduleAll [⟨5, .other .NONE 0⟩, ⟨3, .other .NONE 1⟩]
        = [⟨5, .other .NONE 0⟩, ⟨3, .other .NONE 1⟩]
    ∧ ¬ Sorted (scheduleEvent [⟨5, .other .NONE 0⟩] ⟨3, .other .NONE 1⟩) := by
  refine ⟨by decide, by decide, by decide, by decide⟩

/-- C2 (evaluation at the failing input): in the queue built by scheduling an
event for time 5 and then one for time 3, `processEvents 4` processes nothing
and the event with fire time 3, which is due, is still queued. -/
theorem processEvents_leaves_due_event :
    processEvents 4 (scheduleAll [⟨5, .other .NONE 0⟩, ⟨3, .other .NONE 1⟩])
        = ([], [⟨5, .other .NONE 0⟩, ⟨3, .other .NONE 1⟩])
    ∧ (⟨3, .other .NONE 1⟩ : Event) ∈
        (processEvents 4 (scheduleAll [⟨5, .other .NONE 0⟩, ⟨3, .other .NONE 1⟩])).2
    ∧ (3 : ℚ) ≤ 4 := by
  refine ⟨by decide, by decide, by decide⟩

end Sched

namespace Gillespie

/-! ### Auxiliary facts -/

theorem calcLoop_snd (ms : List Molecule) (rs : List Reaction) (a0 : ℚ) :
    (calcLoop ms rs a0).2 = rs.map (recalcReaction ms) := by
  induction rs generalizing a0 with
  | nil => rfl
  | cons r rs ih => simp [calcLoop, ih]

theorem calcLoop_fst (ms : List Molecule) (rs : List Reaction) (a0 : ℚ) :
    (calcLoop ms rs a0).1
      = ((rs.map (recalcReaction ms)).map (fun r => r.a)).foldl (fun s x => s + x) a0 := by
  induction rs generalizing a0 with
  | nil => rfl
  | cons r rs ih => simp [calcLoop, ih]

theorem isPossible_iff (ms : List Molecule) (r : Reaction)
    (hlen : r.left.length = ms.length) :
    isPossible ms r = true ↔ Feasible ms r := by
  unfold isPossible Feasible
  simp [List.all_eq_true, hlen]

theorem markDirty_foldl_getElem? (ds : List Nat) (rs : List Reaction) (i : Nat) :
    (ds.foldl markDirty rs)[i]?
      = (rs[i]?).map (fun x => if i ∈ ds then { x with isDirty := true } else x) := by
  induction ds generalizing rs with
  | nil => simp
  | cons d ds ih =>
    simp only [List.foldl_cons, ih, markDirty, List.getElem?_modify, List.mem_cons]
    cases rs[i]? with
    | none => simp
    | some x =>
      by_cases hd : d = i
      · subst hd; by_cases hm : d ∈ ds <;> simp [hm]
      · have hd' : ¬ i = d := fun h => hd h.symm
        simp [hd, hd']

theorem downstreamOfReaction_upTo (rs : List Reaction) (r n : Nat) (ms : List Molecule)
    (j : Nat) :
    ((List.range n).foldl
        (fun ms m => if leftAt rs r m ≠ 0 then pushDownstream r ms m else ms) ms)[j]?
      = (ms[j]?).map (fun x =>
          if j < n ∧ leftAt rs r j ≠ 0 then
            { x with downstreamReactions := x.downstreamReactions ++ [r] }
          else x) := by
  induction n with
  | zero => simp
  | succ n ih =>
    rw [List.range_succ, List.foldl_append]
    simp only [List.foldl_cons, List.foldl_nil]
    by_cases hl : leftAt rs r n ≠ 0
    · rw [if_pos hl, pushDownstream, List.getElem?_modify, ih]
      cases ms[j]? with
      | none => simp
      | some x =>
        by_cases hj : n = j
        · subst hj; simp [hl]
        · have h1 : (j < n + 1) ↔ (j < n) := by omega
          simp [hj, h1]
    · rw [if_neg hl, ih]
      cases ms[j]? with
      | none => simp
      | some x =>
        by_cases hj : n = j
        · subst hj
          have hl' : leftAt rs r n = 0 := by simpa using hl
          simp [hl']
        · have h1 : (j < n + 1) ↔ (j < n) := by omega
          simp [h1]

theorem downstreamOfReaction_getElem? (rs : List Reaction) (ms : List Molecule)
    (r j : Nat) :
    (downstreamOfReaction rs ms r)[j]?
      = (ms[j]?).map (fun x =>
          if leftAt rs r j ≠ 0 then
            { x with downstreamReactions := x.downstreamReactions ++ [r] }
          else x) := by
  unfold downstreamOfReaction
  rw [downstreamOfReaction_upTo]
  by_cases hj : j < ms.length
  · simp [hj]
  · have : ms[j]? = none := by simp at hj; simpa using hj
    simp [this]

theorem buildDownstream_upTo (rs : List Reaction) (n : Nat) (ms : List Molecule)
    (j : Nat) :
    ((List.range n).foldl (downstreamOfReaction rs) ms)[j]?
      = (ms[j]?).map (fun x =>
          { x with downstreamReactions :=
              x.downstreamReactions ++ (List.range n).filter (fun r => leftAt rs r j ≠ 0) }) := by
  induction n with
  | zero => simp
  | succ n ih =>
    rw [List.range_succ, List.foldl_append]
    simp only [List.foldl_cons, List.foldl_nil]
    rw [downstreamOfReaction_getElem?, ih]
    cases ms[j]? with
    | none => simp
    | some x =>
      by_cases hl : leftAt rs n j = 0
      · simp [List.filter_append, hl]
      · simp [List.filter_append, hl]

theorem verify_ok (g0 g : Gillespie) (hv : verify g0 = .ok g) :
    g.molecules = buildDownstream g0.reactions g0.molecules ∧ g.reactions = g0.reactions := by
  unfold verify at hv
  split_ifs at hv
  injection hv with hv
  subst hv
  exact ⟨rfl, rfl⟩

theorem verify_downstream (g0 g : Gillespie)
    (hfresh : ∀ x ∈ g0.molecules, x.downstreamReactions = [])
    (hv : verify g0 = .ok g) (m : Nat) (x : Molecule) (hx : g.molecules[m]? = some x) :
    x.downstreamReactions
      = (List.range g.reactions.length).filter (fun r => leftAt g.reactions r m ≠ 0) := by
  obtain ⟨hm, hr⟩ := verify_ok g0 g hv
  rw [hm, buildDownstream, buildDownstream_upTo] at hx
  rw [hr]
  cases h0 : g0.molecules[m]? with
  | none => simp [h0] at hx
  | some y =>
    have hy : y ∈ g0.molecules := List.getElem?_mem h0
    simp only [h0, Option.map_some', Option.some.injEq] at hx
    rw [← hx, hfresh y hy]
    simp

theorem runningSum_zero (x : Reaction) (l : List Reaction) (s : ℚ) :
    runningSum (x :: l) s 0 = s + x.a := by
  simp [runningSum]

theorem runningSum_succ (x : Reaction) (l : List Reaction) (s : ℚ) (i : Nat) :
    runningSum (x :: l) s (i + 1) = runningSum l (s + x.a) i := by
  simp [runningSum]

theorem selectFrom_spec (r2 : ℚ) (l : List Reaction) (hne : l ≠ []) (r0 : Int) (s0 : ℚ) :
    ∃ k : Nat, selectFrom r2 l r0 s0 = r0 + k ∧ k < l.length ∧
      (∀ i : Nat, i < k → runningSum l s0 i < r2) ∧
      (k < l.length - 1 → runningSum l s0 k ≥ r2) := by
  induction l generalizing r0 s0 with
  | nil => exact absurd rfl hne
  | cons x l ih =>
    cases l with
    | nil =>
      refine ⟨0, by simp [selectFrom], by simp, ?_, ?_⟩
      · intro i hi; omega
      · intro h; simp at h
    | cons y rest =>
      by_cases hge : s0 + x.a ≥ r2
      · refine ⟨0, by simp [selectFrom, hge], by simp, ?_, ?_⟩
        · intro i hi; omega
        · intro _; rw [runningSum_zero]; exact hge
      · obtain ⟨k, hk, hlen, hlt, hlast⟩ := ih (by simp) (r0 + 1) (s0 + x.a)
        refine ⟨k + 1, ?_, ?_, ?_, ?_⟩
        · simp only [selectFrom, if_neg hge, hk]
          push_cast; ring
        · simp only [List.length_cons] at hlen ⊢; omega
        · intro i hi
          cases i with
          | zero => rw [runningSum_zero]; exact lt_of_not_ge hge
          | succ j => rw [runningSum_succ]; exact hlt j (by omega)
        · intro h
          rw [runningSum_succ]
          apply hlast
          simp only [List.length_cons] at h ⊢; omega

theorem plotLoop_isSome (pI t stopTime : ℚ) (counts : List Nat) (hpos : 0 < pI)
    (fuel : Nat) (plotTime : ℚ) (hfuel : (min t stopTime - plotTime) / pI < fuel) :
    ∃ res, plotLoop pI t stopTime counts fuel plotTime = some res := by
  induction fuel generalizing plotTime with
  | zero =>
    have hneg : min t stopTime - plotTime < 0 := by
      by_contra hcon
      have : 0 ≤ (min t stopTime - plotTime) / pI :=
        div_nonneg (not_lt.mp hcon) hpos.le
      simp at hfuel
      linarith
    have hcond : ¬ (plotTime ≤ t ∧ plotTime ≤ stopTime) := by
      intro ⟨h1, h2⟩
      have : plotTime ≤ min t stopTime := le_min h1 h2
      linarith
    exact ⟨(plotTime, []), by simp [plotLoop, hcond]⟩
  | succ n ih =>
    by_cases hcond : plotTime ≤ t ∧ plotTime ≤ stopTime
    · have hstep : (min t stopTime - (plotTime + pI)) / pI < n := by
        have : (min t stopTime - (plotTime + pI)) / pI
            = (min t stopTime - plotTime) / pI - 1 := by
          field_simp
          ring
        rw [this]
        push_cast at hfuel
        linarith
      obtain ⟨res, hres⟩ := ih (plotTime + pI) hstep
      exact ⟨(res.1, (plotTime, counts) :: res.2), by simp [plotLoop, hcond, hres]⟩
    · exact ⟨(plotTime, []), by simp [plotLoop, hcond]⟩

theorem plotSamples_ok (pI t stopTime : ℚ) (counts : List Nat) (plotTime : ℚ)
    (hpos : 0 < pI) :
    ∃ res, plotSamples pI t stopTime counts plotTime = .ok res := by
  have hfuel : (min t stopTime - plotTime) / pI < (plotFuel pI t stopTime plotTime : ℕ) := by
    unfold plotFuel
    have h1 : (min t stopTime - plotTime) / pI
        < ((⌊(min t stopTime - plotTime) / pI⌋ + 1 : ℤ) : ℚ) := by
      push_cast
      exact Int.lt_floor_add_one _
    have h2 : ((⌊(min t stopTime - plotTime) / pI⌋ + 1 : ℤ) : ℚ)
        ≤ (((⌊(min t stopTime - plotTime) / pI⌋ + 1).toNat : ℕ) : ℚ) := by
      have := Int.self_le_toNat (⌊(min t stopTime - plotTime) / pI⌋ + 1)
      exact_mod_cast this
    exact lt_of_lt_of_le h1 h2
  obtain ⟨res, hres⟩ := plotLoop_isSome pI t stopTime counts hpos _ plotTime hfuel
  refine ⟨res, ?_⟩
  unfold plotSamples
  rw [if_neg (not_le.mpr hpos), hres]

theorem monitorStep_frame (cfg : RunConfig) (s : RunState) :
    (monitorStep cfg s).g = s.g ∧ (monitorStep cfg s).t = s.t
    ∧ (monitorStep cfg s).drawn = s.drawn ∧ (monitorStep cfg s).plotTime = s.plotTime
    ∧ (monitorStep cfg s).nextEvent = s.nextEvent
    ∧ (monitorStep cfg s).output = s.output := by
  unfold monitorStep
  split_ifs <;> simp

theorem monitorStep_g (cfg : RunConfig) (s : RunState) : (monitorStep cfg s).g = s.g :=
  (monitorStep_frame cfg s).1

theorem monitorStep_t (cfg : RunConfig) (s : RunState) : (monitorStep cfg s).t = s.t :=
  (monitorStep_frame cfg s).2.1

theorem monitorStep_drawn (cfg : RunConfig) (s : RunState) :
    (monitorStep cfg s).drawn = s.drawn :=
  (monitorStep_frame cfg s).2.2.1

theorem monitorStep_plotTime (cfg : RunConfig) (s : RunState) :
    (monitorStep cfg s).plotTime = s.plotTime :=
  (monitorStep_frame cfg s).2.2.2.1

theorem drawAndSelect_zero (cfg : RunConfig) (rs : List Reaction) (drawn : Nat) :
    drawAndSelect cfg rs 0 drawn = .ok (0, -1, drawn) := by
  simp [drawAndSelect]

/-- The pass through the loop body when no reaction is feasible: the samples
are printed and the loop is left or continued according to `runIdle`. -/
theorem runIter_idle_eq (cfg : RunConfig) (s : RunState) (g1 : Gillespie)
    (hd : processAll s.g (Sched.processEvents s.t s.nextEvent).1 = .ok g1)
    (ha0 : (calcReactProbs g1).1 = 0) :
    runIter cfg s =
      match plotSamples cfg.plotInterval
          (s.t + (if g1.runIdle = true then g1.idleTick else 0))
          (monitorStep cfg
            { s with g := g1, nextEvent := (Sched.processEvents s.t s.nextEvent).2 }).stopTime
          (g1.molecules.map (fun x => x.count)) s.plotTime with
      | .error e => .error e
      | .ok res =>
        .ok ({ monitorStep cfg
                { s with g := g1, nextEvent := (Sched.processEvents s.t s.nextEvent).2 } with
               g := (calcReactProbs g1).2
               t := s.t + (if g1.runIdle = true then g1.idleTick else 0)
               plotTime := res.1
               drawn := s.drawn
               output := s.output ++ res.2 }, g1.runIdle) := by
  unfold runIter
  rw [hd]
  simp only []
  unfold stepFrom
  simp only [monitorStep_g, monitorStep_t, monitorStep_drawn, monitorStep_plotTime, ha0,
    drawAndSelect_zero]
  have hmol : (calcReactProbs g1).2.molecules = g1.molecules := rfl
  have hidle : (calcReactProbs g1).2.runIdle = g1.runIdle := rfl
  rw [hmol]
  cases hp : plotSamples cfg.plotInterval
      (s.t + (if (-1 : Int) = -1 ∧ g1.runIdle = true then g1.idleTick else 0))
      (monitorStep cfg
        { s with g := g1, nextEvent := (Sched.processEvents s.t s.nextEvent).2 }).stopTime
      (g1.molecules.map (fun x => x.count)) s.plotTime with
  | error e =>
    simp only [true_and] at hp
    simp [hp]
  | ok res =>
    simp only [true_and] at hp
    cases hr : g1.runIdle <;>
      simp [hp, hr, applyOrStop, hidle, (monitorStep_frame cfg _).2.2.2.2.2] at * <;>
      rw [hp]

/-! ### The claims -/

/-- C3 (evaluation at the failing input): for one molecule with count 3 and a
dirty reaction with `left = [2]`, `calcReactProbs` stores `h = 9`: the factor
`numCombinations 3 2 = 3` is multiplied in once per unit of multiplicity, that
is twice, and not once. -/
theorem calcReactProbs_h_repeats_factor :
    (calcReactProbs dimerNet).2.reactions.map (fun r => r.h) = [9]
    ∧ numCombinations (getCount dimerNet.molecules 0) (leftAt dimerNet.reactions 0 0) = 3
    ∧ dimerNet.reactions.map (fun r => (r.isDirty, r.left)) = [(true, [2])]
    ∧ dimerNet.molecules.map (fun x => x.count) = [3] := by
  refine ⟨by decide, by decide, by decide, by decide⟩

/-- C4: `calcReactProbs` leaves the molecules alone and recomputes exactly the
dirty reactions.  A reaction that is dirty on entry ends clean, with
`a = h * c * (1 - inhibition)` for the `h` then stored when it is feasible
and with `a = 0` when it is not; a reaction that is clean on entry keeps its
`h`, its `a` and its clean flag.  The constants `c`, `inhibition` and `left`
are not touched. -/
theorem calcReactProbs_recomputes_exactly_dirty (g : Gillespie)
    (hwf : ∀ r ∈ g.reactions, r.left.length = g.molecules.length)
    (i : Nat) (r : Reaction) (hr : g.reactions[i]? = some r) :
    (calcReactProbs g).2.molecules = g.molecules ∧
    ∃ r' : Reaction, (calcReactProbs g).2.reactions[i]? = some r' ∧
      r'.c = r.c ∧ r'.inhibition = r.inhibition ∧ r'.left = r.left ∧
      (r.isDirty = true →
        r'.isDirty = false ∧
        (Feasible g.molecules r → r'.a = (r'.h : ℚ) * r.c * (1 - r.inhibition)) ∧
        (¬ Feasible g.molecules r → r'.a = 0)) ∧
      (r.isDirty = false → r'.h = r.h ∧ r'.a = r.a ∧ r'.isDirty = false) := by
  refine ⟨rfl, recalcReaction g.molecules r, ?_, ?_⟩
  · simp [calcReactProbs, calcLoop_snd, hr]
  · have hlen : r.left.length = g.molecules.length := hwf r (List.getElem?_mem hr)
    have key : isPossible g.molecules { r with h := calcH g.molecules r.left } = true
        ↔ Feasible g.molecules r :=
      isPossible_iff g.molecules { r with h := calcH g.molecules r.left } hlen
    by_cases hd : r.isDirty = true
    · by_cases hf : Feasible g.molecules r
      · have hp := key.2 hf
        unfold recalcReaction
        rw [if_pos hd]
        simp only []
        rw [if_pos hp]
        simp [hf, hd]
      · have hp : ¬ isPossible g.molecules { r with h := calcH g.molecules r.left } = true :=
          fun hb => hf (key.1 hb)
        unfold recalcReaction
        rw [if_pos hd]
        simp only []
        rw [if_neg hp]
        simp [hf, hd]
    · have hd' : r.isDirty = false := by simpa using hd
      simp [recalcReaction, hd']

/-- C4, at a concrete network: the reactions of `abcNet` have one left entry
per molecule, and its dirty reaction is clean after `calcReactProbs`, with
`a = h * c * (1 - inhibition)` for the stored `h`. -/
theorem calcReactProbs_recomputes_exactly_dirty_witness :
    (∀ r ∈ abcNet.reactions, r.left.length = abcNet.molecules.length)
    ∧ abcNet.reactions[0]? = some abcReaction
    ∧ Feasible abcNet.molecules abcReaction
    ∧ ∃ r' : Reaction, (calcReactProbs abcNet).2.reactions[0]? = some r' ∧
        r'.isDirty = false ∧ r'.a = (r'.h : ℚ) * 1 * (1 - 0) := by
  have hfeas : Feasible abcNet.molecules abcReaction := by
    intro m hm
    have hm3 : m < 3 := hm
    interval_cases m <;> decide
  refine ⟨by decide, by rfl, hfeas, ?_⟩
  obtain ⟨r', h1, _, _, _, hdirty, _⟩ :=
    (calcReactProbs_recomputes_exactly_dirty abcNet (by decide) 0 abcReaction (by rfl)).2
  exact ⟨r', h1, (hdirty rfl).1, (hdirty rfl).2.1 hfeas⟩

/-- C5: the value `a0` returned by `calcReactProbs` is the sum of the `a`
fields of the reactions as they stand after the call, added up from `0` in
the order of the reactions. -/
theorem calcReactProbs_a0_eq_sum (g : Gillespie) :
    (calcReactProbs g).1
        = ((calcReactProbs g).2.reactions.map (fun r => r.a)).foldl (fun s x => s + x) 0
    ∧ (calcReactProbs g).1 = ((calcReactProbs g).2.reactions.map (fun r => r.a)).sum := by
  have h1 : (calcReactProbs g).1
      = ((calcReactProbs g).2.reactions.map (fun r => r.a)).foldl (fun s x => s + x) 0 := by
    simp only [calcReactProbs, calcLoop_fst, calcLoop_snd]
  refine ⟨h1, ?_⟩
  rw [h1, List.sum_eq_foldl]

/-- C6: on a network that `verify` has processed (the downstream lists being
empty before, as the constructors leave them), `setCount value` on molecule `m`
makes dirty every reaction with `left[m] != 0` and leaves the dirty flag of
every other reaction as it was; no reaction's `h`, `a`, `c`, `inhibition`,
`left` or `right` changes, molecule `m` gets the count `value` and every other
molecule keeps its count. -/
theorem setCount_marks_exactly_reactants (g0 g : Gillespie)
    (hfresh : ∀ x ∈ g0.molecules, x.downstreamReactions = [])
    (hv : verify g0 = .ok g) (m value : Nat) (hm : m < g.molecules.length) :
    (∀ (i : Nat) (r : Reaction), g.reactions[i]? = some r →
      ∃ r' : Reaction, (Molecule.setCount g m value).reactions[i]? = some r' ∧
        r'.isDirty = (if r.left.getD m 0 ≠ 0 then true else r.isDirty) ∧
        r'.h = r.h ∧ r'.a = r.a ∧ r'.c = r.c ∧ r'.inhibition = r.inhibition ∧
        r'.left = r.left ∧ r'.right = r.right) ∧
    (Molecule.setCount g m value).reactions.length = g.reactions.length ∧
    (Molecule.setCount g m value).molecules.length = g.molecules.length ∧
    getCount (Molecule.setCount g m value).molecules m = value ∧
    (∀ j : Nat, j ≠ m →
      getCount (Molecule.setCount g m value).molecules j = getCount g.molecules j) := by
  obtain ⟨x, hx⟩ : ∃ x, g.molecules[m]? = some x := by
    exact ⟨g.molecules[m], by simp [hm]⟩
  have hds := verify_downstream g0 g hfresh hv m x hx
  have hreact : (Molecule.setCount g m value).reactions
      = ((List.range g.reactions.length).filter
          (fun r => leftAt g.reactions r m ≠ 0)).foldl markDirty g.reactions := by
    simp [Molecule.setCount, hx, hds]
  refine ⟨?_, ?_, ?_, ?_, ?_⟩
  · intro i r hr
    have hi : i < g.reactions.length := by
      by_contra hcon
      have : g.reactions[i]? = none := by simp at hcon; simpa using hcon
      simp [this] at hr
    have hleft : leftAt g.reactions i m = r.left[m]?.getD 0 := by simp [leftAt, hr]
    rw [hreact, markDirty_foldl_getElem?, hr]
    by_cases hl : r.left[m]?.getD 0 = 0
    · refine ⟨r, ?_, ?_⟩
      · simp [hi, hleft, hl]
      · simp [hl]
    · refine ⟨{ r with isDirty := true }, ?_, ?_⟩
      · simp [hi, hleft, hl]
      · simp [hl]
  · rw [hreact]
    have : ∀ (ds : List Nat) (rs : List Reaction),
        (ds.foldl markDirty rs).length = rs.length := by
      intro ds
      induction ds with
      | nil => intro rs; rfl
      | cons d ds ih => intro rs; simp [ih, markDirty]
    exact this _ _
  · simp [Molecule.setCount]
  · simp [Molecule.setCount, getCount, hx]
  · intro j hj
    have hj' : m ≠ j := fun h => hj h.symm
    simp [Molecule.setCount, getCount, List.getElem?_modify_ne _ _ hj']

/-- C6, at a concrete network: `abcNet` is `abcLoaded` after `verify`, and
`setCount 5` on its molecule 0 gives that molecule the count 5. -/
theorem setCount_marks_exactly_reactants_witness :
    (∀ x ∈ abcLoaded.molecules, x.downstreamReactions = [])
    ∧ verify abcLoaded = .ok abcNet
    ∧ 0 < abcNet.molecules.length
    ∧ getCount (Molecule.setCount abcNet 0 5).molecules 0 = 5 :=
  ⟨by decide, by rfl, by decide,
    (setCount_marks_exactly_reactants abcLoaded abcNet (by decide) (by rfl) 0 5
      (by decide)).2.2.2.1⟩

/-- C7 (evaluation at the failing input): in `abcNet` after a first
`calcReactProbs` the reaction is feasible and clean with `h = 100`, `c = 1`,
`a = 100`; `setReactionInhibition(0, 1/2)` writes the level and leaves the
reaction clean (the state `abcStale`), so the next `calcReactProbs` keeps
`a = 100` although `h * c * (1 - level) = 50`. -/
theorem setReactionInhibition_leaves_reaction_clean :
    (calcReactProbs abcNet).2.reactions.map (fun r => (r.isDirty, r.h, r.c, r.a))
        = [(false, 100, 1, 100)]
    ∧ setReactionInhibition (calcReactProbs abcNet).2 0 (1 / 2) = .ok abcStale
    ∧ abcStale.reactions.map (fun r => (r.isDirty, r.inhibition)) = [(false, 1 / 2)]
    ∧ (calcReactProbs abcStale).2.reactions.map (fun r => (r.h, r.c, r.inhibition, r.a))
        = [(100, 1, 1 / 2, 100)]
    ∧ ((100 : Nat) : ℚ) * 1 * (1 - 1 / 2) = 50 := by
  refine ⟨?_, ?_, ?_, ?_, by norm_num⟩
  · simp [calcReactProbs, calcLoop, recalcReaction, abcNet, abcLoaded, abcReaction, isPossible, calcH,
      calcHStep, mulRepeat, numCombinations, getCount, List.range, List.range.loop, UINT_RANGE]
  · simp [setReactionInhibition, calcReactProbs, calcLoop, recalcReaction, abcNet, abcLoaded, abcReaction,
      abcStale, isPossible, calcH, calcHStep, mulRepeat, numCombinations, getCount, List.range,
      List.range.loop, UINT_RANGE]
  · simp [abcStale]
  · simp [calcReactProbs, calcLoop, recalcReaction, abcStale]

/-- C8 (evaluation at the failing input): starting from the state `abcStale`,
which `setReactionInhibition(0, 1/2)` produces from the refreshed `abcNet`, a
first `calcReactProbs` leaves `a = 100`; `setCount 10` on molecule `A`, whose
count is 10 already, changes no count; the second `calcReactProbs` gives
`a = 50`. -/
theorem cache_hit_differs_after_inhibition_change :
    setReactionInhibition (calcReactProbs abcNet).2 0 (1 / 2) = .ok abcStale
    ∧ (calcReactProbs abcStale).2.reactions.map (fun r => r.a) = [100]
    ∧ (Molecule.setCount (calcReactProbs abcStale).2 0 10).molecules.map (fun x => x.count)
        = (calcReactProbs abcStale).2.molecules.map (fun x => x.count)
    ∧ (calcReactProbs (Molecule.setCount (calcReactProbs abcStale).2 0 10)).2.reactions.map
        (fun r => r.a) = [50] := by
  refine ⟨?_, ?_, ?_, ?_⟩
  · simp [setReactionInhibition, calcReactProbs, calcLoop, recalcReaction, abcNet, abcLoaded, abcReaction,
      abcStale, isPossible, calcH, calcHStep, mulRepeat, numCombinations, getCount, List.range,
      List.range.loop, UINT_RANGE]
  · simp [calcReactProbs, calcLoop, recalcReaction, abcStale]
  · simp [Molecule.setCount, calcReactProbs, abcStale, abcNet, abcLoaded, abcReaction, List.modify,
      List.modifyTailIdx, List.modifyHead]
  · simp [Molecule.setCount, markDirty, calcReactProbs, calcLoop, recalcReaction, abcStale,
      abcNet, abcLoaded, abcReaction, isPossible, calcH, calcHStep, mulRepeat, numCombinations, getCount,
      List.range, List.range.loop, UINT_RANGE, List.modify, List.modifyTailIdx,
      List.modifyHead]
    norm_num

/-- C9: for a non-empty list of reactions and any draw `r2`, the index left by
the selection loop of `run` lies between `0` and `n - 1`; it is the least
index `i < n - 1` whose running sum `a[0] + ... + a[i]` is `>= r2` when there
is one, and `n - 1`, the last reaction, when there is none.  This is the
reaction that `run` selects whenever `a0 != 0`. -/
theorem selectFrom_least_index (rs : List Reaction) (hne : rs ≠ []) (r2 : ℚ) :
    0 ≤ selectFrom r2 rs 0 0
    ∧ selectFrom r2 rs 0 0 ≤ (rs.length : Int) - 1
    ∧ (∀ i : Nat, i < rs.length - 1 → runningSum rs 0 i ≥ r2 →
        (∀ j : Nat, j < i → runningSum rs 0 j < r2) → selectFrom r2 rs 0 0 = (i : Int))
    ∧ ((∀ i : Nat, i < rs.length - 1 → runningSum rs 0 i < r2) →
        selectFrom r2 rs 0 0 = (rs.length : Int) - 1)
    ∧ (∀ (cfg : RunConfig) (a0 : ℚ) (drawn : Nat) (res : ℚ × Int × Nat), a0 ≠ 0 →
        drawAndSelect cfg rs a0 drawn = .ok res →
        res.2.1 = selectFrom (cfg.rand (drawn + 1)) rs 0 0) := by
  obtain ⟨k, hk, hlen, hlt, hlast⟩ := selectFrom_spec r2 rs hne 0 0
  rw [hk]
  refine ⟨by omega, by omega, ?_, ?_, ?_⟩
  · intro i hi hge hmin
    have h1 : ¬ i < k := fun h => absurd hge (not_le.mpr (hlt i h))
    have h2 : ¬ k < i := by
      intro h
      have hk1 : k < rs.length - 1 := by omega
      exact absurd (hlast hk1) (not_le.mpr (hmin k h))
    have : k = i := by omega
    simp [this]
  · intro hall
    have : ¬ k < rs.length - 1 := fun h => absurd (hlast h) (not_le.mpr (hall k h))
    have : k = rs.length - 1 := by omega
    omega
  · intro cfg a0 drawn res ha0 hres
    unfold drawAndSelect at hres
    rw [if_pos ha0] at hres
    split_ifs at hres
    injection hres with hres
    rw [← hres]

/-- C9, at a concrete list: with propensities 1, 2, 3 and `r2 = 2` the running
sums are 1 and 3, and index 1 is selected. -/
theorem selectFrom_least_index_witness :
    [withPropensity 1, withPropensity 2, withPropensity 3] ≠ []
    ∧ selectFrom 2 [withPropensity 1, withPropensity 2, withPropensity 3] 0 0 = 1 := by
  refine ⟨by decide, ?_⟩
  have h := (selectFrom_least_index [withPropensity 1, withPropensity 2, withPropensity 3]
    (by decide) 2).2.2.1 1 (by decide) (by norm_num [runningSum, withPropensity])
    (by
      intro j hj
      have : j = 0 := by omega
      subst this
      norm_num [runningSum, withPropensity])
  simpa using h

theorem plotLoop_stuck (t stopTime : ℚ) (counts : List Nat) (plotTime : ℚ)
    (h1 : plotTime ≤ t) (h2 : plotTime ≤ stopTime) (fuel : Nat) :
    plotLoop 0 t stopTime counts fuel plotTime = none := by
  induction fuel with
  | zero => simp [plotLoop, h1, h2]
  | succ n ih => simp [plotLoop, h1, h2, ih]

theorem runIter_monitorConfig_abcStart :
    (runIter monitorConfig abcStart).map (fun res => (res.1.stopTime, res.1.t, res.2))
      = .ok (5, 1 / 100, true) := by
  simp [runIter, stepFrom, plotSamples, plotFuel, plotLoop, applyOrStop, applyLoop, delta,
    leftAt, rightAt, Molecule.setCount, markDirty, drawAndSelect, selectFrom, monitorStep,
    processAll, Sched.processEvents, abcStart, runInit, monitorConfig, plainConfig,
    calcReactProbs, calcLoop, recalcReaction, abcNet, abcLoaded, abcReaction, isPossible,
    calcH, calcHStep, mulRepeat, numCombinations, getCount, List.range, List.range.loop,
    UINT_RANGE, List.modify, List.modifyTailIdx, List.modifyHead, Except.map]
  norm_num
  rw [show (1 : ℕ) = 0 + 1 from rfl]
  norm_num [plotLoop]

/-- C12 (evaluation at the failing input): `run` is called on `abcNet` with
stop time 1, monitoring `A` with threshold 10 and delay 5.  In the first pass
(`t = 0`) the count of `A` equals the threshold, and the monitor sets
`stopTime = t + monitorDelay = 5`, although `min 1 (0 + 5) = 1`; the pass ends
with stop time 5 and the loop goes on. -/
theorem monitor_stop_time_exceeds_configured :
    abcStart.stopTime = 1
    ∧ (monitorStep monitorConfig abcStart).stopTime = 5
    ∧ (monitorStep monitorConfig abcStart).thresholdReached = true
    ∧ min (1 : ℚ) (abcStart.t + monitorConfig.monitorDelay) = 1
    ∧ (runIter monitorConfig abcStart).map (fun res => (res.1.stopTime, res.1.t, res.2))
        = .ok (5, 1 / 100, true) := by
  refine ⟨by rfl, ?_, ?_, ?_, runIter_monitorConfig_abcStart⟩
  · norm_num [monitorStep, monitorConfig, plainConfig, abcStart, runInit, abcNet, abcLoaded,
      getCount]
  · norm_num [monitorStep, monitorConfig, plainConfig, abcStart, runInit, abcNet, abcLoaded,
      getCount]
  · norm_num [monitorConfig, plainConfig, abcStart, runInit]

/-- C16 (evaluation at the failing input): `run` on `abcNet` with
`plotInterval = 0`.  In the first pass `t` advances to `1/100`, and the loop
that prints the samples never ends: whatever the number of rounds it is given,
it is still running, because `plotTime` stays at 0. -/
theorem plot_loop_never_ends_for_zero_interval :
    everyStepConfig.plotInterval = 0
    ∧ runIter everyStepConfig abcStart = .error .diverges
    ∧ (∀ fuel : Nat, plotLoop 0 (1 / 100) 1 [10, 10, 0] fuel 0 = none) := by
  refine ⟨by rfl, ?_, ?_⟩
  · simp [runIter, stepFrom, plotSamples, drawAndSelect, selectFrom, monitorStep, processAll,
      Sched.processEvents, abcStart, runInit, everyStepConfig, plainConfig, calcReactProbs,
      calcLoop, recalcReaction, abcNet, abcLoaded, abcReaction, isPossible, calcH, calcHStep,
      mulRepeat, numCombinations, getCount, List.range, List.range.loop, UINT_RANGE]
    norm_num
  · intro fuel
    exact plotLoop_stuck (1 / 100) 1 [10, 10, 0] 0 (by norm_num) (by norm_num) fuel

/-- C18: for `abcNet` (`A = 10`, `B = 10`, `C = 0`, reaction `A + B ---> C`
with `c = 1`, not inhibited), which is `abcLoaded` after `verify`: the first
`calcReactProbs` returns 100; applying the reaction then gives the counts
9, 9, 1 and leaves the reaction dirty, and the next `calcReactProbs`
returns 81. -/
theorem abc_scenario_propensities :
    verify abcLoaded = .ok abcNet
    ∧ (calcReactProbs abcNet).1 = 100
    ∧ (applyLoop 0 (List.range (calcReactProbs abcNet).2.molecules.length)
          (calcReactProbs abcNet).2).map
        (fun g => (g.molecules.map (fun x => x.count), g.reactions.map (fun r => r.isDirty),
          (calcReactProbs g).1))
        = .ok ([9, 9, 1], [true], 81) := by
  refine ⟨by rfl, ?_, ?_⟩
  · simp [calcReactProbs, calcLoop, recalcReaction, abcNet, abcLoaded, abcReaction, isPossible,
      calcH, calcHStep, mulRepeat, numCombinations, getCount, List.range, List.range.loop,
      UINT_RANGE]
  · simp [applyLoop, delta, leftAt, rightAt, Molecule.setCount, markDirty, calcReactProbs,
      calcLoop, recalcReaction, abcNet, abcLoaded, abcReaction, isPossible, calcH, calcHStep,
      mulRepeat, numCombinations, getCount, List.range, List.range.loop, UINT_RANGE,
      List.modify, List.modifyTailIdx, List.modifyHead, Except.map]

/-- C20 (evaluation at the failing input): `abcNet` has 3 molecules and 1
reaction.  `setMoleculeCount` with `id = 3` and `setReactionInhibition` with
`id = 1` pass the `ABORT_IF` test `id > size` and index their vector at its
size; only larger indices abort. -/
theorem index_equal_to_size_is_not_caught :
    abcNet.molecules.length = 3
    ∧ setMoleculeCount abcNet 3 7 = .error .outOfBounds
    ∧ setMoleculeCount abcNet 4 7 = .error .abort
    ∧ abcNet.reactions.length = 1
    ∧ setReactionInhibition abcNet 1 (1 / 2) = .error .outOfBounds
    ∧ setReactionInhibition abcNet 2 (1 / 2) = .error .abort := by
  refine ⟨by rfl, by rfl, by rfl, by rfl, by rfl, by rfl⟩

theorem uint_range_pos : 1 < UINT_RANGE := by
  unfold UINT_RANGE; norm_num

/-- C17 (evaluation at the failing input): for a reaction with no reactant
(`left = [0, 0, 0]`), `k = 1` and `volume = 2`, the exponent `n - 1` wraps to
`2 ^ 32 - 1`, and `c = 1 / 2 ^ (2 ^ 32 - 1)`, which is at most 1 and not
`k * volume = 2`. -/
theorem zero_order_constant_wraps_exponent :
    stochasticConstant [0, 0, 0] 1 2 = 1 / 2 ^ (UINT_RANGE - 1)
    ∧ stochasticConstant [0, 0, 0] 1 2 ≤ 1
    ∧ stochasticConstant [0, 0, 0] 1 2 ≠ 1 * 2 := by
  have hpos := uint_range_pos
  have h1 : 1 % UINT_RANGE = 1 := Nat.mod_eq_of_lt hpos
  have hexp : (UINT_RANGE - 1) % UINT_RANGE = UINT_RANGE - 1 :=
    Nat.mod_eq_of_lt (by omega)
  have hval : stochasticConstant [0, 0, 0] 1 2 = 1 / 2 ^ (UINT_RANGE - 1) := by
    simp [stochasticConstant, factorial, factorialLoop, h1, hexp]
  have hle : stochasticConstant [0, 0, 0] 1 2 ≤ 1 := by
    rw [hval]
    generalize UINT_RANGE - 1 = N
    have h2 : (1 : ℚ) ≤ 2 ^ N := one_le_pow₀ (by norm_num)
    exact div_le_one_of_le₀ h2 (by positivity)
  refine ⟨hval, hle, ?_⟩
  intro h
  rw [h] at hle
  norm_num at hle

theorem applyOrStop_frame (s s' : RunState) (r : Int) (b : Bool)
    (h : applyOrStop s r = .ok (s', b)) :
    s'.stopTime = s.stopTime ∧ s'.thresholdReached = s.thresholdReached ∧ s'.t = s.t
    ∧ s'.plotTime = s.plotTime ∧ s'.output = s.output ∧ s'.drawn = s.drawn
    ∧ s'.nextEvent = s.nextEvent := by
  unfold applyOrStop at h
  split_ifs at h with h1 h2
  · split at h
    · injection h with h
      injection h with h3 h4
      subst h3
      simp
    · exact absurd h (by simp)
  · injection h with h
    injection h with h3 h4
    subst h3
    simp
  · injection h with h
    injection h with h3 h4
    subst h3
    simp

theorem stepFrom_frame (cfg : RunConfig) (s s' : RunState) (b : Bool)
    (h : stepFrom cfg s = .ok (s', b)) :
    s'.stopTime = s.stopTime ∧ s'.thresholdReached = s.thresholdReached
    ∧ s'.nextEvent = s.nextEvent := by
  unfold stepFrom at h
  split at h
  · exact absurd h (by simp)
  · split at h
    · exact absurd h (by simp)
    · have hf := applyOrStop_frame _ _ _ _ h
      exact ⟨hf.1, hf.2.1, hf.2.2.2.2.2.2⟩

theorem runIter_monitor (cfg : RunConfig) (s s' : RunState) (b : Bool) (g1 : Gillespie)
    (hd : processAll s.g (Sched.processEvents s.t s.nextEvent).1 = .ok g1)
    (h : runIter cfg s = .ok (s', b)) :
    s'.stopTime = (monitorStep cfg
        { s with g := g1, nextEvent := (Sched.processEvents s.t s.nextEvent).2 }).stopTime
    ∧ s'.thresholdReached = (monitorStep cfg
        { s with g := g1, nextEvent := (Sched.processEvents s.t s.nextEvent).2 }).thresholdReached := by
  unfold runIter at h
  rw [hd] at h
  have hf := stepFrom_frame _ _ _ _ h
  exact ⟨hf.1, hf.2.1⟩

theorem runIter_dispatch (cfg : RunConfig) (s s' : RunState) (b : Bool)
    (h : runIter cfg s = .ok (s', b)) :
    ∃ g1, processAll s.g (Sched.processEvents s.t s.nextEvent).1 = .ok g1 := by
  unfold runIter at h
  split at h
  · exact absurd h (by simp)
  · rename_i g1 hg
    exact ⟨g1, hg⟩

theorem runIter_after_trigger (cfg : RunConfig) (s s' : RunState) (b : Bool)
    (htr : s.thresholdReached = true) (h : runIter cfg s = .ok (s', b)) :
    s'.stopTime = s.stopTime ∧ s'.thresholdReached = true := by
  obtain ⟨g1, hd⟩ := runIter_dispatch cfg s s' b h
  obtain ⟨h1, h2⟩ := runIter_monitor cfg s s' b g1 hd h
  rw [h1, h2]
  simp [monitorStep, htr]

theorem runLoop_after_trigger (cfg : RunConfig) (fuel : Nat) (s s' : RunState) (b : Bool)
    (htr : s.thresholdReached = true) (h : runLoop cfg fuel s = .ok (s', b)) :
    s'.stopTime = s.stopTime ∧ s'.thresholdReached = true := by
  induction fuel generalizing s with
  | zero =>
    simp only [runLoop] at h
    injection h with h
    injection h with h1 h2
    subst h1
    exact ⟨rfl, htr⟩
  | succ n ih =>
    simp only [runLoop] at h
    split_ifs at h with hc
    · split at h
      · exact absurd h (by simp)
      · rename_i s1 hit
        obtain ⟨h1, h2⟩ := runIter_after_trigger cfg s s1 true htr hit
        obtain ⟨h3, h4⟩ := ih s1 h2 h
        exact ⟨h3.trans h1, h4⟩
      · rename_i s1 hit
        obtain ⟨h1, h2⟩ := runIter_after_trigger cfg s s1 false htr hit
        injection h with h
        injection h with h3 h4
        subst h3
        exact ⟨h1, h2⟩
    · injection h with h
      injection h with h1 h2
      subst h1
      exact ⟨rfl, htr⟩

/-- C11: in a pass through the loop of `run`, `g1` being the object after the
due events have been processed.  When monitoring is on, `thresholdReached` is
`false` and the monitored count equals the threshold or its `count > threshold`
differs from the value recorded at the start, the pass ends with
`stopTime = t + monitorDelay` (`t` as at the start of the pass) and
`thresholdReached = true`.  In every other pass `stopTime` and
`thresholdReached` are as before.  And once `thresholdReached` is `true`,
however many passes follow, `stopTime` and `thresholdReached` stay. -/
theorem monitor_fires_at_most_once (cfg : RunConfig) (s s' : RunState) (b : Bool)
    (g1 : Gillespie)
    (hd : processAll s.g (Sched.processEvents s.t s.nextEvent).1 = .ok g1)
    (h : runIter cfg s = .ok (s', b)) :
    ((cfg.monitoring = true ∧ s.thresholdReached = false ∧
        (((getCount g1.molecules cfg.monitorIndex : ℚ) = cfg.threshold) ∨
          decide ((getCount g1.molecules cfg.monitorIndex : ℚ) > cfg.threshold)
            ≠ cfg.monitorInitState)) →
      s'.stopTime = s.t + cfg.monitorDelay ∧ s'.thresholdReached = true)
    ∧ (¬ (cfg.monitoring = true ∧ s.thresholdReached = false ∧
        (((getCount g1.molecules cfg.monitorIndex : ℚ) = cfg.threshold) ∨
          decide ((getCount g1.molecules cfg.monitorIndex : ℚ) > cfg.threshold)
            ≠ cfg.monitorInitState)) →
      s'.stopTime = s.stopTime ∧ s'.thresholdReached = s.thresholdReached)
    ∧ (s'.thresholdReached = true →
        ∀ (fuel : Nat) (s2 : RunState) (b2 : Bool), runLoop cfg fuel s' = .ok (s2, b2) →
          s2.stopTime = s'.stopTime ∧ s2.thresholdReached = true) := by
  obtain ⟨h1, h2⟩ := runIter_monitor cfg s s' b g1 hd h
  refine ⟨?_, ?_, ?_⟩
  · rintro ⟨hm, htr, hc⟩
    rw [h1, h2]
    unfold monitorStep
    rw [if_pos ⟨hm, htr⟩, if_pos hc]
    exact ⟨rfl, rfl⟩
  · intro hn
    rw [h1, h2]
    unfold monitorStep
    by_cases hmt : cfg.monitoring = true ∧ s.thresholdReached = false
    · have hc : ¬ (((getCount g1.molecules cfg.monitorIndex : ℚ) = cfg.threshold) ∨
          decide ((getCount g1.molecules cfg.monitorIndex : ℚ) > cfg.threshold)
            ≠ cfg.monitorInitState) := fun hc => hn ⟨hmt.1, hmt.2, hc⟩
      rw [if_pos hmt, if_neg hc]
      exact ⟨rfl, rfl⟩
    · rw [if_neg hmt]
      exact ⟨rfl, rfl⟩
  · intro htr fuel s2 b2 hrun
    exact runLoop_after_trigger cfg fuel s' s2 b2 htr hrun

/-- C11, at a concrete run: with `monitorConfig` on `abcNet` the first pass
fires the monitor and ends with `stopTime = 0 + 5`. -/
theorem monitor_fires_at_most_once_witness :
    ∃ (s' : RunState) (b : Bool), runIter monitorConfig abcStart = .ok (s', b)
      ∧ s'.stopTime = 0 + 5 ∧ s'.thresholdReached = true := by
  cases hrun : runIter monitorConfig abcStart with
  | error e =>
    have h := runIter_monitorConfig_abcStart
    rw [hrun] at h
    exact absurd h (by simp [Except.map])
  | ok res =>
    obtain ⟨s', b⟩ := res
    refine ⟨s', b, rfl, ?_⟩
    exact (monitor_fires_at_most_once monitorConfig abcStart s' b abcNet (by rfl) hrun).1
      ⟨by rfl, by rfl, Or.inl (by norm_num [getCount, abcNet, abcLoaded, monitorConfig, plainConfig])⟩

theorem setCount_reactions_getElem? (g : Gillespie) (m v i : Nat) :
    (Molecule.setCount g m v).reactions[i]?
      = (g.reactions[i]?).map (fun x =>
          if i ∈ downstreamAt g.molecules m then { x with isDirty := true } else x) := by
  simp only [Molecule.setCount, downstreamAt]
  exact markDirty_foldl_getElem? _ _ _

theorem setCount_leftAt (g : Gillespie) (m v r j : Nat) :
    leftAt (Molecule.setCount g m v).reactions r j = leftAt g.reactions r j := by
  unfold leftAt
  rw [setCount_reactions_getElem?]
  cases g.reactions[r]? with
  | none => rfl
  | some x => by_cases h : r ∈ downstreamAt g.molecules m <;> simp [h]

theorem setCount_rightAt (g : Gillespie) (m v r j : Nat) :
    rightAt (Molecule.setCount g m v).reactions r j = rightAt g.reactions r j := by
  unfold rightAt
  rw [setCount_reactions_getElem?]
  cases g.reactions[r]? with
  | none => rfl
  | some x => by_cases h : r ∈ downstreamAt g.molecules m <;> simp [h]

theorem setCount_isDirtyAt_mono (g : Gillespie) (m v i : Nat)
    (h : isDirtyAt g.reactions i = true) :
    isDirtyAt (Molecule.setCount g m v).reactions i = true := by
  unfold isDirtyAt at h ⊢
  rw [setCount_reactions_getElem?]
  cases hx : g.reactions[i]? with
  | none => simp [hx] at h
  | some x =>
    simp only [hx] at h
    by_cases hd : i ∈ downstreamAt g.molecules m <;> simp [hd, h]

theorem setCount_isDirtyAt_new (g : Gillespie) (m v i : Nat)
    (hi : i < g.reactions.length) (hd : i ∈ downstreamAt g.molecules m) :
    isDirtyAt (Molecule.setCount g m v).reactions i = true := by
  unfold isDirtyAt
  rw [setCount_reactions_getElem?]
  have : g.reactions[i]? = some g.reactions[i] := by simp [hi]
  rw [this]
  simp [hd]

theorem setCount_reactions_length (g : Gillespie) (m v : Nat) :
    (Molecule.setCount g m v).reactions.length = g.reactions.length := by
  have : ∀ (ds : List Nat) (rs : List Reaction),
      (ds.foldl markDirty rs).length = rs.length := by
    intro ds
    induction ds with
    | nil => intro rs; rfl
    | cons d ds ih => intro rs; simp [ih, markDirty]
  simp only [Molecule.setCount]
  exact this _ _

theorem setCount_molecules_length (g : Gillespie) (m v : Nat) :
    (Molecule.setCount g m v).molecules.length = g.molecules.length := by
  simp [Molecule.setCount]

theorem setCount_molecules_ne (g : Gillespie) (m v j : Nat) (hj : j ≠ m) :
    (Molecule.setCount g m v).molecules[j]? = g.molecules[j]? := by
  have hj' : m ≠ j := fun h => hj h.symm
  simp [Molecule.setCount, List.getElem?_modify_ne _ _ hj']

theorem setCount_getCount_eq (g : Gillespie) (m v : Nat) (hm : m < g.molecules.length) :
    getCount (Molecule.setCount g m v).molecules m = v := by
  have : g.molecules[m]? = some g.molecules[m] := by simp [hm]
  simp [Molecule.setCount, getCount, this]

theorem setCount_downstreamAt (g : Gillespie) (m v j : Nat) :
    downstreamAt (Molecule.setCount g m v).molecules j = downstreamAt g.molecules j := by
  unfold downstreamAt
  simp only [Molecule.setCount, List.getElem?_modify]
  cases g.molecules[j]? with
  | none => rfl
  | some x => by_cases h : m = j <;> simp [h]

theorem setCount_getCount_ne (g : Gillespie) (m v j : Nat) (hj : j ≠ m) :
    getCount (Molecule.setCount g m v).molecules j = getCount g.molecules j := by
  unfold getCount
  rw [setCount_molecules_ne g m v j hj]

theorem newCount_setCount_ne (g : Gillespie) (m v r j : Nat) (hj : j ≠ m) :
    newCount (Molecule.setCount g m v) r j = newCount g r j := by
  unfold newCount
  rw [setCount_leftAt, setCount_rightAt, setCount_getCount_ne g m v j hj]

theorem applyLoop_cons (r m : Nat) (ms : List Nat) (g : Gillespie)
    (hm : m < g.molecules.length) :
    applyLoop r (m :: ms) g =
      if delta (leftAt g.reactions r m) (rightAt g.reactions r m) ≠ 0 then
        if newCount g r m > 1000000 then .error .abort
        else applyLoop r ms (Molecule.setCount g m (newCount g r m))
      else applyLoop r ms g := by
  simp only [applyLoop, newCount]
  rw [setCount_getCount_eq g m _ hm]

theorem applyLoop_error (r : Nat) (ms : List Nat) (g : Gillespie) (e : Fault)
    (h : applyLoop r ms g = .error e) : e = .abort := by
  induction ms generalizing g with
  | nil => simp [applyLoop] at h
  | cons m ms ih =>
    simp only [applyLoop] at h
    split_ifs at h
    · injection h with h; exact h.symm
    · exact ih _ h
    · exact ih _ h

theorem applyLoop_abort_iff (r : Nat) (ms : List Nat) (hnd : ms.Nodup) (g : Gillespie)
    (hlt : ∀ m ∈ ms, m < g.molecules.length) :
    applyLoop r ms g = .error .abort ↔
      ∃ m ∈ ms, delta (leftAt g.reactions r m) (rightAt g.reactions r m) ≠ 0
        ∧ newCount g r m > 1000000 := by
  induction ms generalizing g with
  | nil => simp [applyLoop]
  | cons m ms ih =>
    have hm : m < g.molecules.length := hlt m (List.mem_cons_self _ _)
    have hnd' : ms.Nodup := (List.nodup_cons.mp hnd).2
    have hnotin : m ∉ ms := (List.nodup_cons.mp hnd).1
    rw [applyLoop_cons r m ms g hm]
    by_cases hdel : delta (leftAt g.reactions r m) (rightAt g.reactions r m) ≠ 0
    · rw [if_pos hdel]
      by_cases hbig : newCount g r m > 1000000
      · rw [if_pos hbig]
        exact ⟨fun _ => ⟨m, List.mem_cons_self _ _, hdel, hbig⟩, fun _ => rfl⟩
      · rw [if_neg hbig]
        rw [ih hnd' (Molecule.setCount g m (newCount g r m))
          (fun j hj => by
            rw [setCount_molecules_length]
            exact hlt j (List.mem_cons_of_mem _ hj))]
        constructor
        · rintro ⟨j, hj, hd, hb⟩
          have hne : j ≠ m := fun h => hnotin (h ▸ hj)
          rw [setCount_leftAt, setCount_rightAt] at hd
          rw [newCount_setCount_ne g m _ r j hne] at hb
          exact ⟨j, List.mem_cons_of_mem _ hj, hd, hb⟩
        · rintro ⟨j, hj, hd, hb⟩
          rcases List.mem_cons.mp hj with h | h
          · subst h; exact absurd hb hbig
          · have hne : j ≠ m := fun h' => hnotin (h' ▸ h)
            refine ⟨j, h, ?_, ?_⟩
            · rw [setCount_leftAt, setCount_rightAt]; exact hd
            · rw [newCount_setCount_ne g m _ r j hne]; exact hb
    · rw [if_neg hdel]
      rw [ih hnd' g (fun j hj => hlt j (List.mem_cons_of_mem _ hj))]
      constructor
      · rintro ⟨j, hj, hd, hb⟩
        exact ⟨j, List.mem_cons_of_mem _ hj, hd, hb⟩
      · rintro ⟨j, hj, hd, hb⟩
        rcases List.mem_cons.mp hj with h | h
        · subst h; exact absurd hd hdel
        · exact ⟨j, h, hd, hb⟩

theorem getCount_congr (ms ms' : List Molecule) (j : Nat) (h : ms'[j]? = ms[j]?) :
    getCount ms' j = getCount ms j := by
  unfold getCount; rw [h]

theorem applyLoop_ok (r : Nat) (ms : List Nat) (hnd : ms.Nodup) (g g' : Gillespie)
    (hlt : ∀ m ∈ ms, m < g.molecules.length) (h : applyLoop r ms g = .ok g') :
    g'.molecules.length = g.molecules.length ∧ g'.reactions.length = g.reactions.length
    ∧ (∀ i j : Nat, leftAt g'.reactions i j = leftAt g.reactions i j)
    ∧ (∀ j : Nat, downstreamAt g'.molecules j = downstreamAt g.molecules j)
    ∧ (∀ i : Nat, isDirtyAt g.reactions i = true → isDirtyAt g'.reactions i = true)
    ∧ (∀ m ∈ ms, delta (leftAt g.reactions r m) (rightAt g.reactions r m) ≠ 0 →
        getCount g'.molecules m = newCount g r m
        ∧ ∀ i ∈ downstreamAt g.molecules m, i < g.reactions.length →
            isDirtyAt g'.reactions i = true)
    ∧ (∀ j : Nat, (j ∉ ms ∨ delta (leftAt g.reactions r j) (rightAt g.reactions r j) = 0) →
        g'.molecules[j]? = g.molecules[j]?) := by
  induction ms generalizing g with
  | nil =>
    simp only [applyLoop] at h
    injection h with h
    subst h
    refine ⟨rfl, rfl, fun _ _ => rfl, fun _ => rfl, fun _ hi => hi, ?_, fun _ _ => rfl⟩
    intro m hm; simp at hm
  | cons m ms ih =>
    have hm : m < g.molecules.length := hlt m (List.mem_cons_self _ _)
    have hnd' : ms.Nodup := (List.nodup_cons.mp hnd).2
    have hnotin : m ∉ ms := (List.nodup_cons.mp hnd).1
    rw [applyLoop_cons r m ms g hm] at h
    by_cases hdel : delta (leftAt g.reactions r m) (rightAt g.reactions r m) ≠ 0
    · rw [if_pos hdel] at h
      by_cases hbig : newCount g r m > 1000000
      · rw [if_pos hbig] at h
        exact absurd h (by simp)
      · rw [if_neg hbig] at h
        obtain ⟨h1, h2, h3, h4, h5, h6, h7⟩ :=
          ih hnd' (Molecule.setCount g m (newCount g r m))
            (fun j hj => by
              rw [setCount_molecules_length]
              exact hlt j (List.mem_cons_of_mem _ hj)) h
        refine ⟨?_, ?_, ?_, ?_, ?_, ?_, ?_⟩
        · rw [h1, setCount_molecules_length]
        · rw [h2, setCount_reactions_length]
        · intro i j; rw [h3, setCount_leftAt]
        · intro j; rw [h4, setCount_downstreamAt]
        · intro i hi; exact h5 i (setCount_isDirtyAt_mono g m _ i hi)
        · intro j hj hd
          rcases List.mem_cons.mp hj with hjm | hjm
          · subst hjm
            refine ⟨?_, ?_⟩
            · rw [getCount_congr _ _ j (h7 j (Or.inl hnotin))]
              exact setCount_getCount_eq g j _ hm
            · intro i hi hlen
              exact h5 i (setCount_isDirtyAt_new g j _ i hlen hi)
          · have hne : j ≠ m := fun h' => hnotin (h' ▸ hjm)
            have hd' : delta (leftAt (Molecule.setCount g m (newCount g r m)).reactions r j)
                (rightAt (Molecule.setCount g m (newCount g r m)).reactions r j) ≠ 0 := by
              rw [setCount_leftAt, setCount_rightAt]; exact hd
            obtain ⟨hc, hdirty⟩ := h6 j hjm hd'
            refine ⟨?_, ?_⟩
            · rw [hc, newCount_setCount_ne g m _ r j hne]
            · intro i hi hlen
              apply hdirty i
              · rw [setCount_downstreamAt]; exact hi
              · rw [setCount_reactions_length]; exact hlen
        · intro j hj
          have hne : j ≠ m := by
            rcases hj with hj | hj
            · exact fun h' => hj (h' ▸ List.mem_cons_self _ _)
            · exact fun h' => hdel (h' ▸ hj)
          have hj2 : j ∉ ms ∨ delta (leftAt (Molecule.setCount g m (newCount g r m)).reactions r j)
              (rightAt (Molecule.setCount g m (newCount g r m)).reactions r j) = 0 := by
            rcases hj with hj | hj
            · exact Or.inl (fun h' => hj (List.mem_cons_of_mem _ h'))
            · right; rw [setCount_leftAt, setCount_rightAt]; exact hj
          rw [h7 j hj2, setCount_molecules_ne g m _ j hne]
    · rw [if_neg hdel] at h
      obtain ⟨h1, h2, h3, h4, h5, h6, h7⟩ :=
        ih hnd' g (fun j hj => hlt j (List.mem_cons_of_mem _ hj)) h
      refine ⟨h1, h2, h3, h4, h5, ?_, ?_⟩
      · intro j hj hd
        rcases List.mem_cons.mp hj with hjm | hjm
        · subst hjm; exact absurd hd hdel
        · exact h6 j hjm hd
      · intro j hj
        by_cases hjm : j = m
        · subst hjm; exact h7 j (Or.inl hnotin)
        · rcases hj with hj | hj
          · exact h7 j (Or.inl (fun h' => hj (List.mem_cons_of_mem _ h')))
          · exact h7 j (Or.inr hj)

theorem delta_ne_zero_iff (l r : Nat) (hl : l < UINT_RANGE) (hr : r < UINT_RANGE) :
    delta l r ≠ 0 ↔ l ≠ r := by
  unfold delta
  unfold UINT_RANGE at *
  norm_num at *
  omega

theorem newCount_exact (g : Gillespie) (r m : Nat)
    (hr : rightAt g.reactions r m < UINT_RANGE)
    (hfeas : leftAt g.reactions r m ≤ getCount g.molecules m)
    (hno : getCount g.molecules m - leftAt g.reactions r m + rightAt g.reactions r m
      < UINT_RANGE) :
    newCount g r m
      = getCount g.molecules m - leftAt g.reactions r m + rightAt g.reactions r m := by
  unfold newCount delta
  unfold UINT_RANGE at *
  norm_num at *
  omega

theorem applyOrStop_fire (s s' : RunState) (ri : Int) (b : Bool) (hri : ri ≠ -1)
    (h : applyOrStop s ri = .ok (s', b)) :
    applyLoop ri.toNat (List.range s.g.molecules.length) s.g = .ok s'.g ∧ b = true := by
  unfold applyOrStop at h
  rw [if_pos hri] at h
  split at h
  · rename_i g1 hg
    injection h with h
    injection h with h1 h2
    subst h1
    exact ⟨hg, h2.symm⟩
  · exact absurd h (by simp)

/-- C14: applying reaction `r` (the loop of `run` over the molecules) takes the
abort path if and only if some molecule with `delta != 0` has a new count
above 1000000; it fails in no other way, and it completes when every new count
is at most 1000000, so that a new count of exactly 1000000 does not abort.  In
`run` the loop is entered exactly when a reaction has been selected. -/
theorem apply_aborts_iff_count_above_bound (g : Gillespie) (r : Nat) :
    (applyLoop r (List.range g.molecules.length) g = .error .abort ↔
      ∃ m : Nat, m < g.molecules.length
        ∧ delta (leftAt g.reactions r m) (rightAt g.reactions r m) ≠ 0
        ∧ newCount g r m > 1000000)
    ∧ (∀ e : Fault, applyLoop r (List.range g.molecules.length) g = .error e → e = .abort)
    ∧ ((∀ m : Nat, m < g.molecules.length →
          delta (leftAt g.reactions r m) (rightAt g.reactions r m) ≠ 0 →
          newCount g r m ≤ 1000000) →
        ∃ g' : Gillespie, applyLoop r (List.range g.molecules.length) g = .ok g')
    ∧ (∀ (s : RunState) (ri : Int), s.g = g → ri ≠ -1 → ri.toNat = r →
        (applyOrStop s ri = .error .abort ↔
          applyLoop r (List.range g.molecules.length) g = .error .abort)) := by
  have hiff := applyLoop_abort_iff r (List.range g.molecules.length) (List.nodup_range _) g
    (fun m hm => List.mem_range.mp hm)
  have hiff' : applyLoop r (List.range g.molecules.length) g = .error .abort ↔
      ∃ m : Nat, m < g.molecules.length
        ∧ delta (leftAt g.reactions r m) (rightAt g.reactions r m) ≠ 0
        ∧ newCount g r m > 1000000 := by
    rw [hiff]
    constructor
    · rintro ⟨m, hm, h1, h2⟩; exact ⟨m, List.mem_range.mp hm, h1, h2⟩
    · rintro ⟨m, hm, h1, h2⟩; exact ⟨m, List.mem_range.mpr hm, h1, h2⟩
  refine ⟨hiff', fun e he => applyLoop_error r _ g e he, ?_, ?_⟩
  · intro hall
    cases hres : applyLoop r (List.range g.molecules.length) g with
    | ok g' => exact ⟨g', rfl⟩
    | error e =>
      have he := applyLoop_error r _ g e hres
      subst he
      obtain ⟨m, hm, h1, h2⟩ := hiff'.mp hres
      exact absurd h2 (not_lt.mpr (hall m hm h1))
  · intro s ri hs hri hr
    subst hs hr
    unfold applyOrStop
    rw [if_pos hri]
    cases applyLoop ri.toNat (List.range s.g.molecules.length) s.g with
    | ok g' => simp
    | error e => simp

/-- C14, at a concrete network: in `abcNearBound` the new count of `C` is
exactly 1000000 and applying the reaction completes. -/
theorem apply_aborts_iff_count_above_bound_witness :
    newCount abcNearBound 0 2 = 1000000
    ∧ ∃ g' : Gillespie,
        applyLoop 0 (List.range abcNearBound.molecules.length) abcNearBound = .ok g' :=
  ⟨by decide,
   (apply_aborts_iff_count_above_bound abcNearBound 0).2.2.1 (by
      intro m hm _
      have hm3 : m < 3 := hm
      interval_cases m <;> decide)⟩

theorem plotLoop_some (pI t stopTime : ℚ) (counts : List Nat) (fuel : Nat) (plotTime : ℚ)
    (res : ℚ × List (ℚ × List Nat))
    (h : plotLoop pI t stopTime counts fuel plotTime = some res) :
    ∃ n : Nat, res.1 = plotTime + n * pI
      ∧ res.2 = (List.range n).map (fun k : Nat => (plotTime + (k : ℚ) * pI, counts))
      ∧ (∀ k : Nat, k < n → plotTime + k * pI ≤ t ∧ plotTime + k * pI ≤ stopTime)
      ∧ ¬ (res.1 ≤ t ∧ res.1 ≤ stopTime) := by
  induction fuel generalizing plotTime res with
  | zero =>
    simp only [plotLoop] at h
    split_ifs at h with hc
    injection h with h
    subst h
    exact ⟨0, by simp, by simp, fun k hk => absurd hk (Nat.not_lt_zero k), hc⟩
  | succ m ih =>
    simp only [plotLoop] at h
    split_ifs at h with hc
    · cases hin : plotLoop pI t stopTime counts m (plotTime + pI) with
      | none => simp [hin] at h
      | some res' =>
        simp only [hin, Option.map_some', Option.some.injEq] at h
        subst h
        obtain ⟨n, h1, h2, h3, h4⟩ := ih (plotTime + pI) res' hin
        refine ⟨n + 1, ?_, ?_, ?_, ?_⟩
        · simp only [h1]; push_cast; ring
        · simp only [h2, List.range_succ_eq_map, List.map_cons, List.map_map]
          refine congrArg₂ _ (by simp) ?_
          apply List.map_congr_left
          intro k _
          simp only [Function.comp, Nat.succ_eq_add_one]
          push_cast
          ring_nf
        · intro k hk
          cases k with
          | zero => simpa using hc
          | succ j =>
            have := h3 j (by omega)
            have e : plotTime + ((j + 1 : ℕ) : ℚ) * pI = plotTime + pI + j * pI := by
              push_cast; ring
            rw [e]; exact this
        · exact h4
    · injection h with h
      subst h
      exact ⟨0, by simp, by simp, fun k hk => absurd hk (Nat.not_lt_zero k), hc⟩

theorem stepFrom_samples (cfg : RunConfig) (s s' : RunState) (b : Bool)
    (h : stepFrom cfg s = .ok (s', b)) :
    ∃ res : ℚ × List (ℚ × List Nat),
      plotSamples cfg.plotInterval s'.t s.stopTime
          (s.g.molecules.map (fun x => x.count)) s.plotTime = .ok res
      ∧ s'.plotTime = res.1 ∧ s'.output = s.output ++ res.2 ∧ s'.stopTime = s.stopTime := by
  unfold stepFrom at h
  split at h
  · exact absurd h (by simp)
  · split at h
    · exact absurd h (by simp)
    · rename_i tau r drawn1 hdraw e' plotTime1 samples hplot
      have hf := applyOrStop_frame _ _ _ _ h
      obtain ⟨hf1, _, hf3, hf4, hf5, _, _⟩ := hf
      refine ⟨(plotTime1, samples), ?_, hf4, hf5, hf1⟩
      rw [hf3]
      exact hplot

/-- C15: for `plotInterval > 0`, a completed pass through the loop of `run`
prints the samples at the grid points `plotTime + k * plotInterval` for
`k < n`, each with the molecule counts as they are after the event dispatch of
the pass, before its reaction is applied; a grid point is among them exactly
when it is `<= t` and `<= stopTime` (`t` advanced, `stopTime` as the monitor
left it); and the cursor ends at `plotTime + n * plotInterval`, the first grid
point that is `> t` or `> stopTime`. -/
theorem samples_are_the_due_grid_points (cfg : RunConfig) (s s' : RunState) (b : Bool)
    (g1 : Gillespie) (hpi : 0 < cfg.plotInterval)
    (hd : processAll s.g (Sched.processEvents s.t s.nextEvent).1 = .ok g1)
    (h : runIter cfg s = .ok (s', b)) :
    ∃ n : Nat,
      s'.output = s.output ++ (List.range n).map
        (fun k : Nat => (s.plotTime + (k : ℚ) * cfg.plotInterval,
          g1.molecules.map (fun x => x.count)))
      ∧ s'.plotTime = s.plotTime + (n : ℚ) * cfg.plotInterval
      ∧ (∀ k : Nat, k < n ↔
          (s.plotTime + (k : ℚ) * cfg.plotInterval ≤ s'.t
            ∧ s.plotTime + (k : ℚ) * cfg.plotInterval ≤ s'.stopTime)) := by
  unfold runIter at h
  rw [hd] at h
  simp only [] at h
  obtain ⟨res, hplot, hpt, hout, hstop⟩ := stepFrom_samples cfg _ s' b h
  simp only [monitorStep_g, monitorStep_plotTime, (monitorStep_frame cfg _).2.2.2.2.2]
    at hplot hpt hout
  rw [← hstop] at hplot
  unfold plotSamples at hplot
  rw [if_neg (not_le.mpr hpi)] at hplot
  split at hplot
  · rename_i res' hloop
    injection hplot with hplot
    subst hplot
    obtain ⟨n, h1, h2, h3, h4⟩ := plotLoop_some _ _ _ _ _ _ _ hloop
    refine ⟨n, ?_, ?_, ?_⟩
    · rw [hout, h2]
    · rw [hpt, h1]
    · intro k
      constructor
      · exact h3 k
      · intro hk
        by_contra hlt
        have hnk : n ≤ k := not_lt.mp hlt
        have hmono : s.plotTime + (n : ℚ) * cfg.plotInterval
            ≤ s.plotTime + (k : ℚ) * cfg.plotInterval := by
          have : (n : ℚ) ≤ (k : ℚ) := by exact_mod_cast hnk
          have := mul_le_mul_of_nonneg_right this hpi.le
          linarith
        apply h4
        rw [h1]
        exact ⟨le_trans hmono hk.1, le_trans hmono hk.2⟩
  · exact absurd hplot (by simp)

/-- C15, at a concrete run: the first pass with `monitorConfig` on `abcNet`
completes and leaves the cursor on a grid point. -/
theorem samples_are_the_due_grid_points_witness :
    ∃ (s' : RunState) (b : Bool) (n : Nat), runIter monitorConfig abcStart = .ok (s', b)
      ∧ s'.plotTime = 0 + (n : ℚ) * (1 / 10) := by
  cases hrun : runIter monitorConfig abcStart with
  | error e =>
    have h := runIter_monitorConfig_abcStart
    rw [hrun] at h
    exact absurd h (by simp [Except.map])
  | ok res =>
    obtain ⟨s', b⟩ := res
    obtain ⟨n, _, hn, _⟩ := samples_are_the_due_grid_points monitorConfig abcStart s' b abcNet
      (by norm_num [monitorConfig, plainConfig]) (by rfl) hrun
    exact ⟨s', b, n, rfl, hn⟩

/-- C19, amended: in the scenario network (molecules `A`, `B`, `C` with any
counts, the single reaction `A + B ---> C`, idling disabled) with the event
"set the count of `A` to 0 at time 5" queued, for every draw and every positive
plot interval, a pass of the loop that starts at a time `t >= 5` processes the
event, draws nothing, selects no reaction and takes the `break`: the run ends
in that pass with `t` unchanged, `A = 0` and the other counts as they were. -/
theorem scheduled_setcount_ends_run (cfg : RunConfig) (s : RunState) (a b c : Nat)
    (rx : Reaction) (hpi : 0 < cfg.plotInterval)
    (hmol : s.g.molecules = [⟨"A", "", [0], a⟩, ⟨"B", "", [0], b⟩, ⟨"C", "", [], c⟩])
    (hrx : s.g.reactions = [rx]) (hleft : rx.left = [1, 1, 0])
    (hidle : s.g.runIdle = false)
    (hq : s.nextEvent = Sched.scheduleAll [setAZeroAtFive])
    (ht : 5 ≤ s.t) (hstop : s.t ≤ s.stopTime) :
    ∃ s' : RunState, runIter cfg s = .ok (s', false)
      ∧ s'.t = s.t ∧ s'.drawn = s.drawn
      ∧ s'.g.molecules.map (fun x => x.count) = [0, b, c]
      ∧ s'.nextEvent = []
      ∧ ∀ fuel : Nat, runLoop cfg (fuel + 1) s = .ok (s', true) := by
  have hq' : s.nextEvent = [setAZeroAtFive] := by
    rw [hq]; rfl
  have hpe : Sched.processEvents s.t s.nextEvent = ([setAZeroAtFive], []) := by
    rw [hq']
    simp [Sched.processEvents, setAZeroAtFive, ht]
  have hd : processAll s.g (Sched.processEvents s.t s.nextEvent).1
      = .ok (Molecule.setCount s.g 0 0) := by
    rw [hpe]
    simp [processAll, processEvent, setAZeroAtFive, setMoleculeCount, hmol]
  have hg1m : (Molecule.setCount s.g 0 0).molecules
      = [⟨"A", "", [0], 0⟩, ⟨"B", "", [0], b⟩, ⟨"C", "", [], c⟩] := by
    simp [Molecule.setCount, hmol, List.modify, List.modifyTailIdx, List.modifyHead]
  have hg1r : (Molecule.setCount s.g 0 0).reactions = [{ rx with isDirty := true }] := by
    simp [Molecule.setCount, hmol, hrx, markDirty, List.modify, List.modifyTailIdx,
      List.modifyHead]
  have hg1i : (Molecule.setCount s.g 0 0).runIdle = false := by
    simp [Molecule.setCount, hidle]
  have ha0 : (calcReactProbs (Molecule.setCount s.g 0 0)).1 = 0 := by
    simp [calcReactProbs, calcLoop, hg1m, hg1r, recalcReaction, isPossible, hleft, getCount,
      List.range, List.range.loop]
  have heq := runIter_idle_eq cfg s (Molecule.setCount s.g 0 0) hd ha0
  obtain ⟨res, hok⟩ := plotSamples_ok cfg.plotInterval
    (s.t + (if (Molecule.setCount s.g 0 0).runIdle = true
      then (Molecule.setCount s.g 0 0).idleTick else 0))
    (monitorStep cfg
      { s with g := Molecule.setCount s.g 0 0,
               nextEvent := (Sched.processEvents s.t s.nextEvent).2 }).stopTime
    ((Molecule.setCount s.g 0 0).molecules.map (fun x => x.count)) s.plotTime hpi
  rw [hok] at heq
  simp only [hg1i] at heq
  refine ⟨_, heq, ?_, rfl, ?_, ?_, ?_⟩
  · simp
  · show (calcReactProbs (Molecule.setCount s.g 0 0)).2.molecules.map (fun x => x.count) = _
    have : (calcReactProbs (Molecule.setCount s.g 0 0)).2.molecules
        = (Molecule.setCount s.g 0 0).molecules := rfl
    rw [this, hg1m]
    rfl
  · show (monitorStep cfg _).nextEvent = []
    rw [(monitorStep_frame cfg _).2.2.2.2.1]
    simp [hpe]
  · intro fuel
    simp only [runLoop, if_pos hstop, heq]

theorem scenario_first_pass :
    runIter lateConfig scenarioStart = .ok (scenarioAfterFirst, true) := by
  simp [runIter, stepFrom, plotSamples, plotFuel, applyOrStop, applyLoop, delta,
    leftAt, rightAt, Molecule.setCount, markDirty, drawAndSelect, selectFrom, monitorStep,
    processAll, Sched.processEvents, scenarioStart, scenarioAfterFirst, runInit, lateConfig,
    plainConfig, Sched.scheduleAll, Sched.scheduleEvent, setAZeroAtFive,
    calcReactProbs, calcLoop, recalcReaction, abcNet, abcLoaded, abcReaction, isPossible,
    calcH, calcHStep, mulRepeat, numCombinations, getCount, List.range, List.range.loop,
    UINT_RANGE, List.modify, List.modifyTailIdx, List.modifyHead]
  norm_num
  rw [show (1 : ℕ) = 0 + 1 from rfl]
  norm_num [plotLoop]

theorem scenario_second_pass :
    (runIter lateConfig scenarioAfterFirst).map
        (fun res => (res.1.t, res.1.g.molecules.map (fun x => x.count), res.2))
      = .ok (6, [0, 9, 1], false) := by
  simp [runIter, stepFrom, plotSamples, plotFuel, applyOrStop, drawAndSelect, monitorStep,
    processAll, processEvent, setMoleculeCount, Molecule.setCount, markDirty,
    Sched.processEvents, scenarioAfterFirst, lateConfig, plainConfig, setAZeroAtFive,
    calcReactProbs, calcLoop, recalcReaction, abcNet, abcLoaded, abcReaction, isPossible,
    getCount, List.range, List.range.loop, List.modify, List.modifyTailIdx, List.modifyHead,
    Except.map]
  norm_num [plotLoop]

/-- C19 (counterexample): in the scenario with stop time 10, when the first
waiting time is 6, the first pass starts at `t = 0`, before the event is due,
advances `t` to 6 and applies the reaction at that time (counts 9, 9, 1); the
second pass processes the event and ends the run with `t = 6`, not 5. -/
theorem scenario_run_does_not_end_at_five :
    scenarioStart.g = abcNet ∧ scenarioStart.nextEvent = [setAZeroAtFive]
    ∧ scenarioStart.stopTime = 10 ∧ abcNet.runIdle = false
    ∧ runIter lateConfig scenarioStart = .ok (scenarioAfterFirst, true)
    ∧ scenarioAfterFirst.t = 6
    ∧ scenarioAfterFirst.g.molecules.map (fun x => x.count) = [9, 9, 1]
    ∧ (runLoop lateConfig 2 scenarioStart).map
        (fun res => (res.1.t, res.1.g.molecules.map (fun x => x.count), res.2))
      = .ok (6, [0, 9, 1], true) := by
  refine ⟨by rfl, by rfl, by rfl, by rfl, scenario_first_pass, by rfl, by rfl, ?_⟩
  have h0 : scenarioStart.t ≤ scenarioStart.stopTime := by
    norm_num [scenarioStart, runInit]
  have h1 : scenarioAfterFirst.t ≤ scenarioAfterFirst.stopTime := by
    norm_num [scenarioAfterFirst]
  have h2 := scenario_second_pass
  cases hres : runIter lateConfig scenarioAfterFirst with
  | error e => rw [hres] at h2; exact absurd h2 (by simp [Except.map])
  | ok res =>
    obtain ⟨s2, b2⟩ := res
    rw [hres] at h2
    simp only [Except.map, Except.ok.injEq, Prod.mk.injEq] at h2
    obtain ⟨ht, hc, hb⟩ := h2
    subst hb
    simp only [runLoop, if_pos h0, scenario_first_pass, if_pos h1, hres, Except.map, ht, hc]

/-- C19 amended, at a concrete state: from `scenarioAfterFirst`, where `t = 6`
and the event is still queued, the pass ends the run with `t = 6`. -/
theorem scheduled_setcount_ends_run_witness :
    (5 : ℚ) ≤ scenarioAfterFirst.t
    ∧ ∃ s' : RunState, runIter lateConfig scenarioAfterFirst = .ok (s', false) ∧ s'.t = 6 := by
  refine ⟨by norm_num [scenarioAfterFirst], ?_⟩
  obtain ⟨s', h1, h2, _⟩ := scheduled_setcount_ends_run lateConfig scenarioAfterFirst 9 9 1
    { abcReaction with h := 100, a := 100, isDirty := true, recalc := true }
    (by norm_num [lateConfig, plainConfig]) (by rfl) (by rfl) (by rfl) (by rfl) (by rfl)
    (by norm_num [scenarioAfterFirst]) (by norm_num [scenarioAfterFirst])
  exact ⟨s', h1, h2⟩

end Gillespie

namespace Sched

theorem insertAfter_perm (e : Event) (l : List Event) : (insertAfter e l).Perm (e :: l) := by
  induction l with
  | nil => simp [insertAfter]
  | cons x l ih =>
    simp only [insertAfter]
    split_ifs
    · exact (List.Perm.cons x ih).trans (List.Perm.swap e x l)
    · exact List.Perm.refl _

theorem scheduleEvent_perm (q : List Event) (e : Event) : (scheduleEvent q e).Perm (e :: q) := by
  cases q with
  | nil => simp [scheduleEvent]
  | cons x l =>
    simp only [scheduleEvent]
    exact (List.Perm.cons x (insertAfter_perm e l)).trans (List.Perm.swap e x l)

theorem processEvents_append (now : ℚ) (q : List Event) :
    (processEvents now q).1 ++ (processEvents now q).2 = q := by
  induction q with
  | nil => simp [processEvents]
  | cons x l ih =>
    simp only [processEvents]
    split_ifs
    · simp [ih]
    · simp

theorem processEvents_fired_due (now : ℚ) (q : List Event) :
    ∀ e ∈ (processEvents now q).1, e.time ≤ now := by
  induction q with
  | nil => simp [processEvents]
  | cons x l ih =>
    simp only [processEvents]
    split_ifs with h
    · intro e he
      rcases List.mem_cons.mp he with h1 | h1
      · rw [h1]; exact h
      · exact ih e h1
    · simp

theorem processEvents_all_due (now : ℚ) (q : List Event) (h : ∀ e ∈ q, e.time ≤ now) :
    processEvents now q = (q, []) := by
  induction q with
  | nil => simp [processEvents]
  | cons x l ih =>
    have hx : x.time ≤ now := h x (List.mem_cons_self _ _)
    have hl := ih (fun e he => h e (List.mem_cons_of_mem _ he))
    simp [processEvents, hx, hl]

theorem insertAfter_sorted (e : Event) (l : List Event) (h : Sorted l) :
    Sorted (insertAfter e l) := by
  induction l with
  | nil => simp [insertAfter, Sorted]
  | cons x l ih =>
    unfold Sorted at h ih ⊢
    simp only [insertAfter]
    split_ifs with hx
    · rw [List.pairwise_cons] at h ⊢
      refine ⟨?_, ih h.2⟩
      intro y hy
      have := (insertAfter_perm e l).subset hy
      rcases List.mem_cons.mp this with h1 | h1
      · rw [h1]; exact hx
      · exact h.1 y h1
    · rw [List.pairwise_cons]
      refine ⟨?_, h⟩
      intro y hy
      have hlt : e.time ≤ x.time := le_of_lt (not_le.mp hx)
      rcases List.mem_cons.mp hy with h1 | h1
      · rw [h1]; exact hlt
      · exact le_trans hlt ((List.pairwise_cons.mp h).1 y h1)

theorem insertAfter_filter (e : Event) (l : List Event) (h : Sorted l) (T : ℚ) :
    (insertAfter e l).filter (fun x => decide (x.time = T))
      = l.filter (fun x => decide (x.time = T)) ++ [e].filter (fun x => decide (x.time = T)) := by
  induction l with
  | nil => simp [insertAfter]
  | cons x l ih =>
    unfold Sorted at h ih
    simp only [insertAfter]
    split_ifs with hx
    · have ih' := ih (List.pairwise_cons.mp h).2
      by_cases hxT : x.time = T
      · rw [List.filter_cons_of_pos (by simpa using hxT),
          List.filter_cons_of_pos (by simpa using hxT), ih']
        rfl
      · rw [List.filter_cons_of_neg (by simpa using hxT),
          List.filter_cons_of_neg (by simpa using hxT), ih']
    · by_cases he : e.time = T
      · have hnone : (x :: l).filter (fun y => decide (y.time = T)) = [] := by
          rw [List.filter_eq_nil_iff]
          intro y hy
          have hxe : e.time < x.time := not_le.mp hx
          have hxy : x.time ≤ y.time := by
            rcases List.mem_cons.mp hy with h1 | h1
            · rw [h1]
            · exact (List.pairwise_cons.mp h).1 y h1
          have : y.time ≠ T := by
            intro hy'
            rw [hy', ← he] at hxy
            exact absurd hxe (not_lt.mpr hxy)
          simp [this]
        rw [List.filter_cons_of_pos (by simpa using he), hnone]
        simp [he]
      · rw [List.filter_cons_of_neg (by simpa using he)]
        simp [he]

theorem scheduleAll_snoc (evs : List Event) (e : Event) :
    scheduleAll (evs ++ [e]) = scheduleEvent (scheduleAll evs) e := by
  simp [scheduleAll, List.foldl_append]

theorem scheduleEvent_tail_sorted (q : List Event) (e : Event) (h : Sorted q.tail) :
    Sorted (scheduleEvent q e).tail := by
  cases q with
  | nil => simp [scheduleEvent, Sorted]
  | cons x l => exact insertAfter_sorted e l h

theorem scheduleAll_tail_sorted (evs : List Event) : Sorted (scheduleAll evs).tail := by
  induction evs using List.reverseRecOn with
  | nil => simp [scheduleAll, Sorted]
  | append_singleton evs e ih =>
    rw [scheduleAll_snoc]
    exact scheduleEvent_tail_sorted _ e ih

theorem scheduleEvent_filter (q : List Event) (e : Event) (h : Sorted q.tail) (T : ℚ) :
    (scheduleEvent q e).filter (fun x => decide (x.time = T))
      = q.filter (fun x => decide (x.time = T)) ++ [e].filter (fun x => decide (x.time = T)) := by
  cases q with
  | nil => simp [scheduleEvent]
  | cons x l =>
    have hl := insertAfter_filter e l h T
    simp only [scheduleEvent]
    by_cases hxT : x.time = T
    · rw [List.filter_cons_of_pos (by simpa using hxT),
        List.filter_cons_of_pos (by simpa using hxT), hl]
      rfl
    · rw [List.filter_cons_of_neg (by simpa using hxT),
        List.filter_cons_of_neg (by simpa using hxT), hl]

theorem scheduleAll_filter (evs : List Event) (T : ℚ) :
    (scheduleAll evs).filter (fun x => decide (x.time = T))
      = evs.filter (fun x => decide (x.time = T)) := by
  induction evs using List.reverseRecOn with
  | nil => simp [scheduleAll]
  | append_singleton evs e ih =>
    rw [scheduleAll_snoc, scheduleEvent_filter _ e (scheduleAll_tail_sorted evs) T, ih,
      List.filter_append]

/-- C21: ties resolve in scheduling order.  For the queue built from the empty
queue by scheduling `evs` one after the other, the events of the queue with
fire time `T` are, in queue order, the events of `evs` with fire time `T` in
the order of their scheduling; `processEvents` invokes a front part of the
queue in queue order and leaves the rest, so the events with fire time `T` it
invokes, followed by those it leaves, are again in scheduling order. -/
theorem ties_resolve_in_scheduling_order (evs : List Event) (T now : ℚ) :
    (scheduleAll evs).filter (fun x => decide (x.time = T))
        = evs.filter (fun x => decide (x.time = T))
    ∧ (processEvents now (scheduleAll evs)).1 ++ (processEvents now (scheduleAll evs)).2
        = scheduleAll evs
    ∧ (processEvents now (scheduleAll evs)).1.filter (fun x => decide (x.time = T))
        ++ (processEvents now (scheduleAll evs)).2.filter (fun x => decide (x.time = T))
        = evs.filter (fun x => decide (x.time = T)) := by
  refine ⟨scheduleAll_filter evs T, processEvents_append now _, ?_⟩
  rw [← List.filter_append, processEvents_append, scheduleAll_filter]

/-- C22: `processEvents now` invokes only events with fire time `<= now`; what
it invokes followed by what it leaves is the queue, so what remains is a suffix
of the queue; and the events with fire time `> now` are the same, in content
and order, in the queue before the call and in the queue after it. -/
theorem processEvents_keeps_later_events (now : ℚ) (q : List Event) :
    (∀ e ∈ (processEvents now q).1, e.time ≤ now)
    ∧ (processEvents now q).1 ++ (processEvents now q).2 = q
    ∧ List.IsSuffix (processEvents now q).2 q
    ∧ (processEvents now q).2.filter (fun e => decide (now < e.time))
        = q.filter (fun e => decide (now < e.time)) := by
  refine ⟨processEvents_fired_due now q, processEvents_append now q,
    ⟨(processEvents now q).1, processEvents_append now q⟩, ?_⟩
  have hnone : (processEvents now q).1.filter (fun e => decide (now < e.time)) = [] := by
    rw [List.filter_eq_nil_iff]
    intro e he
    have := processEvents_fired_due now q e he
    simp [not_lt.mpr this]
  conv_rhs => rw [← processEvents_append now q]
  rw [List.filter_append, hnone, List.nil_append]

theorem step_count (s : State) (c : Call) (e : Event) :
    (step s c).invoked.count e + (step s c).queue.count e + (step s c).discarded.count e
      = s.invoked.count e + s.queue.count e + s.discarded.count e
        + (scheduledEvents [c]).count e := by
  cases c with
  | schedule ev =>
    simp only [step, scheduledEvents, (scheduleEvent_perm s.queue ev).count_eq]
    simp only [List.count_cons, List.count_nil]
    omega
  | process now =>
    have h := congrArg (List.count e) (processEvents_append now s.queue)
    rw [List.count_append] at h
    simp only [step, scheduledEvents, List.count_append, List.count_nil]
    omega
  | clear =>
    simp only [step, scheduledEvents, List.count_append, List.count_nil]
    omega

theorem scheduledEvents_cons_count (c : Call) (calls : List Call) (e : Event) :
    (scheduledEvents (c :: calls)).count e
      = (scheduledEvents [c]).count e + (scheduledEvents calls).count e := by
  cases c <;> simp [scheduledEvents, List.count_cons]; omega

theorem foldl_step_count (calls : List Call) (s : State) (e : Event) :
    (calls.foldl step s).invoked.count e + (calls.foldl step s).queue.count e
        + (calls.foldl step s).discarded.count e
      = s.invoked.count e + s.queue.count e + s.discarded.count e
        + (scheduledEvents calls).count e := by
  induction calls generalizing s with
  | nil => simp [scheduledEvents]
  | cons c calls ih =>
    have h1 := ih (step s c)
    have h2 := step_count s c e
    have h3 := scheduledEvents_cons_count c calls e
    simp only [List.foldl_cons]
    omega

/-- C23: events are one-shot.  After every sequence of calls of
`scheduleEvent`, `processEvents` and `clearEvents`, every scheduled event is,
with its multiplicity, in exactly one of three places: invoked, still queued,
or discarded by `clearEvents`; so no event is invoked more often than it was
scheduled and an invoked event is no longer queued.  And `processEvents now` on
a queue whose fire times are all `<= now` invokes the whole queue, each event
once and in queue order, and leaves the queue empty. -/
theorem events_are_one_shot (calls : List Call) :
    (∀ e : Event,
      (runCalls calls).invoked.count e + (runCalls calls).queue.count e
          + (runCalls calls).discarded.count e
        = (scheduledEvents calls).count e)
    ∧ ((runCalls calls).invoked ++ (runCalls calls).queue ++ (runCalls calls).discarded).Perm
        (scheduledEvents calls)
    ∧ (∀ (q : List Event) (now : ℚ), (∀ e ∈ q, e.time ≤ now) →
        processEvents now q = (q, [])) := by
  have hcount : ∀ e : Event,
      (runCalls calls).invoked.count e + (runCalls calls).queue.count e
          + (runCalls calls).discarded.count e
        = (scheduledEvents calls).count e := by
    intro e
    have := foldl_step_count calls ⟨[], [], []⟩ e
    simpa [runCalls] using this
  refine ⟨hcount, ?_, fun q now h => processEvents_all_due now q h⟩
  rw [List.perm_iff_count]
  intro e
  rw [List.count_append, List.count_append]
  exact hcount e

/-- The queue with fire times 1 and 3 is invoked whole by `processEvents 4`. -/
theorem events_are_one_shot_witness :
    (∀ e ∈ [(⟨1, .other .NONE 0⟩ : Event), ⟨3, .other .NONE 1⟩], e.time ≤ 4)
    ∧ processEvents 4 [⟨1, .other .NONE 0⟩, ⟨3, .other .NONE 1⟩]
        = ([⟨1, .other .NONE 0⟩, ⟨3, .other .NONE 1⟩], []) :=
  ⟨by decide,
   (events_are_one_shot []).2.2 [⟨1, .other .NONE 0⟩, ⟨3, .other .NONE 1⟩] 4 (by decide)⟩

/-- C24 (evaluation at the failing input): one event is scheduled on the empty
queue and `clearEvents` is called.  The loop deletes the cell of the event and
then reads its field `next`: the call does not come to a defined result.  The
same holds of every queue that is not empty; only on the empty queue does
`clearEvents` return, with the empty queue. -/
theorem clearEvents_reads_deleted_event :
    scheduleAll [⟨1, .other .NONE 0⟩] = [⟨1, .other .NONE 0⟩]
    ∧ clearEvents (scheduleAll [⟨1, .other .NONE 0⟩])
        = .error (.useAfterFree ⟨1, .other .NONE 0⟩)
    ∧ (∀ (ev : Event) (rest : List Event),
        clearEvents (ev :: rest) = .error (.useAfterFree ev))
    ∧ (∀ q : List Event, (∃ q1 : List Event, clearEvents q = .ok q1) ↔ q = [])
    ∧ clearEvents [] = .ok [] := by
  refine ⟨by rfl, by rfl, fun _ _ => rfl, ?_, rfl⟩
  intro q
  cases q with
  | nil => simp [clearEvents]
  | cons ev rest => simp [clearEvents]

end Sched

namespace Gillespie

theorem mulRepeat_eq_foldl (f k : Nat) (n h : Nat) (c : Nat) (hf : f = numCombinations c k) :
    mulRepeat f n h
      = (List.replicate n (c, k)).foldl
          (fun h x => h * numCombinations x.1 x.2 % UINT_RANGE) h := by
  subst hf
  induction n generalizing h with
  | zero => simp [mulRepeat]
  | succ n ih => simp [mulRepeat, List.replicate_succ, ih]

theorem calcHStep_eq_foldl (ms : List Molecule) (left : List Nat) (h m : Nat) :
    calcHStep ms left h m
      = (calcHCallsStep ms left m).foldl
          (fun h x => h * numCombinations x.1 x.2 % UINT_RANGE) h := by
  unfold calcHStep calcHCallsStep
  split_ifs
  · exact mulRepeat_eq_foldl _ _ _ _ _ rfl
  · rfl

theorem calcH_foldl_calls (ms : List Molecule) (left : List Nat) (idx : List Nat) (h : Nat) :
    idx.foldl (calcHStep ms left) h
      = (idx.flatMap (calcHCallsStep ms left)).foldl
          (fun h x => h * numCombinations x.1 x.2 % UINT_RANGE) h := by
  induction idx generalizing h with
  | nil => simp
  | cons m idx ih =>
    rw [List.foldl_cons, List.flatMap_cons, List.foldl_append, ih, calcHStep_eq_foldl]

/-- C29: every call `numCombinations(n, k)` that `calcReactProbs` makes has
`1 <= k <= n`.  The calls are those of the loop that computes `h` (the value of
`calcH` is the product, on `uint`s, over exactly these calls), and no call is
made for a molecule with `left[m] = 0` or with `count[m] < left[m]`. -/
theorem calcReactProbs_requests_valid_binomials (g : Gillespie) :
    (∀ c ∈ calcReactProbsCalls g, 1 ≤ c.2 ∧ c.2 ≤ c.1)
    ∧ (∀ (ms : List Molecule) (left : List Nat),
        calcH ms left
          = (calcHCalls ms left).foldl
              (fun h x => h * numCombinations x.1 x.2 % UINT_RANGE) 1)
    ∧ (∀ (ms : List Molecule) (left : List Nat) (m : Nat),
        (left.getD m 0 = 0 ∨ getCount ms m < left.getD m 0) →
        calcHCallsStep ms left m = []) := by
  refine ⟨?_, ?_, ?_⟩
  · intro c hc
    simp only [calcReactProbsCalls, List.mem_flatMap] at hc
    obtain ⟨r, _, hc⟩ := hc
    split_ifs at hc
    · simp only [calcHCalls, List.mem_flatMap] at hc
      obtain ⟨m, _, hc⟩ := hc
      unfold calcHCallsStep at hc
      split_ifs at hc with hge
      · rw [List.mem_replicate] at hc
        obtain ⟨hne, rfl⟩ := hc
        exact ⟨Nat.one_le_iff_ne_zero.mpr hne, hge⟩
      · simp at hc
    · simp at hc
  · intro ms left
    exact calcH_foldl_calls ms left _ 1
  · intro ms left m h
    unfold calcHCallsStep
    rcases h with h | h
    · rw [h]; split_ifs <;> rfl
    · rw [if_neg (not_le.mpr h)]

/-- In `abcNet` molecule `C` (index 2) is no reactant of `A + B ---> C`: no call
is made for it. -/
theorem calcReactProbs_requests_valid_binomials_witness :
    calcHCallsStep abcNet.molecules [1, 1, 0] 2 = [] :=
  (calcReactProbs_requests_valid_binomials abcNet).2.2 abcNet.molecules [1, 1, 0] 2
    (Or.inl (by decide))

theorem numCombinationsMaxN_le (maxN n k : Nat) (hn : 10 * n < UINT_RANGE) :
    maxN ≤ numCombinationsMaxN maxN n k := by
  unfold numCombinationsMaxN
  split_ifs with h1 h2
  · exact le_refl _
  · rw [Nat.mod_eq_of_lt hn]; omega
  · exact le_refl _

/-- C28: the table bound `maxN` of `numCombinations`.  A call with `k = 1`
returns `n` and leaves `maxN` as it is.  A call with `k != 1` (with `10 * n`
below `2 ^ 32`) never lowers `maxN`, leaves it `>= n`, sets it to `10 * n` when
`n` exceeds the previous bound and leaves it unchanged otherwise.  Over every
sequence of calls (with `10 * n` below `2 ^ 32`) the bound does not
decrease. -/
theorem table_bound_only_grows :
    (∀ maxN n : Nat, numCombinations n 1 = n ∧ numCombinationsMaxN maxN n 1 = maxN)
    ∧ (∀ maxN n k : Nat, k ≠ 1 → 10 * n < UINT_RANGE →
        maxN ≤ numCombinationsMaxN maxN n k
        ∧ n ≤ numCombinationsMaxN maxN n k
        ∧ (n > maxN → numCombinationsMaxN maxN n k = 10 * n)
        ∧ (¬ n > maxN → numCombinationsMaxN maxN n k = maxN))
    ∧ (∀ (maxN : Nat) (calls : List (Nat × Nat)), (∀ c ∈ calls, 10 * c.1 < UINT_RANGE) →
        maxN ≤ maxNAfter maxN calls) := by
  refine ⟨?_, ?_, ?_⟩
  · intro maxN n
    simp [numCombinations, numCombinationsMaxN]
  · intro maxN n k hk hn
    refine ⟨numCombinationsMaxN_le maxN n k hn, ?_, ?_, ?_⟩
    · unfold numCombinationsMaxN
      rw [if_neg hk]
      split_ifs with h2
      · rw [Nat.mod_eq_of_lt hn]; omega
      · omega
    · intro h
      unfold numCombinationsMaxN
      rw [if_neg hk, if_pos h, Nat.mod_eq_of_lt hn]
    · intro h
      unfold numCombinationsMaxN
      rw [if_neg hk, if_neg h]
  · intro maxN calls
    unfold maxNAfter
    induction calls generalizing maxN with
    | nil => intro _; exact le_refl _
    | cons c calls ih =>
      intro hall
      rw [List.foldl_cons]
      exact le_trans
        (numCombinationsMaxN_le maxN c.1 c.2 (hall c (List.mem_cons_self _ _)))
        (ih _ (fun c' hc' => hall c' (List.mem_cons_of_mem _ hc')))

/-- From the bound 5 the call with `n = 7`, `k = 2` sets the bound to 70, and
from 70 it leaves it. -/
theorem table_bound_only_grows_witness :
    (2 : Nat) ≠ 1 ∧ 10 * 7 < UINT_RANGE ∧ numCombinationsMaxN 5 7 2 = 10 * 7
    ∧ numCombinationsMaxN 70 7 2 = 70 :=
  ⟨by decide, by decide,
   (table_bound_only_grows.2.1 5 7 2 (by decide) (by decide)).2.2.1 (by decide),
   (table_bound_only_grows.2.1 70 7 2 (by decide) (by decide)).2.2.2 (by decide)⟩

/-- C30: after `verify`, on a network whose downstream lists were empty, the
list `downstreamReactions` of every molecule `m` contains exactly the indices
`r` of the reactions with `left_r[m] != 0`, without repetition and in strictly
increasing order. -/
theorem verify_downstream_exact (g0 g : Gillespie)
    (hfresh : ∀ x ∈ g0.molecules, x.downstreamReactions = [])
    (hv : verify g0 = .ok g) (m : Nat) (x : Molecule) (hx : g.molecules[m]? = some x) :
    (∀ r : Nat, r ∈ x.downstreamReactions ↔
        r < g.reactions.length ∧ leftAt g.reactions r m ≠ 0)
    ∧ x.downstreamReactions.Nodup
    ∧ List.Pairwise (fun a b => a < b) x.downstreamReactions := by
  rw [verify_downstream g0 g hfresh hv m x hx]
  refine ⟨?_, (List.nodup_range _).filter _, (List.pairwise_lt_range _).filter _⟩
  intro r
  simp [List.mem_filter, List.mem_range]

/-- In `abcNet`, built by `verify` from `abcLoaded`, reaction 0 is downstream
of molecule `A`. -/
theorem verify_downstream_exact_witness :
    (∀ x ∈ abcLoaded.molecules, x.downstreamReactions = [])
    ∧ verify abcLoaded = .ok abcNet
    ∧ (0 ∈ downstreamAt abcNet.molecules 0 ↔
        0 < abcNet.reactions.length ∧ leftAt abcNet.reactions 0 0 ≠ 0) :=
  ⟨by decide, by rfl,
   (verify_downstream_exact abcLoaded abcNet (by decide) (by rfl) 0
      ⟨"A", "", [0], 10⟩ (by rfl)).1 0⟩

end Gillespie

namespace Gillespie

/-! ### Invariants of the propensity cache -/

theorem recalcReaction_eq (ms : List Molecule) (r : Reaction) :
    recalcReaction ms r =
      if r.isDirty then
        if isPossible ms r then
          { r with
            h := calcH ms r.left, a := (calcH ms r.left : ℚ) * r.c * (1 - r.inhibition),
            isDirty := false, recalc := true }
        else { r with h := calcH ms r.left, a := 0, isDirty := false, recalc := true }
      else { r with recalc := false } := by
  have hp : isPossible ms { r with h := calcH ms r.left } = isPossible ms r := rfl
  unfold recalcReaction
  simp only [hp]
  cases r.isDirty with
  | false => simp
  | true => cases isPossible ms r <;> simp

theorem recalcReaction_left (ms : List Molecule) (r : Reaction) :
    (recalcReaction ms r).left = r.left := by
  rw [recalcReaction_eq]
  split_ifs <;> rfl

theorem recalcReaction_right (ms : List Molecule) (r : Reaction) :
    (recalcReaction ms r).right = r.right := by
  rw [recalcReaction_eq]
  split_ifs <;> rfl

theorem recalcReaction_isDirty (ms : List Molecule) (r : Reaction) :
    (recalcReaction ms r).isDirty = false := by
  rw [recalcReaction_eq]
  split_ifs with h1 h2
  · rfl
  · rfl
  · simpa using h1

theorem recalcReaction_rates (ms : List Molecule) (r : Reaction) :
    (recalcReaction ms r).c = r.c ∧ (recalcReaction ms r).inhibition = r.inhibition := by
  rw [recalcReaction_eq]
  split_ifs <;> exact ⟨rfl, rfl⟩

theorem recalcReaction_a_clean (ms : List Molecule) (r : Reaction) (h : r.isDirty = false) :
    (recalcReaction ms r).a = r.a := by
  rw [recalcReaction_eq]
  simp [h]

theorem recalcReaction_a_dirty (ms : List Molecule) (r : Reaction) (h : r.isDirty = true) :
    (recalcReaction ms r).a
      = if isPossible ms r then (calcH ms r.left : ℚ) * r.c * (1 - r.inhibition) else 0 := by
  rw [recalcReaction_eq, if_pos h]
  split_ifs <;> rfl

theorem Feasible_of_left (ms : List Molecule) (r r' : Reaction) (h : r'.left = r.left) :
    Feasible ms r' ↔ Feasible ms r := by
  unfold Feasible
  rw [h]

theorem calcReactProbs_reactions (g : Gillespie) :
    (calcReactProbs g).2.reactions = g.reactions.map (recalcReaction g.molecules) := by
  simp [calcReactProbs, calcLoop_snd]

theorem calcReactProbs_leftAt (g : Gillespie) (i m : Nat) :
    leftAt (calcReactProbs g).2.reactions i m = leftAt g.reactions i m := by
  rw [calcReactProbs_reactions]
  unfold leftAt
  rw [List.getElem?_map]
  cases g.reactions[i]? with
  | none => rfl
  | some x => simp [recalcReaction_left]

theorem calcReactProbs_rightAt (g : Gillespie) (i m : Nat) :
    rightAt (calcReactProbs g).2.reactions i m = rightAt g.reactions i m := by
  rw [calcReactProbs_reactions]
  unfold rightAt
  rw [List.getElem?_map]
  cases g.reactions[i]? with
  | none => rfl
  | some x =>
    simp [recalcReaction_right]

/-- After `calcReactProbs` every reaction that is not feasible has `a = 0`,
provided this held of the clean reactions before. -/
theorem calcReactProbs_sound (g : Gillespie) (hwf : WellFormed g) (hcs : CacheSound g) :
    ∀ r ∈ (calcReactProbs g).2.reactions, ¬ Feasible g.molecules r → r.a = 0 := by
  intro r hr hnf
  rw [calcReactProbs_reactions] at hr
  obtain ⟨x, hx, rfl⟩ := List.mem_map.mp hr
  rw [Feasible_of_left _ _ _ (recalcReaction_left g.molecules x)] at hnf
  cases hd : x.isDirty with
  | true =>
    rw [recalcReaction_a_dirty _ _ hd]
    have hp : ¬ isPossible g.molecules x = true := fun hp =>
      hnf ((isPossible_iff g.molecules x (hwf x hx)).mp hp)
    rw [if_neg hp]
  | false =>
    rw [recalcReaction_a_clean _ _ hd]
    exact hcs x hx hd hnf

theorem CacheInvariant_calcReactProbs (g : Gillespie) (h : CacheInvariant g) :
    CacheInvariant (calcReactProbs g).2 := by
  obtain ⟨hwf, hds, hcs⟩ := h
  refine ⟨?_, ?_, ?_⟩
  · intro r hr
    rw [calcReactProbs_reactions] at hr
    obtain ⟨x, hx, rfl⟩ := List.mem_map.mp hr
    rw [recalcReaction_left]
    exact hwf x hx
  · intro m i hi hl
    rw [calcReactProbs_leftAt] at hl
    rw [calcReactProbs_reactions, List.length_map] at hi
    exact hds m i hi hl
  · intro r hr _ hnf
    exact calcReactProbs_sound g hwf hcs r hr hnf

theorem setCount_mem (g : Gillespie) (m v : Nat) (r : Reaction)
    (hr : r ∈ (Molecule.setCount g m v).reactions) :
    ∃ (i : Nat) (x : Reaction), g.reactions[i]? = some x ∧
      ((i ∈ downstreamAt g.molecules m ∧ r = { x with isDirty := true })
        ∨ (i ∉ downstreamAt g.molecules m ∧ r = x)) := by
  obtain ⟨i, hi⟩ := List.mem_iff_getElem?.mp hr
  rw [setCount_reactions_getElem?] at hi
  cases hx : g.reactions[i]? with
  | none => simp [hx] at hi
  | some x =>
    refine ⟨i, x, hx, ?_⟩
    simp only [hx, Option.map_some', Option.some.injEq] at hi
    by_cases hd : i ∈ downstreamAt g.molecules m
    · rw [if_pos hd] at hi
      exact Or.inl ⟨hd, hi.symm⟩
    · rw [if_neg hd] at hi
      exact Or.inr ⟨hd, hi.symm⟩

theorem CacheInvariant_setCount (g : Gillespie) (m v : Nat) (h : CacheInvariant g) :
    CacheInvariant (Molecule.setCount g m v) := by
  obtain ⟨hwf, hds, hcs⟩ := h
  refine ⟨?_, ?_, ?_⟩
  · intro r hr
    obtain ⟨i, x, hx, hcase⟩ := setCount_mem g m v r hr
    have hxm : x ∈ g.reactions := List.getElem?_mem hx
    rw [setCount_molecules_length]
    rcases hcase with ⟨_, rfl⟩ | ⟨_, rfl⟩
    · exact hwf x hxm
    · exact hwf _ hxm
  · intro j i hi hl
    rw [setCount_leftAt] at hl
    rw [setCount_reactions_length] at hi
    rw [setCount_downstreamAt]
    exact hds j i hi hl
  · intro r hr hclean hnf
    obtain ⟨i, x, hx, hcase⟩ := setCount_mem g m v r hr
    have hxm : x ∈ g.reactions := List.getElem?_mem hx
    rcases hcase with ⟨_, rfl⟩ | ⟨hnd, rfl⟩
    · simp at hclean
    · apply hcs r hxm hclean
      intro hf
      apply hnf
      intro j hj
      rw [setCount_molecules_length] at hj
      by_cases hjm : j = m
      · subst hjm
        have hi : i < g.reactions.length := by
          by_contra hge
          have : g.reactions[i]? = none := List.getElem?_eq_none (not_lt.mp hge)
          rw [this] at hx
          exact absurd hx (by simp)
        have hz : leftAt g.reactions i j = 0 := by
          by_contra hne
          exact hnd (hds j i hi hne)
        have hl : leftAt g.reactions i j = r.left.getD j 0 := by
          unfold leftAt
          rw [hx]
        rw [← hl, hz]
        exact Nat.zero_le _
      · rw [setCount_getCount_ne g m v j hjm]
        exact hf j hj

theorem setMoleculeCount_ok (g g' : Gillespie) (id count : Nat)
    (h : setMoleculeCount g id count = .ok g') : g' = Molecule.setCount g id count := by
  unfold setMoleculeCount at h
  split_ifs at h
  injection h with h
  exact h.symm

theorem setReactionInhibition_ok (g g' : Gillespie) (id : Nat) (level : ℚ)
    (h : setReactionInhibition g id level = .ok g') :
    g' = { g with
      reactions := g.reactions.modify (fun x => { x with inhibition := level }) id } := by
  unfold setReactionInhibition at h
  split_ifs at h
  injection h with h
  exact h.symm

theorem setInhibition_mem (rs : List Reaction) (id : Nat) (level : ℚ) (r : Reaction)
    (hr : r ∈ rs.modify (fun x => { x with inhibition := level }) id) :
    ∃ x ∈ rs, r = x ∨ r = { x with inhibition := level } := by
  obtain ⟨i, hi⟩ := List.mem_iff_getElem?.mp hr
  rw [List.getElem?_modify] at hi
  cases hx : rs[i]? with
  | none => simp [hx] at hi
  | some x =>
    refine ⟨x, List.getElem?_mem hx, ?_⟩
    simp only [hx, Option.map_eq_map, Option.map_some', Option.some.injEq] at hi
    by_cases hd : id = i
    · rw [if_pos hd] at hi
      exact Or.inr hi.symm
    · rw [if_neg hd] at hi
      exact Or.inl hi.symm

theorem setInhibition_leftAt (rs : List Reaction) (id : Nat) (level : ℚ) (i m : Nat) :
    leftAt (rs.modify (fun x => { x with inhibition := level }) id) i m = leftAt rs i m := by
  unfold leftAt
  rw [List.getElem?_modify]
  cases rs[i]? with
  | none => rfl
  | some x => by_cases hd : id = i <;> simp [hd]

theorem CacheInvariant_setInhibition (g : Gillespie) (id : Nat) (level : ℚ)
    (h : CacheInvariant g) :
    CacheInvariant { g with
      reactions := g.reactions.modify (fun x => { x with inhibition := level }) id } := by
  obtain ⟨hwf, hds, hcs⟩ := h
  refine ⟨?_, ?_, ?_⟩
  · intro r hr
    obtain ⟨x, hx, hcase⟩ := setInhibition_mem _ _ _ _ hr
    rcases hcase with rfl | rfl
    · exact hwf r hx
    · exact hwf x hx
  · intro m i hi hl
    simp only [List.length_modify] at hi
    simp only [setInhibition_leftAt] at hl
    exact hds m i hi hl
  · intro r hr hclean hnf
    obtain ⟨x, hx, hcase⟩ := setInhibition_mem _ _ _ _ hr
    rcases hcase with rfl | rfl
    · exact hcs r hx hclean hnf
    · exact hcs x hx hclean hnf

theorem applyLoop_preserves (P : Gillespie → Prop)
    (hset : ∀ (g : Gillespie) (m v : Nat), P g → P (Molecule.setCount g m v))
    (r : Nat) (ms : List Nat) (g g' : Gillespie)
    (h : applyLoop r ms g = .ok g') (hg : P g) : P g' := by
  induction ms generalizing g with
  | nil =>
    simp only [applyLoop] at h
    injection h with h
    subst h
    exact hg
  | cons m ms ih =>
    simp only [applyLoop] at h
    split_ifs at h with h1 h2
    · exact ih _ h (hset _ _ _ hg)
    · exact ih _ h hg

theorem processEvent_preserves (P : Gillespie → Prop) (E : Sched.Event → Prop)
    (hset : ∀ (g : Gillespie) (m v : Nat), P g → P (Molecule.setCount g m v))
    (hinh : ∀ (g : Gillespie) (id : Nat) (level : ℚ) (ev : Sched.Event),
      E ev → ev.cb = .setInhib id level → P g →
      P { g with
        reactions := g.reactions.modify (fun x => { x with inhibition := level }) id })
    (g g' : Gillespie) (ev : Sched.Event) (hE : E ev)
    (h : processEvent g ev = .ok g') (hg : P g) : P g' := by
  unfold processEvent at h
  split at h
  · rw [setMoleculeCount_ok _ _ _ _ h]
    exact hset _ _ _ hg
  · rename_i r level hcb
    rw [setReactionInhibition_ok _ _ _ _ h]
    exact hinh g r level ev hE hcb hg
  · injection h with h
    subst h
    exact hg

theorem processAll_preserves (P : Gillespie → Prop) (E : Sched.Event → Prop)
    (hset : ∀ (g : Gillespie) (m v : Nat), P g → P (Molecule.setCount g m v))
    (hinh : ∀ (g : Gillespie) (id : Nat) (level : ℚ) (ev : Sched.Event),
      E ev → ev.cb = .setInhib id level → P g →
      P { g with
        reactions := g.reactions.modify (fun x => { x with inhibition := level }) id })
    (evs : List Sched.Event) (g g' : Gillespie) (hE : ∀ ev ∈ evs, E ev)
    (h : processAll g evs = .ok g') (hg : P g) : P g' := by
  induction evs generalizing g with
  | nil =>
    simp only [processAll] at h
    injection h with h
    subst h
    exact hg
  | cons ev evs ih =>
    simp only [processAll] at h
    split at h
    · rename_i g1 hg1
      exact ih g1 (fun e he => hE e (List.mem_cons_of_mem _ he)) h
        (processEvent_preserves P E hset hinh g g1 ev (hE ev (List.mem_cons_self _ _)) hg1 hg)
    · exact absurd h (by simp)

theorem stepFrom_g (cfg : RunConfig) (s s' : RunState) (b : Bool)
    (h : stepFrom cfg s = .ok (s', b)) :
    ∃ (tau : ℚ) (r : Int) (drawn1 : Nat),
      drawAndSelect cfg (calcReactProbs s.g).2.reactions (calcReactProbs s.g).1 s.drawn
        = .ok (tau, r, drawn1)
      ∧ ((r ≠ -1 ∧
            applyLoop r.toNat (List.range (calcReactProbs s.g).2.molecules.length)
              (calcReactProbs s.g).2 = .ok s'.g)
          ∨ (r = -1 ∧ s'.g = (calcReactProbs s.g).2)) := by
  unfold stepFrom at h
  split at h
  · exact absurd h (by simp)
  · rename_i tau r drawn1 hdraw
    split at h
    · exact absurd h (by simp)
    · refine ⟨tau, r, drawn1, hdraw, ?_⟩
      by_cases hr : r = -1
      · right
        refine ⟨hr, ?_⟩
        unfold applyOrStop at h
        rw [if_neg (not_not.mpr hr)] at h
        split_ifs at h <;>
          (injection h with h; injection h with h1 h2; subst h1; rfl)
      · left
        exact ⟨hr, (applyOrStop_fire _ _ _ _ hr h).1⟩

theorem runIter_preserves (P : Gillespie → Prop) (E : Sched.Event → Prop)
    (hset : ∀ (g : Gillespie) (m v : Nat), P g → P (Molecule.setCount g m v))
    (hinh : ∀ (g : Gillespie) (id : Nat) (level : ℚ) (ev : Sched.Event),
      E ev → ev.cb = .setInhib id level → P g →
      P { g with
        reactions := g.reactions.modify (fun x => { x with inhibition := level }) id })
    (hcalc : ∀ g : Gillespie, P g → P (calcReactProbs g).2)
    (cfg : RunConfig) (s s' : RunState) (b : Bool)
    (h : runIter cfg s = .ok (s', b)) (hP : P s.g) (hE : ∀ ev ∈ s.nextEvent, E ev) :
    P s'.g ∧ ∀ ev ∈ s'.nextEvent, E ev := by
  have happ := Sched.processEvents_append s.t s.nextEvent
  have hfired : ∀ ev ∈ (Sched.processEvents s.t s.nextEvent).1, E ev := by
    intro ev hev
    apply hE
    rw [← happ]
    exact List.mem_append_left _ hev
  have hrest : ∀ ev ∈ (Sched.processEvents s.t s.nextEvent).2, E ev := by
    intro ev hev
    apply hE
    rw [← happ]
    exact List.mem_append_right _ hev
  unfold runIter at h
  split at h
  · exact absurd h (by simp)
  · rename_i g1 hg1
    have hP1 : P g1 := processAll_preserves P E hset hinh _ _ _ hfired hg1 hP
    have hq := (stepFrom_frame _ _ _ _ h).2.2
    rw [(monitorStep_frame cfg _).2.2.2.2.1] at hq
    obtain ⟨tau, r, drawn1, _, hcase⟩ := stepFrom_g _ _ _ _ h
    rw [monitorStep_g] at hcase
    refine ⟨?_, ?_⟩
    · rcases hcase with ⟨_, happly⟩ | ⟨_, hsame⟩
      · exact applyLoop_preserves P hset _ _ _ _ happly (hcalc g1 hP1)
      · rw [hsame]
        exact hcalc g1 hP1
    · intro ev hev
      rw [hq] at hev
      exact hrest ev hev

theorem passStart_preserves (P : Gillespie → Prop) (E : Sched.Event → Prop)
    (hset : ∀ (g : Gillespie) (m v : Nat), P g → P (Molecule.setCount g m v))
    (hinh : ∀ (g : Gillespie) (id : Nat) (level : ℚ) (ev : Sched.Event),
      E ev → ev.cb = .setInhib id level → P g →
      P { g with
        reactions := g.reactions.modify (fun x => { x with inhibition := level }) id })
    (hcalc : ∀ g : Gillespie, P g → P (calcReactProbs g).2)
    (cfg : RunConfig) (n : Nat) (s s' : RunState)
    (h : passStart cfg n s = .ok (some s')) (hP : P s.g) (hE : ∀ ev ∈ s.nextEvent, E ev) :
    P s'.g ∧ ∀ ev ∈ s'.nextEvent, E ev := by
  induction n generalizing s with
  | zero =>
    simp only [passStart] at h
    by_cases ht : s.t ≤ s.stopTime
    · rw [if_pos ht] at h
      injection h with h
      injection h with h
      subst h
      exact ⟨hP, hE⟩
    · rw [if_neg ht] at h
      exact absurd h (by simp)
  | succ n ih =>
    simp only [passStart] at h
    by_cases ht : s.t ≤ s.stopTime
    · rw [if_pos ht] at h
      split at h
      · exact absurd h (by simp)
      · rename_i s1 hs1
        obtain ⟨h1, h2⟩ := runIter_preserves P E hset hinh hcalc cfg s s1 true hs1 hP hE
        exact ih s1 h h1 h2
      · exact absurd h (by simp)
    · rw [if_neg ht] at h
      exact absurd h (by simp)

end Gillespie

namespace Gillespie

theorem CacheInvariant_verified (g0 g : Gillespie)
    (hfresh : ∀ x ∈ g0.molecules, x.downstreamReactions = [])
    (hv : verify g0 = .ok g) (hwf : WellFormed g)
    (hdirty : ∀ r ∈ g.reactions, r.isDirty = true) : CacheInvariant g := by
  refine ⟨hwf, ?_, ?_⟩
  · intro m i hi hl
    unfold downstreamAt
    cases hx : g.molecules[m]? with
    | none =>
      exfalso
      apply hl
      have hm : g.molecules.length ≤ m := by
        by_contra hlt
        have : g.molecules[m]? = some g.molecules[m] := by simp [not_le.mp hlt]
        rw [this] at hx
        exact absurd hx (by simp)
      unfold leftAt
      cases hr : g.reactions[i]? with
      | none => rfl
      | some x =>
        have hlen := hwf x (List.getElem?_mem hr)
        simp only []
        rw [List.getD_eq_getElem?_getD, List.getElem?_eq_none (by omega)]
        rfl
    | some x =>
      simp only []
      rw [verify_downstream g0 g hfresh hv m x hx]
      simp [List.mem_filter, List.mem_range, hi, hl]
  · intro r hr hclean
    rw [hdirty r hr] at hclean
    exact absurd hclean (by simp)

theorem applyNetOps_preserves (ops : List NetOp) (g g' : Gillespie)
    (h : applyNetOps g ops = .ok g') (hg : CacheInvariant g) : CacheInvariant g' := by
  induction ops generalizing g with
  | nil =>
    simp only [applyNetOps] at h
    injection h with h
    subst h
    exact hg
  | cons op ops ih =>
    simp only [applyNetOps] at h
    split at h
    · rename_i g1 hg1
      apply ih g1 h
      cases op with
      | setMoleculeCount id count =>
        simp only [applyNetOp] at hg1
        rw [setMoleculeCount_ok _ _ _ _ hg1]
        exact CacheInvariant_setCount _ _ _ hg
      | setReactionInhibition id level =>
        simp only [applyNetOp] at hg1
        rw [setReactionInhibition_ok _ _ _ _ hg1]
        exact CacheInvariant_setInhibition _ _ _ hg
      | calcReactProbs =>
        simp only [applyNetOp] at hg1
        injection hg1 with hg1
        subst hg1
        exact CacheInvariant_calcReactProbs _ hg
      | fire r =>
        simp only [applyNetOp] at hg1
        exact applyLoop_preserves CacheInvariant CacheInvariant_setCount _ _ _ _ hg1 hg
    · exact absurd h (by simp)

/-- C27: an infeasible reaction has propensity 0.  From a network that `verify`
has accepted, with every reaction dirty and one left coefficient per molecule,
after every sequence of `setMoleculeCount`, `setReactionInhibition`,
`calcReactProbs` and reaction firings that completes, a call of
`calcReactProbs` leaves `a = 0` in every reaction that has
`count[m] < left[m]` for some molecule `m`, dirty on entry or not. -/
theorem infeasible_reaction_has_zero_propensity (g0 g g' : Gillespie) (ops : List NetOp)
    (hfresh : ∀ x ∈ g0.molecules, x.downstreamReactions = [])
    (hv : verify g0 = .ok g) (hwf : WellFormed g)
    (hdirty : ∀ r ∈ g.reactions, r.isDirty = true)
    (hops : applyNetOps g ops = .ok g') :
    ∀ r ∈ (calcReactProbs g').2.reactions,
      (∃ m : Nat, m < g'.molecules.length ∧ getCount g'.molecules m < r.left.getD m 0) →
      r.a = 0 := by
  obtain ⟨hwf', _, hcs'⟩ :=
    applyNetOps_preserves ops g g' hops (CacheInvariant_verified g0 g hfresh hv hwf hdirty)
  intro r hr hm
  apply calcReactProbs_sound g' hwf' hcs' r hr
  intro hf
  obtain ⟨m, hlt, hcount⟩ := hm
  exact absurd (hf m hlt) (not_le.mpr hcount)

/-- C27, at a concrete network: in `abcNet` with the count of `A` set to 0 the
reaction `A + B ---> C` has propensity 0 after `calcReactProbs`. -/
theorem infeasible_reaction_has_zero_propensity_witness :
    verify abcLoaded = .ok abcNet
    ∧ applyNetOps abcNet [.setMoleculeCount 0 0] = .ok (Molecule.setCount abcNet 0 0)
    ∧ ∀ r ∈ (calcReactProbs (Molecule.setCount abcNet 0 0)).2.reactions,
        (∃ m : Nat, m < (Molecule.setCount abcNet 0 0).molecules.length
          ∧ getCount (Molecule.setCount abcNet 0 0).molecules m < r.left.getD m 0) →
        r.a = 0 :=
  ⟨by rfl, by rfl,
   infeasible_reaction_has_zero_propensity abcLoaded abcNet (Molecule.setCount abcNet 0 0)
     [.setMoleculeCount 0 0] (by decide) (by rfl)
     (show ∀ r ∈ abcNet.reactions, r.left.length = abcNet.molecules.length by decide)
     (by decide) (by rfl)⟩

theorem foldl_add_nonneg (l : List ℚ) (s : ℚ) (hs : 0 ≤ s) (hl : ∀ x ∈ l, 0 ≤ x) :
    0 ≤ l.foldl (fun s x => s + x) s := by
  induction l generalizing s with
  | nil => exact hs
  | cons x l ih =>
    rw [List.foldl_cons]
    exact ih _ (add_nonneg hs (hl x (List.mem_cons_self _ _)))
      (fun y hy => hl y (List.mem_cons_of_mem _ hy))

/-- After `calcReactProbs` every propensity is `>= 0`, provided the rates are
valid and this held of the clean reactions before. -/
theorem calcReactProbs_nonneg (g : Gillespie) (hrv : RatesValid g) (hnn : CacheNonneg g) :
    ∀ r ∈ (calcReactProbs g).2.reactions, 0 ≤ r.a := by
  intro r hr
  rw [calcReactProbs_reactions] at hr
  obtain ⟨x, hx, rfl⟩ := List.mem_map.mp hr
  obtain ⟨hc, _, hi1⟩ := hrv x hx
  cases hd : x.isDirty with
  | true =>
    rw [recalcReaction_a_dirty _ _ hd]
    split_ifs
    · exact mul_nonneg (mul_nonneg (Nat.cast_nonneg _) hc) (by linarith)
    · exact le_refl _
  | false =>
    rw [recalcReaction_a_clean _ _ hd]
    exact hnn x hx hd

theorem rates_calcReactProbs (g : Gillespie) (h : RatesValid g ∧ CacheNonneg g) :
    RatesValid (calcReactProbs g).2 ∧ CacheNonneg (calcReactProbs g).2 := by
  refine ⟨?_, fun r hr _ => calcReactProbs_nonneg g h.1 h.2 r hr⟩
  intro r hr
  rw [calcReactProbs_reactions] at hr
  obtain ⟨x, hx, rfl⟩ := List.mem_map.mp hr
  rw [(recalcReaction_rates g.molecules x).1, (recalcReaction_rates g.molecules x).2]
  exact h.1 x hx

theorem rates_setCount (g : Gillespie) (m v : Nat) (h : RatesValid g ∧ CacheNonneg g) :
    RatesValid (Molecule.setCount g m v) ∧ CacheNonneg (Molecule.setCount g m v) := by
  refine ⟨?_, ?_⟩
  · intro r hr
    obtain ⟨i, x, hx, hcase⟩ := setCount_mem g m v r hr
    have hxm : x ∈ g.reactions := List.getElem?_mem hx
    rcases hcase with ⟨_, rfl⟩ | ⟨_, rfl⟩
    · exact h.1 x hxm
    · exact h.1 _ hxm
  · intro r hr hclean
    obtain ⟨i, x, hx, hcase⟩ := setCount_mem g m v r hr
    have hxm : x ∈ g.reactions := List.getElem?_mem hx
    rcases hcase with ⟨_, rfl⟩ | ⟨_, rfl⟩
    · simp at hclean
    · exact h.2 _ hxm hclean

theorem rates_setInhibition (g : Gillespie) (id : Nat) (level : ℚ) (ev : Sched.Event)
    (hE : LevelValid ev) (hcb : ev.cb = .setInhib id level)
    (h : RatesValid g ∧ CacheNonneg g) :
    RatesValid { g with
        reactions := g.reactions.modify (fun x => { x with inhibition := level }) id }
    ∧ CacheNonneg { g with
        reactions := g.reactions.modify (fun x => { x with inhibition := level }) id } := by
  obtain ⟨hl0, hl1⟩ := hE id level hcb
  refine ⟨?_, ?_⟩
  · intro r hr
    obtain ⟨x, hx, hcase⟩ := setInhibition_mem _ _ _ _ hr
    rcases hcase with rfl | rfl
    · exact h.1 r hx
    · exact ⟨(h.1 x hx).1, hl0, hl1⟩
  · intro r hr hclean
    obtain ⟨x, hx, hcase⟩ := setInhibition_mem _ _ _ _ hr
    rcases hcase with rfl | rfl
    · exact h.2 r hx hclean
    · exact h.2 x hx hclean

/-- C25: propensities are non-negative after every refresh.  `run` is called
on a network whose reactions all have `c >= 0` and an inhibition level in
`[0, 1]` and are all dirty, with a queue whose `setInhib` events carry levels
in `[0, 1]`.  In every pass through the loop that is reached, after the call
of `calcReactProbs` (made on the object as the event dispatch of the pass
leaves it) every reaction has `a >= 0`, and the returned `a0` is `>= 0`. -/
theorem propensities_nonnegative_after_refresh (cfg : RunConfig) (g : Gillespie)
    (nextEvent : List Sched.Event) (stopTime : ℚ) (n : Nat) (s : RunState) (g1 : Gillespie)
    (hrates : RatesValid g) (hdirty : ∀ r ∈ g.reactions, r.isDirty = true)
    (hlevels : ∀ ev ∈ nextEvent, LevelValid ev)
    (hstart : passStart cfg n (runInit g nextEvent stopTime) = .ok (some s))
    (hev : processAll s.g (Sched.processEvents s.t s.nextEvent).1 = .ok g1) :
    (∀ r ∈ (calcReactProbs g1).2.reactions, 0 ≤ r.a) ∧ 0 ≤ (calcReactProbs g1).1 := by
  have h0 : RatesValid g ∧ CacheNonneg g := by
    refine ⟨hrates, ?_⟩
    intro r hr hclean
    rw [hdirty r hr] at hclean
    exact absurd hclean (by simp)
  obtain ⟨hs, hq⟩ :=
    passStart_preserves (fun g => RatesValid g ∧ CacheNonneg g) LevelValid
      rates_setCount (fun g id level ev hE hcb h => rates_setInhibition g id level ev hE hcb h)
      rates_calcReactProbs cfg n _ s hstart h0 hlevels
  have hfired : ∀ ev ∈ (Sched.processEvents s.t s.nextEvent).1, LevelValid ev := by
    intro ev hev
    apply hq
    rw [← Sched.processEvents_append s.t s.nextEvent]
    exact List.mem_append_left _ hev
  have h1 : RatesValid g1 ∧ CacheNonneg g1 :=
    processAll_preserves (fun g => RatesValid g ∧ CacheNonneg g) LevelValid
      rates_setCount (fun g id level ev hE hcb h => rates_setInhibition g id level ev hE hcb h)
      _ _ _ hfired hev hs
  have hall := calcReactProbs_nonneg g1 h1.1 h1.2
  refine ⟨hall, ?_⟩
  have ha0 : (calcReactProbs g1).1
      = (((calcReactProbs g1).2.reactions).map (fun r => r.a)).foldl (fun s x => s + x) 0 := by
    rw [calcReactProbs_reactions]
    exact calcLoop_fst _ _ _
  rw [ha0]
  apply foldl_add_nonneg _ _ (le_refl _)
  intro x hx
  obtain ⟨r, hr, rfl⟩ := List.mem_map.mp hx
  exact hall r hr

/-- C25, at a concrete call: the first pass of `run` on `abcNet` with no
scheduled event. -/
theorem propensities_nonnegative_after_refresh_witness :
    0 ≤ (calcReactProbs abcNet).1 :=
  (propensities_nonnegative_after_refresh plainConfig abcNet [] 1 0 (runInit abcNet [] 1)
    abcNet
    (show ∀ r ∈ abcNet.reactions, 0 ≤ r.c ∧ 0 ≤ r.inhibition ∧ r.inhibition ≤ 1 by
      simp [abcNet, abcLoaded, abcReaction])
    (by decide)
    (by simp)
    (by simp [passStart, runInit])
    (by rfl)).2

end Gillespie

namespace Gillespie

theorem selectFrom_positive (r2 : ℚ) (l : List Reaction) (hne : l ≠ []) (r0 : Int) (s0 : ℚ)
    (hlt : s0 < r2) (hle : r2 ≤ (l.map (fun r => r.a)).foldl (fun s x => s + x) s0) :
    ∃ (k : Nat) (x : Reaction), selectFrom r2 l r0 s0 = r0 + k ∧ l[k]? = some x ∧ 0 < x.a := by
  induction l generalizing r0 s0 with
  | nil => exact absurd rfl hne
  | cons x l ih =>
    cases l with
    | nil =>
      refine ⟨0, x, by simp [selectFrom], by simp, ?_⟩
      simp only [List.map_cons, List.map_nil, List.foldl_cons, List.foldl_nil] at hle
      linarith
    | cons y rest =>
      by_cases hge : s0 + x.a ≥ r2
      · refine ⟨0, x, by simp [selectFrom, hge], by simp, ?_⟩
        linarith
      · obtain ⟨k, z, hk, hz, hpos⟩ :=
          ih (by simp) (r0 + 1) (s0 + x.a) (lt_of_not_ge hge) (by simpa using hle)
        refine ⟨k + 1, z, ?_, by simpa using hz, hpos⟩
        simp only [selectFrom, if_neg hge, hk]
        push_cast
        ring

theorem applyLoop_counts (g g' : Gillespie) (r m : Nat) (hm : m < g.molecules.length)
    (huint : leftAt g.reactions r m < UINT_RANGE ∧ rightAt g.reactions r m < UINT_RANGE)
    (hfeas : leftAt g.reactions r m ≤ getCount g.molecules m)
    (hno : getCount g.molecules m - leftAt g.reactions r m + rightAt g.reactions r m
      < UINT_RANGE)
    (h : applyLoop r (List.range g.molecules.length) g = .ok g') :
    getCount g'.molecules m
      = getCount g.molecules m - leftAt g.reactions r m + rightAt g.reactions r m := by
  obtain ⟨_, _, _, _, _, h6, h7⟩ :=
    applyLoop_ok r (List.range g.molecules.length) (List.nodup_range _) g g'
      (fun m hm => List.mem_range.mp hm) h
  by_cases hdel : delta (leftAt g.reactions r m) (rightAt g.reactions r m) ≠ 0
  · rw [(h6 m (List.mem_range.mpr hm) hdel).1]
    exact newCount_exact g r m huint.2 hfeas hno
  · have hd0 : delta (leftAt g.reactions r m) (rightAt g.reactions r m) = 0 := by
      simpa using hdel
    have heq : leftAt g.reactions r m = rightAt g.reactions r m := by
      by_contra hne
      exact ((delta_ne_zero_iff _ _ huint.1 huint.2).mpr hne) hd0
    rw [getCount_congr _ _ m (h7 m (Or.inr hd0)), ← heq]
    omega

/-- C26, amended: the reaction that `run` selects is feasible.  `run` is
called on a network that `verify` has accepted, with every reaction dirty and
one left coefficient per molecule.  In every pass through the loop that is
reached, if the draw `r2` satisfies `0 < r2 <= a0`, the selection loop ends at
the index `k` of a reaction with `count[m] >= left[m]` for every molecule `m`
(counts as the event dispatch of the pass leaves them), so that no count is
taken below zero; and when the pass completes, every molecule whose
`count - left + right` is below `2 ^ 32` ends the pass with exactly that
count. -/
theorem selected_reaction_is_feasible (cfg : RunConfig) (g0 g : Gillespie)
    (nextEvent : List Sched.Event) (stopTime : ℚ) (n : Nat) (s : RunState) (g1 : Gillespie)
    (hfresh : ∀ x ∈ g0.molecules, x.downstreamReactions = [])
    (hv : verify g0 = .ok g) (hwf : WellFormed g)
    (hdirty : ∀ r ∈ g.reactions, r.isDirty = true)
    (hstart : passStart cfg n (runInit g nextEvent stopTime) = .ok (some s))
    (hev : processAll s.g (Sched.processEvents s.t s.nextEvent).1 = .ok g1)
    (hr2 : 0 < cfg.rand (s.drawn + 1) ∧ cfg.rand (s.drawn + 1) ≤ (calcReactProbs g1).1) :
    ∃ k : Nat, k < g1.reactions.length
      ∧ selectFrom (cfg.rand (s.drawn + 1)) (calcReactProbs g1).2.reactions 0 0 = (k : Int)
      ∧ (∀ m : Nat, m < g1.molecules.length →
          leftAt g1.reactions k m ≤ getCount g1.molecules m)
      ∧ (∀ (s' : RunState) (b : Bool), runIter cfg s = .ok (s', b) →
          ∀ m : Nat, m < g1.molecules.length →
            leftAt g1.reactions k m < UINT_RANGE ∧ rightAt g1.reactions k m < UINT_RANGE →
            getCount g1.molecules m - leftAt g1.reactions k m + rightAt g1.reactions k m
              < UINT_RANGE →
            getCount s'.g.molecules m
              = getCount g1.molecules m - leftAt g1.reactions k m
                + rightAt g1.reactions k m) := by
  have hinv0 := CacheInvariant_verified g0 g hfresh hv hwf hdirty
  have hinvs :=
    (passStart_preserves CacheInvariant (fun _ => True) CacheInvariant_setCount
      (fun g id level _ _ _ h => CacheInvariant_setInhibition g id level h)
      CacheInvariant_calcReactProbs cfg n _ s hstart hinv0 (fun _ _ => trivial)).1
  obtain ⟨hwf1, _, hcs1⟩ :=
    processAll_preserves CacheInvariant (fun _ => True) CacheInvariant_setCount
      (fun g id level _ _ _ h => CacheInvariant_setInhibition g id level h)
      _ _ _ (fun _ _ => trivial) hev hinvs
  have ha0 : (calcReactProbs g1).1
      = (((calcReactProbs g1).2.reactions).map (fun r => r.a)).foldl (fun s x => s + x) 0 := by
    rw [calcReactProbs_reactions]
    exact calcLoop_fst _ _ _
  have hne : (calcReactProbs g1).2.reactions ≠ [] := by
    intro hnil
    rw [ha0, hnil] at hr2
    simp only [List.map_nil, List.foldl_nil] at hr2
    linarith [hr2.1, hr2.2]
  obtain ⟨k, x, hsel, hx, hpos⟩ :=
    selectFrom_positive (cfg.rand (s.drawn + 1)) _ hne 0 0 hr2.1 (by rw [← ha0]; exact hr2.2)
  rw [zero_add] at hsel
  have hxm : x ∈ (calcReactProbs g1).2.reactions := List.getElem?_mem hx
  have hk : k < g1.reactions.length := by
    by_contra hge
    have hlen : (calcReactProbs g1).2.reactions.length ≤ k := by
      rw [calcReactProbs_reactions, List.length_map]
      exact not_lt.mp hge
    rw [List.getElem?_eq_none hlen] at hx
    exact absurd hx (by simp)
  have hfeas : Feasible g1.molecules x := by
    by_contra hnf
    have := calcReactProbs_sound g1 hwf1 hcs1 x hxm hnf
    linarith
  have hleft : ∀ m : Nat, leftAt g1.reactions k m = x.left.getD m 0 := by
    intro m
    rw [← calcReactProbs_leftAt]
    unfold leftAt
    rw [hx]
  have hfeas' : ∀ m : Nat, m < g1.molecules.length →
      leftAt g1.reactions k m ≤ getCount g1.molecules m := by
    intro m hm
    rw [hleft]
    exact hfeas m hm
  refine ⟨k, hk, hsel, hfeas', ?_⟩
  intro s' b hrun m hm huint hno
  unfold runIter at hrun
  rw [hev] at hrun
  simp only [] at hrun
  obtain ⟨tau, r, drawn1, hdraw, hcase⟩ := stepFrom_g _ _ _ _ hrun
  rw [monitorStep_g, monitorStep_drawn] at hdraw
  rw [monitorStep_g] at hcase
  simp only [] at hdraw hcase
  have ha0ne : (calcReactProbs g1).1 ≠ 0 := by
    have := lt_of_lt_of_le hr2.1 hr2.2
    exact ne_of_gt this
  have hr : r = (k : Int) := by
    unfold drawAndSelect at hdraw
    rw [if_pos ha0ne] at hdraw
    split_ifs at hdraw
    injection hdraw with hdraw
    injection hdraw with _ hdraw
    injection hdraw with hdraw _
    rw [← hdraw]
    exact hsel
  subst hr
  rcases hcase with ⟨_, happly⟩ | ⟨hneg, _⟩
  · rw [Int.toNat_ofNat] at happly
    have hcount := applyLoop_counts (calcReactProbs g1).2 s'.g k m hm
      (by rw [calcReactProbs_leftAt, calcReactProbs_rightAt]; exact huint)
      (by rw [calcReactProbs_leftAt]; exact hfeas' m hm)
      (by rw [calcReactProbs_leftAt, calcReactProbs_rightAt]; exact hno)
      happly
    rw [calcReactProbs_leftAt, calcReactProbs_rightAt] at hcount
    exact hcount
  · exfalso
    omega

/-- C26 amended, at a concrete call: in the first pass of `run` on `abcNet` with the
draw `r2 = 1/2` the selection ends at a feasible reaction. -/
theorem selected_reaction_is_feasible_witness :
    ∃ k : Nat, k < abcNet.reactions.length
      ∧ selectFrom (plainConfig.rand ((runInit abcNet [] 1).drawn + 1))
          (calcReactProbs abcNet).2.reactions 0 0 = (k : Int)
      ∧ (∀ m : Nat, m < abcNet.molecules.length →
          leftAt abcNet.reactions k m ≤ getCount abcNet.molecules m)
      ∧ (∀ (s' : RunState) (b : Bool), runIter plainConfig (runInit abcNet [] 1) = .ok (s', b) →
          ∀ m : Nat, m < abcNet.molecules.length →
            leftAt abcNet.reactions k m < UINT_RANGE
              ∧ rightAt abcNet.reactions k m < UINT_RANGE →
            getCount abcNet.molecules m - leftAt abcNet.reactions k m
                + rightAt abcNet.reactions k m < UINT_RANGE →
            getCount s'.g.molecules m
              = getCount abcNet.molecules m - leftAt abcNet.reactions k m
                + rightAt abcNet.reactions k m) :=
  selected_reaction_is_feasible plainConfig abcLoaded abcNet [] 1 0 (runInit abcNet [] 1)
    abcNet (by decide) (by rfl)
    (show ∀ r ∈ abcNet.reactions, r.left.length = abcNet.molecules.length by decide)
    (by decide)
    (by simp [passStart, runInit])
    (by rfl)
    (by
      simp [calcReactProbs, calcLoop, recalcReaction, abcNet, abcLoaded, abcReaction,
        isPossible, calcH, calcHStep, mulRepeat, numCombinations, getCount, List.range,
        List.range.loop, UINT_RANGE, plainConfig, runInit]
      norm_num)

/-- C26 (counterexample): `run` is called on `growNet`, the
verified network with 4294967295 molecules of `A` and the reaction
`A ---> 2 A` (`c = 1`, inhibition 0), with stop time 1.  In the first pass
`a0 = 4294967295`, the draw `r2 = 1/2` lies in `(0, a0]`, reaction 0 is
selected and is feasible; the pass completes and leaves the count of `A` at 0,
whereas `count - left + right = 4294967296`. -/
theorem count_wraps_at_uint_range :
    verify growLoaded = .ok growNet
    ∧ RatesValid growNet
    ∧ (calcReactProbs growNet).1 = 4294967295
    ∧ (0 < plainConfig.rand 1 ∧ plainConfig.rand 1 ≤ (calcReactProbs growNet).1)
    ∧ selectFrom (plainConfig.rand 1) (calcReactProbs growNet).2.reactions 0 0 = 0
    ∧ leftAt growNet.reactions 0 0 ≤ getCount growNet.molecules 0
    ∧ (runIter plainConfig (runInit growNet [] 1)).map
        (fun res => (getCount res.1.g.molecules 0, res.2)) = .ok (0, true)
    ∧ getCount growNet.molecules 0 - leftAt growNet.reactions 0 0
        + rightAt growNet.reactions 0 0 = 4294967296 := by
  have ha0 : (calcReactProbs growNet).1 = 4294967295 := by
    simp [calcReactProbs, calcLoop, recalcReaction, growNet, growLoaded, growReaction,
      isPossible, calcH, calcHStep, mulRepeat, numCombinations, getCount, List.range,
      List.range.loop, UINT_RANGE]
  refine ⟨by rfl, ?_, ha0, ?_, ?_, by decide, ?_, by decide⟩
  · simp [RatesValid, growNet, growLoaded, growReaction]
  · rw [ha0]
    norm_num [plainConfig]
  · simp [selectFrom, calcReactProbs, calcLoop, growNet, growLoaded]
  · simp [runIter, stepFrom, plotSamples, plotFuel, plotLoop, applyOrStop, applyLoop, delta,
      leftAt, rightAt, Molecule.setCount, markDirty, drawAndSelect, selectFrom, monitorStep,
      processAll, Sched.processEvents, runInit, plainConfig,
      calcReactProbs, calcLoop, recalcReaction, growNet, growLoaded, growReaction, isPossible,
      calcH, calcHStep, mulRepeat, numCombinations, getCount, List.range, List.range.loop,
      UINT_RANGE, List.modify, List.modifyTailIdx, List.modifyHead, Except.map]
    norm_num
    rw [show (1 : ℕ) = 0 + 1 from rfl]
    norm_num [plotLoop]

end Gillespie

namespace Sched

theorem insertAfter_eq (e : Event) (l : List Event) :
    insertAfter e l
      = l.takeWhile (fun x => decide (x.time ≤ e.time))
        ++ e :: l.dropWhile (fun x => decide (x.time ≤ e.time)) := by
  induction l with
  | nil => simp [insertAfter]
  | cons x l ih =>
    simp only [insertAfter]
    by_cases hx : x.time ≤ e.time
    · simp [hx, ih, List.takeWhile_cons, List.dropWhile_cons]
    · simp [hx, List.takeWhile_cons, List.dropWhile_cons]

theorem insertAfter_sublist (e : Event) (l : List Event) :
    List.Sublist l (insertAfter e l) := by
  rw [insertAfter_eq]
  conv_lhs => rw [← List.takeWhile_append_dropWhile (fun x => decide (x.time ≤ e.time)) l]
  exact List.Sublist.append (List.Sublist.refl _) (List.sublist_cons_self _ _)

theorem scheduleEvent_sorted_iff (h : Event) (t : List Event) (e : Event) :
    Sorted (scheduleEvent (h :: t) e) ↔ Sorted (h :: t) ∧ h.time ≤ e.time := by
  unfold Sorted
  simp only [scheduleEvent, List.pairwise_cons]
  constructor
  · rintro ⟨hall, hs⟩
    refine ⟨⟨?_, hs.sublist (insertAfter_sublist e t)⟩, ?_⟩
    · intro a ha
      exact hall a ((insertAfter_sublist e t).subset ha)
    · apply hall e
      exact (insertAfter_perm e t).symm.subset (List.mem_cons_self _ _)
  · rintro ⟨⟨hall, hs⟩, he⟩
    refine ⟨?_, insertAfter_sorted e t hs⟩
    intro a ha
    rcases List.mem_cons.mp ((insertAfter_perm e t).subset ha) with rfl | ha'
    · exact he
    · exact hall a ha'

theorem processEvents_tail_sorted (now : ℚ) (q : List Event) (h : Sorted q.tail) :
    Sorted (processEvents now q).2.tail := by
  cases q with
  | nil => simpa [processEvents] using h
  | cons x l =>
    simp only [processEvents]
    by_cases hx : x.time ≤ now
    · rw [if_pos hx]
      simp only []
      have hsuf : List.IsSuffix (processEvents now l).2 l := by
        have := processEvents_append now l
        exact ⟨_, this⟩
      have h1 : Sorted (processEvents now l).2 := List.Pairwise.sublist hsuf.sublist h
      exact List.Pairwise.sublist (List.tail_sublist _) h1
    · rw [if_neg hx]
      exact h

theorem step_tail_sorted (s : State) (c : Call) (h : Sorted s.queue.tail) :
    Sorted (step s c).queue.tail := by
  cases c with
  | schedule ev => exact scheduleEvent_tail_sorted _ ev h
  | process now => exact processEvents_tail_sorted now _ h
  | clear => simp [step, Sorted]

theorem foldl_step_tail_sorted (calls : List Call) (s : State) (h : Sorted s.queue.tail) :
    Sorted (calls.foldl step s).queue.tail := by
  induction calls generalizing s with
  | nil => exact h
  | cons c calls ih => exact ih _ (step_tail_sorted s c h)

/-- C36: `scheduleEvent` never displaces the head of a non-empty queue.  The
result for the queue `h :: t` and the new event `e` is `h`, then the events at
the front of `t` with fire time `<= e`'s, then `e`, then the rest of `t`: the
head stays, and the events of the queue keep their order.  The part after the
head is sorted afterwards if it was before, and it is sorted after every
sequence of calls of the scheduler starting from the empty queue.  The whole
result is sorted exactly when the queue was sorted and the fire time of `e` is
`>=` that of the head. -/
theorem scheduleEvent_never_displaces_head (h : Event) (t : List Event) (e : Event) :
    scheduleEvent (h :: t) e
        = h :: (t.takeWhile (fun x => decide (x.time ≤ e.time))
            ++ e :: t.dropWhile (fun x => decide (x.time ≤ e.time)))
    ∧ (scheduleEvent (h :: t) e).head? = some h
    ∧ List.Sublist (h :: t) (scheduleEvent (h :: t) e)
    ∧ (Sorted t → Sorted (scheduleEvent (h :: t) e).tail)
    ∧ (∀ calls : List Call, Sorted (runCalls calls).queue.tail)
    ∧ (Sorted (scheduleEvent (h :: t) e) ↔ Sorted (h :: t) ∧ h.time ≤ e.time) := by
  refine ⟨?_, rfl, ?_, ?_, ?_, scheduleEvent_sorted_iff h t e⟩
  · simp only [scheduleEvent]
    rw [insertAfter_eq]
  · simp only [scheduleEvent]
    exact List.Sublist.cons₂ h (insertAfter_sublist e t)
  · intro hs
    exact insertAfter_sorted e t hs
  · intro calls
    exact foldl_step_tail_sorted calls ⟨[], [], []⟩ (by simp [Sorted])

/-- C36, at a concrete queue: the event with fire time 3 goes behind the head
with fire time 5 and in front of the event with fire time 7. -/
theorem scheduleEvent_never_displaces_head_witness :
    Sorted [(⟨7, .other .NONE 1⟩ : Event)]
    ∧ Sorted (scheduleEvent [⟨5, .other .NONE 0⟩, ⟨7, .other .NONE 1⟩]
        ⟨3, .other .NONE 2⟩).tail :=
  ⟨by decide,
   (scheduleEvent_never_displaces_head ⟨5, .other .NONE 0⟩ [⟨7, .other .NONE 1⟩]
      ⟨3, .other .NONE 2⟩).2.2.2.1 (by decide)⟩

end Sched

namespace Gillespie

theorem maxFold_spec (l : List Nat) (k0 : Nat) :
    k0 ≤ l.foldl (fun k m => if m > k then m else k) k0
    ∧ (∀ m ∈ l, m ≤ l.foldl (fun k m => if m > k then m else k) k0)
    ∧ (l.foldl (fun k m => if m > k then m else k) k0 = k0
        ∨ l.foldl (fun k m => if m > k then m else k) k0 ∈ l) := by
  induction l generalizing k0 with
  | nil => simp
  | cons x l ih =>
    simp only [List.foldl_cons]
    by_cases hx : x > k0
    · simp only [if_pos hx]
      obtain ⟨h1, h2, h3⟩ := ih x
      refine ⟨by omega, ?_, ?_⟩
      · intro m hm
        rcases List.mem_cons.mp hm with rfl | hm
        · exact h1
        · exact h2 m hm
      · right
        rcases h3 with h3 | h3
        · rw [h3]
          exact List.mem_cons_self _ _
        · exact List.mem_cons_of_mem _ h3
    · simp only [if_neg hx]
      obtain ⟨h1, h2, h3⟩ := ih k0
      refine ⟨h1, ?_, ?_⟩
      · intro m hm
        rcases List.mem_cons.mp hm with rfl | hm
        · omega
        · exact h2 m hm
      · rcases h3 with h3 | h3
        · left
          exact h3
        · right
          exact List.mem_cons_of_mem _ h3

theorem maxKFold_spec (rs : List Reaction) (k0 : Nat) :
    k0 ≤ rs.foldl (fun k r => r.left.foldl (fun k m => if m > k then m else k) k) k0
    ∧ (∀ r ∈ rs, ∀ m ∈ r.left,
        m ≤ rs.foldl (fun k r => r.left.foldl (fun k m => if m > k then m else k) k) k0)
    ∧ (rs.foldl (fun k r => r.left.foldl (fun k m => if m > k then m else k) k) k0 = k0
        ∨ ∃ r ∈ rs,
          rs.foldl (fun k r => r.left.foldl (fun k m => if m > k then m else k) k) k0
            ∈ r.left) := by
  induction rs generalizing k0 with
  | nil => simp
  | cons x rs ih =>
    simp only [List.foldl_cons]
    obtain ⟨h1, h2, h3⟩ := ih (x.left.foldl (fun k m => if m > k then m else k) k0)
    obtain ⟨g1, g2, g3⟩ := maxFold_spec x.left k0
    refine ⟨le_trans g1 h1, ?_, ?_⟩
    · intro r hr m hm
      rcases List.mem_cons.mp hr with rfl | hr
      · exact le_trans (g2 m hm) h1
      · exact h2 r hr m hm
    · rcases h3 with h3 | ⟨r, hr, h3⟩
      · rcases g3 with g3 | g3
        · left
          rw [h3, g3]
        · right
          refine ⟨x, List.mem_cons_self _ _, ?_⟩
          rw [h3]
          exact g3
      · right
        exact ⟨r, List.mem_cons_of_mem _ hr, h3⟩

/-- C31: `verify` fails exactly when the network has no molecule, or no
reaction, or volume 0, and it succeeds in every other case.  When it succeeds
on an object whose `maxK` was 0, the new `maxK` is the greatest entry of the
left sides of the reactions: no entry exceeds it, and it is one of the entries
or, when there is no entry above 0, it is 0. -/
theorem verify_fails_iff_empty_or_no_volume (g : Gillespie) :
    (verify g = .error .fail ↔
        (g.molecules.length = 0 ∨ g.reactions.length = 0 ∨ g.volume = 0))
    ∧ (¬ (g.molecules.length = 0 ∨ g.reactions.length = 0 ∨ g.volume = 0) →
        ∃ g' : Gillespie, verify g = .ok g')
    ∧ (∀ g' : Gillespie, verify g = .ok g' → g.maxK = 0 →
        (∀ r ∈ g.reactions, ∀ m ∈ r.left, m ≤ g'.maxK)
        ∧ (g'.maxK = 0 ∨ ∃ r ∈ g.reactions, g'.maxK ∈ r.left)) := by
  refine ⟨?_, ?_, ?_⟩
  · unfold verify
    constructor
    · intro h
      by_contra hn
      push_neg at hn
      rw [if_neg hn.1, if_neg hn.2.1, if_neg hn.2.2] at h
      exact absurd h (by simp)
    · intro h
      split_ifs with h1 h2 h3
      · rfl
      · rfl
      · rfl
      · exact absurd h (by tauto)
  · intro hn
    push_neg at hn
    unfold verify
    rw [if_neg hn.1, if_neg hn.2.1, if_neg hn.2.2]
    exact ⟨_, rfl⟩
  · intro g' hv h0
    unfold verify at hv
    split_ifs at hv
    injection hv with hv
    subst hv
    simp only [h0]
    obtain ⟨_, h2, h3⟩ := maxKFold_spec g.reactions 0
    exact ⟨h2, h3⟩

/-- C31, at a concrete network: `verify` accepts `abcLoaded`, whose `maxK` is
0, and sets `maxK` to 1. -/
theorem verify_fails_iff_empty_or_no_volume_witness :
    verify abcLoaded = .ok abcNet ∧ abcLoaded.maxK = 0
    ∧ (∀ r ∈ abcLoaded.reactions, ∀ m ∈ r.left, m ≤ abcNet.maxK)
    ∧ (abcNet.maxK = 0 ∨ ∃ r ∈ abcLoaded.reactions, abcNet.maxK ∈ r.left) :=
  ⟨by rfl, by rfl,
   (verify_fails_iff_empty_or_no_volume abcLoaded).2.2 abcNet (by rfl) (by rfl)⟩

theorem selectFrom_eq_cumulativeSearch (r2 : ℚ) (l : List Reaction) (hne : l ≠ [])
    (r0 : Int) (s0 : ℚ) (i0 : Nat)
    (hle : r2 ≤ (l.map (fun r => r.a)).foldl (fun s x => s + x) s0) :
    ∃ k : Nat, selectFrom r2 l r0 s0 = r0 + k
      ∧ cumulativeSearch r2 (l.map (fun r => r.a)) s0 i0 = some (i0 + k)
      ∧ k < l.length
      ∧ r2 ≤ runningSum l s0 k
      ∧ ∀ i : Nat, i < k → runningSum l s0 i < r2 := by
  induction l generalizing r0 s0 i0 with
  | nil => exact absurd rfl hne
  | cons x l ih =>
    cases l with
    | nil =>
      simp only [List.map_cons, List.map_nil, List.foldl_cons, List.foldl_nil] at hle
      refine ⟨0, by simp [selectFrom], ?_, by simp, ?_, ?_⟩
      · simp [cumulativeSearch, hle]
      · rw [runningSum_zero]; exact hle
      · intro i hi; omega
    | cons y rest =>
      by_cases hge : s0 + x.a ≥ r2
      · refine ⟨0, by simp [selectFrom, hge], ?_, by simp, ?_, ?_⟩
        · simp [cumulativeSearch, hge]
        · rw [runningSum_zero]; exact hge
        · intro i hi; omega
      · obtain ⟨k, hk, hc, hlen, hsum, hlt⟩ :=
          ih (by simp) (r0 + 1) (s0 + x.a) (i0 + 1) (by simpa using hle)
        refine ⟨k + 1, ?_, ?_, ?_, ?_, ?_⟩
        · simp only [selectFrom, if_neg hge, hk]
          push_cast
          ring
        · simp only [List.map_cons, cumulativeSearch, if_neg hge] at hc ⊢
          rw [hc]
          congr 1
          omega
        · simp only [List.length_cons] at hlen ⊢
          omega
        · rw [runningSum_succ]; exact hsum
        · intro i hi
          cases i with
          | zero => rw [runningSum_zero]; exact lt_of_not_ge hge
          | succ j => rw [runningSum_succ]; exact hlt j (by omega)

/-- C37: the selection loop of `run`, which scans all reactions but the last
and takes the last by default, agrees with the plain cumulative-sum search.
For every list of reactions and every `r2` with `0 < r2 <= a0`, where `a0` is
the sum of the propensities, the loop ends at the index `k` that the plain
search over all reactions finds; `k` is the least index whose cumulative sum
`a[0] + ... + a[k]` is `>= r2`, and the reaction at `k` has `a > 0`.  (The
propensities need not be `>= 0` for this.) -/
theorem selection_scan_equals_cumulative_search (rs : List Reaction) (r2 : ℚ)
    (hpos : 0 < r2)
    (hle : r2 ≤ (rs.map (fun r => r.a)).foldl (fun s x => s + x) 0) :
    ∃ (k : Nat) (x : Reaction),
      selectFrom r2 rs 0 0 = (k : Int)
      ∧ cumulativeSearch r2 (rs.map (fun r => r.a)) 0 0 = some k
      ∧ rs[k]? = some x
      ∧ r2 ≤ runningSum rs 0 k
      ∧ (∀ i : Nat, i < k → runningSum rs 0 i < r2)
      ∧ 0 < x.a := by
  have hne : rs ≠ [] := by
    intro h
    rw [h] at hle
    simp only [List.map_nil, List.foldl_nil] at hle
    linarith
  obtain ⟨k, hk, hc, _, hsum, hlt⟩ := selectFrom_eq_cumulativeSearch r2 rs hne 0 0 0 hle
  obtain ⟨k', x, hk', hx, hxa⟩ := selectFrom_positive r2 rs hne 0 0 hpos hle
  have hkk : k' = k := by
    rw [hk] at hk'
    have : ((k : Int)) = (k' : Int) := by linarith
    exact_mod_cast this.symm
  subst hkk
  refine ⟨k', x, by simpa using hk, by simpa using hc, hx, hsum, hlt, hxa⟩

/-- C37, at a concrete list: with propensities 1, 0, 2 and `r2 = 3` the first
two cumulative sums are below `r2`, and both searches end at index 2, the last
reaction. -/
theorem selection_scan_equals_cumulative_search_witness :
    ∃ (k : Nat) (x : Reaction),
      selectFrom 3 [withPropensity 1, withPropensity 0, withPropensity 2] 0 0 = (k : Int)
      ∧ cumulativeSearch 3
          ([withPropensity 1, withPropensity 0, withPropensity 2].map (fun r => r.a)) 0 0
          = some k
      ∧ [withPropensity 1, withPropensity 0, withPropensity 2][k]? = some x
      ∧ (3 : ℚ) ≤ runningSum [withPropensity 1, withPropensity 0, withPropensity 2] 0 k
      ∧ (∀ i : Nat, i < k →
          runningSum [withPropensity 1, withPropensity 0, withPropensity 2] 0 i < 3)
      ∧ 0 < x.a :=
  selection_scan_equals_cumulative_search
    [withPropensity 1, withPropensity 0, withPropensity 2] 3 (by norm_num)
    (by norm_num [withPropensity])

end Gillespie

namespace Gillespie

/-! ### The samples and the waiting time over a whole run -/

theorem runIter_samples (cfg : RunConfig) (s s' : RunState) (b : Bool)
    (hpi : 0 < cfg.plotInterval) (h : runIter cfg s = .ok (s', b)) :
    ∃ (n : Nat) (counts : List Nat),
      s'.output = s.output ++ (List.range n).map
        (fun k : Nat => (s.plotTime + (k : ℚ) * cfg.plotInterval, counts))
      ∧ s'.plotTime = s.plotTime + (n : ℚ) * cfg.plotInterval
      ∧ (∀ k : Nat, k < n →
          s.plotTime + (k : ℚ) * cfg.plotInterval ≤ s'.t
            ∧ s.plotTime + (k : ℚ) * cfg.plotInterval ≤ s'.stopTime)
      ∧ ¬ (s'.plotTime ≤ s'.t ∧ s'.plotTime ≤ s'.stopTime) := by
  obtain ⟨g1, hd⟩ := runIter_dispatch cfg s s' b h
  unfold runIter at h
  rw [hd] at h
  simp only [] at h
  obtain ⟨res, hplot, hpt, hout, hstop⟩ := stepFrom_samples cfg _ s' b h
  simp only [monitorStep_g, monitorStep_plotTime, (monitorStep_frame cfg _).2.2.2.2.2]
    at hplot hpt hout
  rw [← hstop] at hplot
  unfold plotSamples at hplot
  rw [if_neg (not_le.mpr hpi)] at hplot
  split at hplot
  · rename_i res' hloop
    injection hplot with hplot
    subst hplot
    obtain ⟨n, h1, h2, h3, h4⟩ := plotLoop_some _ _ _ _ _ _ _ hloop
    refine ⟨n, g1.molecules.map (fun x => x.count), ?_, ?_, h3, ?_⟩
    · rw [hout, h2]
    · rw [hpt, h1]
    · rw [hpt]
      exact h4
  · exact absurd hplot (by simp)

theorem runIter_grid (cfg : RunConfig) (s s' : RunState) (b : Bool)
    (hpi : 0 < cfg.plotInterval) (h : runIter cfg s = .ok (s', b))
    (hs : ∃ K : Nat, s.plotTime = (K : ℚ) * cfg.plotInterval
      ∧ s.output.map (fun x => x.1)
          = (List.range K).map (fun k : Nat => (k : ℚ) * cfg.plotInterval)) :
    ∃ K : Nat, s'.plotTime = (K : ℚ) * cfg.plotInterval
      ∧ s'.output.map (fun x => x.1)
          = (List.range K).map (fun k : Nat => (k : ℚ) * cfg.plotInterval) := by
  obtain ⟨K, hK1, hK2⟩ := hs
  obtain ⟨n, counts, hout, hpt, _, _⟩ := runIter_samples cfg s s' b hpi h
  refine ⟨K + n, ?_, ?_⟩
  · rw [hpt, hK1]
    push_cast
    ring
  · rw [hout, List.map_append, hK2, List.range_add, List.map_append, List.map_map,
      List.map_map]
    congr 1
    apply List.map_congr_left
    intro k _
    simp only [Function.comp, hK1]
    push_cast
    ring

theorem runLoop_grid (cfg : RunConfig) (fuel : Nat) (s s' : RunState) (b : Bool)
    (hpi : 0 < cfg.plotInterval) (h : runLoop cfg fuel s = .ok (s', b))
    (hs : ∃ K : Nat, s.plotTime = (K : ℚ) * cfg.plotInterval
      ∧ s.output.map (fun x => x.1)
          = (List.range K).map (fun k : Nat => (k : ℚ) * cfg.plotInterval)) :
    ∃ K : Nat, s'.plotTime = (K : ℚ) * cfg.plotInterval
      ∧ s'.output.map (fun x => x.1)
          = (List.range K).map (fun k : Nat => (k : ℚ) * cfg.plotInterval) := by
  induction fuel generalizing s with
  | zero =>
    simp only [runLoop] at h
    injection h with h
    injection h with h1 _
    subst h1
    exact hs
  | succ n ih =>
    simp only [runLoop] at h
    by_cases ht : s.t ≤ s.stopTime
    · rw [if_pos ht] at h
      split at h
      · exact absurd h (by simp)
      · rename_i s1 hs1
        exact ih s1 h (runIter_grid cfg s s1 true hpi hs1 hs)
      · rename_i s1 hs1
        injection h with h
        injection h with h1 _
        subst h1
        exact runIter_grid cfg s s1 false hpi hs1 hs
    · rw [if_neg ht] at h
      injection h with h
      injection h with h1 _
      subst h1
      exact hs

theorem grid_strictly_increasing (pI : ℚ) (hpi : 0 < pI) (K : Nat) :
    List.Pairwise (fun a b : ℚ => a < b)
      ((List.range K).map (fun k : Nat => (k : ℚ) * pI)) := by
  rw [List.pairwise_map]
  apply List.Pairwise.imp _ (List.pairwise_lt_range K)
  intro a b hab
  have : (a : ℚ) < (b : ℚ) := by exact_mod_cast hab
  exact mul_lt_mul_of_pos_right this hpi

/-- C32: the samples of a run come out in time order on the sampling grid.
For `plotInterval > 0`, whenever the loop of `run`, started with `t = 0` and
`plotTime = 0`, has made any number of passes (in particular when it has
ended), the times of the samples printed so far are `0`, `plotInterval`,
`2 * plotInterval`, ..., `(K - 1) * plotInterval` for some `K`, each once, in
strictly increasing order, and the cursor `plotTime` stands at
`K * plotInterval`.  In every pass, the samples the pass prints have times
`<=` the time `t` the pass has advanced to and `<=` the stop time that is in
force in that pass.  (Neither `idleTick` nor `monitorDelay` matters here.) -/
theorem samples_on_grid_in_time_order (cfg : RunConfig) (g : Gillespie)
    (nextEvent : List Sched.Event) (stopTime : ℚ) (hpi : 0 < cfg.plotInterval) :
    (∀ (fuel : Nat) (s' : RunState) (b : Bool),
      runLoop cfg fuel (runInit g nextEvent stopTime) = .ok (s', b) →
      ∃ K : Nat,
        s'.output.map (fun x => x.1)
          = (List.range K).map (fun k : Nat => (k : ℚ) * cfg.plotInterval)
        ∧ s'.plotTime = (K : ℚ) * cfg.plotInterval
        ∧ List.Pairwise (fun a b : ℚ => a < b) (s'.output.map (fun x => x.1)))
    ∧ (∀ (s s' : RunState) (b : Bool), runIter cfg s = .ok (s', b) →
        ∃ samples : List (ℚ × List Nat), s'.output = s.output ++ samples
          ∧ ∀ x ∈ samples, x.1 ≤ s'.t ∧ x.1 ≤ s'.stopTime) := by
  refine ⟨?_, ?_⟩
  · intro fuel s' b h
    obtain ⟨K, h1, h2⟩ := runLoop_grid cfg fuel _ s' b hpi h
      ⟨0, by simp [runInit], by simp [runInit]⟩
    refine ⟨K, h2, h1, ?_⟩
    rw [h2]
    exact grid_strictly_increasing _ hpi K
  · intro s s' b h
    obtain ⟨n, counts, hout, _, hle, _⟩ := runIter_samples cfg s s' b hpi h
    refine ⟨_, hout, ?_⟩
    intro x hx
    obtain ⟨k, hk, rfl⟩ := List.mem_map.mp hx
    exact hle k (List.mem_range.mp hk)

/-- C32, at a concrete run: the run on `abcEmpty` with stop time 1 ends in its
first pass, and its samples lie on the grid. -/
theorem samples_on_grid_in_time_order_witness :
    ∃ (s' : RunState) (b : Bool) (K : Nat),
      runLoop plainConfig 1 (runInit abcEmpty [] 1) = .ok (s', b)
      ∧ s'.output.map (fun x => x.1)
          = (List.range K).map (fun k : Nat => (k : ℚ) * plainConfig.plotInterval) := by
  cases hrun : runLoop plainConfig 1 (runInit abcEmpty [] 1) with
  | error e =>
    exfalso
    have hidle := runIter_idle_eq plainConfig (runInit abcEmpty [] 1) abcEmpty (by rfl)
      (by simp [calcReactProbs, calcLoop, recalcReaction, abcEmpty, abcNet, abcLoaded,
            abcReaction, isPossible, getCount, List.range, List.range.loop])
    have hp := plotSamples_ok plainConfig.plotInterval
      ((runInit abcEmpty [] 1).t + (if abcEmpty.runIdle = true then abcEmpty.idleTick else 0))
      (monitorStep plainConfig
        { runInit abcEmpty [] 1 with
          g := abcEmpty,
          nextEvent := (Sched.processEvents (runInit abcEmpty [] 1).t
            (runInit abcEmpty [] 1).nextEvent).2 }).stopTime
      (abcEmpty.molecules.map (fun x => x.count)) (runInit abcEmpty [] 1).plotTime
      (by norm_num [plainConfig])
    obtain ⟨res, hres⟩ := hp
    rw [hres] at hidle
    simp only [runLoop] at hrun
    rw [if_pos (by norm_num [runInit]), hidle] at hrun
    simp [abcEmpty, abcNet, abcLoaded] at hrun
  | ok res =>
    obtain ⟨K, h1, _, _⟩ :=
      (samples_on_grid_in_time_order plainConfig abcEmpty [] 1
        (by norm_num [plainConfig])).1 1 res.1 res.2 hrun
    exact ⟨res.1, res.2, K, rfl, h1⟩

theorem selectFrom_ge (r2 : ℚ) (l : List Reaction) (r0 : Int) (s0 : ℚ) :
    r0 ≤ selectFrom r2 l r0 s0 := by
  induction l generalizing r0 s0 with
  | nil => simp [selectFrom]
  | cons x l ih =>
    cases l with
    | nil => simp [selectFrom]
    | cons y rest =>
      simp only [selectFrom]
      split_ifs
      · exact le_refl _
      · have := ih (r0 + 1) (s0 + x.a)
        omega

theorem stepFrom_t (cfg : RunConfig) (s s' : RunState) (b : Bool)
    (h : stepFrom cfg s = .ok (s', b)) :
    ∃ (tau : ℚ) (r : Int) (drawn1 : Nat),
      drawAndSelect cfg (calcReactProbs s.g).2.reactions (calcReactProbs s.g).1 s.drawn
        = .ok (tau, r, drawn1)
      ∧ s'.t = s.t + (if r = -1 ∧ s.g.runIdle = true then s.g.idleTick else tau) := by
  unfold stepFrom at h
  split at h
  · exact absurd h (by simp)
  · rename_i tau r drawn1 hdraw
    split at h
    · exact absurd h (by simp)
    · exact ⟨tau, r, drawn1, hdraw, (applyOrStop_frame _ _ _ _ h).2.2.1⟩

/-- C33: the waiting time.  For the real logarithm, every `a0 > 0` and every
`r1` in `(0, 1]`, the value `1 / a0 * ln (1 / r1)` is `>= 0`, and it is `0`
exactly when `r1 = 1`.  In `run`, with a function `log` that is `>= 0` from 1
on and `0` only at 1, as `ln` is: for `a0 > 0` and a draw `r1` in `(0, 1]` the
fatal path is taken exactly when `r1 = 1`; for `r1 < 1` the waiting time is
`> 0`, and a pass that completes ends with a greater `t` than it started
with. -/
theorem waiting_time_zero_iff_draw_is_one :
    (∀ a0 r1 : ℝ, 0 < a0 → 0 < r1 → r1 ≤ 1 →
        0 ≤ 1 / a0 * Real.log (1 / r1) ∧ (1 / a0 * Real.log (1 / r1) = 0 ↔ r1 = 1))
    ∧ (∀ (cfg : RunConfig) (rs : List Reaction) (a0 : ℚ) (drawn : Nat),
        (∀ x : ℚ, 1 ≤ x → 0 ≤ cfg.log x ∧ (cfg.log x = 0 ↔ x = 1)) →
        0 < a0 → 0 < cfg.rand drawn → cfg.rand drawn ≤ 1 →
        0 ≤ 1 / a0 * cfg.log (1 / cfg.rand drawn)
        ∧ (drawAndSelect cfg rs a0 drawn = .error .abort ↔ cfg.rand drawn = 1)
        ∧ (cfg.rand drawn < 1 →
            ∃ (r : Int) (drawn1 : Nat),
              drawAndSelect cfg rs a0 drawn
                = .ok (1 / a0 * cfg.log (1 / cfg.rand drawn), r, drawn1)
              ∧ 0 < 1 / a0 * cfg.log (1 / cfg.rand drawn) ∧ r ≠ -1))
    ∧ (∀ (cfg : RunConfig) (s s' : RunState) (b : Bool) (g1 : Gillespie),
        (∀ x : ℚ, 1 ≤ x → 0 ≤ cfg.log x ∧ (cfg.log x = 0 ↔ x = 1)) →
        processAll s.g (Sched.processEvents s.t s.nextEvent).1 = .ok g1 →
        0 < (calcReactProbs g1).1 → 0 < cfg.rand s.drawn → cfg.rand s.drawn < 1 →
        runIter cfg s = .ok (s', b) → s.t < s'.t) := by
  have hmodel : ∀ (cfg : RunConfig) (a0 : ℚ) (drawn : Nat),
      (∀ x : ℚ, 1 ≤ x → 0 ≤ cfg.log x ∧ (cfg.log x = 0 ↔ x = 1)) →
      0 < a0 → 0 < cfg.rand drawn → cfg.rand drawn ≤ 1 →
      0 ≤ 1 / a0 * cfg.log (1 / cfg.rand drawn)
      ∧ (1 / a0 * cfg.log (1 / cfg.rand drawn) = 0 ↔ cfg.rand drawn = 1) := by
    intro cfg a0 drawn hlog ha0 hr0 hr1
    have hx : 1 ≤ 1 / cfg.rand drawn := by
      rw [le_div_iff₀ hr0]
      linarith
    obtain ⟨hnn, hz⟩ := hlog _ hx
    have hinv : 0 < 1 / a0 := by positivity
    refine ⟨mul_nonneg hinv.le hnn, ?_⟩
    rw [mul_eq_zero, hz]
    constructor
    · rintro (h | h)
      · exact absurd h (ne_of_gt hinv)
      · rw [div_eq_iff (ne_of_gt hr0)] at h
        linarith
    · intro h
      right
      rw [h]
      norm_num
  refine ⟨?_, ?_, ?_⟩
  · intro a0 r1 ha0 hr0 hr1
    have hx : 1 ≤ 1 / r1 := by
      rw [le_div_iff₀ hr0]
      linarith
    have hinv : 0 < 1 / a0 := by positivity
    refine ⟨mul_nonneg hinv.le (Real.log_nonneg hx), ?_⟩
    rw [mul_eq_zero]
    constructor
    · rintro (h | h)
      · exact absurd h (ne_of_gt hinv)
      · have hpos : 0 < 1 / r1 := by positivity
        have := Real.eq_one_of_pos_of_log_eq_zero hpos h
        rw [div_eq_iff (ne_of_gt hr0)] at this
        linarith
    · intro h
      right
      rw [h]
      simp
  · intro cfg rs a0 drawn hlog ha0 hr0 hr1
    obtain ⟨hnn, hz⟩ := hmodel cfg a0 drawn hlog ha0 hr0 hr1
    refine ⟨hnn, ?_, ?_⟩
    · unfold drawAndSelect
      rw [if_pos (ne_of_gt ha0)]
      constructor
      · intro h
        by_contra hne
        rw [if_neg (fun h0 => hne (hz.mp h0))] at h
        exact absurd h (by simp)
      · intro h
        rw [if_pos (hz.mpr h)]
    · intro hlt
      have hne : ¬ 1 / a0 * cfg.log (1 / cfg.rand drawn) = 0 := fun h0 =>
        absurd (hz.mp h0) (ne_of_lt hlt)
      refine ⟨selectFrom (cfg.rand (drawn + 1)) rs 0 0, drawn + 2, ?_, ?_, ?_⟩
      · unfold drawAndSelect
        rw [if_pos (ne_of_gt ha0), if_neg hne]
      · exact lt_of_le_of_ne hnn (Ne.symm hne)
      · have := selectFrom_ge (cfg.rand (drawn + 1)) rs 0 0
        omega
  · intro cfg s s' b g1 hlog hev ha0 hr0 hr1 hrun
    obtain ⟨hnn, hz⟩ := hmodel cfg _ s.drawn hlog ha0 hr0 hr1.le
    have hne : ¬ 1 / (calcReactProbs g1).1 * cfg.log (1 / cfg.rand s.drawn) = 0 := fun h0 =>
      absurd (hz.mp h0) (ne_of_lt hr1)
    unfold runIter at hrun
    rw [hev] at hrun
    simp only [] at hrun
    obtain ⟨tau, r, drawn1, hdraw, ht⟩ := stepFrom_t _ _ _ _ hrun
    rw [monitorStep_g, monitorStep_drawn] at hdraw
    rw [monitorStep_g, monitorStep_t] at ht
    simp only [] at hdraw ht
    unfold drawAndSelect at hdraw
    rw [if_pos (ne_of_gt ha0), if_neg hne] at hdraw
    injection hdraw with hdraw
    injection hdraw with htau hrest
    injection hrest with hr _
    have hrne : ¬ (r = -1 ∧ g1.runIdle = true) := by
      intro hcon
      have := selectFrom_ge (cfg.rand (s.drawn + 1)) (calcReactProbs g1).2.reactions 0 0
      rw [hr, hcon.1] at this
      omega
    rw [if_neg hrne, ← htau] at ht
    rw [ht]
    have : 0 < 1 / (calcReactProbs g1).1 * cfg.log (1 / cfg.rand s.drawn) :=
      lt_of_le_of_ne hnn (Ne.symm hne)
    linarith

/-- C33, at a concrete call: with `log x = x - 1` (which is `>= 0` from 1 on
and `0` only at 1), `a0 = 100` and the draw `r1 = 1/2`, the waiting time is
`>= 0`. -/
theorem waiting_time_zero_iff_draw_is_one_witness :
    (0 : ℚ) ≤ 1 / 100 * plainConfig.log (1 / plainConfig.rand 0) :=
  (waiting_time_zero_iff_draw_is_one.2.1 plainConfig [] 100 0
    (by
      intro x hx
      simp only [plainConfig]
      constructor
      · linarith
      · constructor
        · intro h; linarith
        · intro h; linarith)
    (by norm_num) (by norm_num [plainConfig]) (by norm_num [plainConfig])).1

theorem passStart_succ_cursor (cfg : RunConfig) (hpi : 0 < cfg.plotInterval) (n : Nat)
    (s0 s : RunState) (h : passStart cfg (n + 1) s0 = .ok (some s)) :
    s.t < s.plotTime := by
  induction n generalizing s0 with
  | zero =>
    simp only [passStart] at h
    by_cases ht : s0.t ≤ s0.stopTime
    · rw [if_pos ht] at h
      split at h
      · exact absurd h (by simp)
      · rename_i s1 hs1
        by_cases ht1 : s1.t ≤ s1.stopTime
        · rw [if_pos ht1] at h
          injection h with h
          injection h with h
          subst h
          obtain ⟨_, _, _, _, _, hend⟩ := runIter_samples cfg s0 s1 true hpi hs1
          by_contra hle
          exact hend ⟨not_lt.mp hle, le_trans (not_lt.mp hle) ht1⟩
        · rw [if_neg ht1] at h
          exact absurd h (by simp)
      · exact absurd h (by simp)
    · rw [if_neg ht] at h
      exact absurd h (by simp)
  | succ n ih =>
    rw [passStart] at h
    by_cases ht : s0.t ≤ s0.stopTime
    · rw [if_pos ht] at h
      split at h
      · exact absurd h (by simp)
      · rename_i s1 hs1
        exact ih s1 h
      · exact absurd h (by simp)
    · rw [if_neg ht] at h
      exact absurd h (by simp)

theorem passStart_entered (cfg : RunConfig) (n : Nat) (s0 s : RunState)
    (h : passStart cfg n s0 = .ok (some s)) : s.t ≤ s.stopTime := by
  induction n generalizing s0 with
  | zero =>
    simp only [passStart] at h
    by_cases ht : s0.t ≤ s0.stopTime
    · rw [if_pos ht] at h
      injection h with h
      injection h with h
      subst h
      exact ht
    · rw [if_neg ht] at h
      exact absurd h (by simp)
  | succ n ih =>
    rw [passStart] at h
    by_cases ht : s0.t ≤ s0.stopTime
    · rw [if_pos ht] at h
      split at h
      · exact absurd h (by simp)
      · rename_i s1 hs1
        exact ih s1 h
      · exact absurd h (by simp)
    · rw [if_neg ht] at h
      exact absurd h (by simp)

theorem plotSamples_nothing_due (pI t stopTime : ℚ) (counts : List Nat) (plotTime : ℚ)
    (hpi : 0 < pI) (h : t < plotTime) :
    plotSamples pI t stopTime counts plotTime = .ok (plotTime, []) := by
  have hc : ¬ (plotTime ≤ t ∧ plotTime ≤ stopTime) := fun hc => absurd hc.1 (not_le.mpr h)
  unfold plotSamples
  rw [if_neg (not_le.mpr hpi)]
  cases plotFuel pI t stopTime plotTime with
  | zero => simp [plotLoop, hc]
  | succ n => simp [plotLoop, hc]

/-- C34: the pass that ends the run for want of a feasible reaction prints
nothing, unless it is the first pass.  For `plotInterval > 0`, in every pass
of the loop of `run` after the first the cursor `plotTime` is beyond `t` when
the pass starts; if in such a pass `a0 = 0` and `runIdle` is off, the pass
completes, takes the `break`, leaves `t` and the cursor as they were and
prints no sample: the output of the whole run is the output as it was before
the pass, which the counts left by the reaction applied in the pass before
never reached. -/
theorem terminating_idle_pass_emits_nothing (cfg : RunConfig) (s0 s : RunState) (n : Nat)
    (g1 : Gillespie) (hpi : 0 < cfg.plotInterval)
    (hstart : passStart cfg (n + 1) s0 = .ok (some s))
    (hev : processAll s.g (Sched.processEvents s.t s.nextEvent).1 = .ok g1)
    (ha0 : (calcReactProbs g1).1 = 0) (hidle : g1.runIdle = false) :
    s.t < s.plotTime
    ∧ ∃ s' : RunState, runIter cfg s = .ok (s', false)
        ∧ s'.output = s.output ∧ s'.t = s.t ∧ s'.plotTime = s.plotTime
        ∧ s'.g.molecules = g1.molecules
        ∧ ∀ fuel : Nat, runLoop cfg (fuel + 1) s = .ok (s', true) := by
  have hcur := passStart_succ_cursor cfg hpi n s0 s hstart
  have hent := passStart_entered cfg (n + 1) s0 s hstart
  refine ⟨hcur, ?_⟩
  have hrun := runIter_idle_eq cfg s g1 hev ha0
  simp only [hidle, Bool.false_eq_true, if_false, add_zero] at hrun
  rw [plotSamples_nothing_due _ _ _ _ _ hpi hcur] at hrun
  simp only [List.append_nil] at hrun
  refine ⟨_, hrun, rfl, rfl, rfl, rfl, ?_⟩
  intro fuel
  simp only [runLoop]
  rw [if_pos hent, hrun]

/-- C34, at a concrete run: in the scenario run with `lateConfig` the second
pass starts at `t = 6` with the cursor at 100; it processes the event that
sets `A` to 0, finds `a0 = 0` and ends the run with the output as it was. -/
theorem terminating_idle_pass_emits_nothing_witness :
    scenarioAfterFirst.t < scenarioAfterFirst.plotTime
    ∧ ∃ s' : RunState, runIter lateConfig scenarioAfterFirst = .ok (s', false)
        ∧ s'.output = scenarioAfterFirst.output := by
  have h := terminating_idle_pass_emits_nothing lateConfig scenarioStart scenarioAfterFirst 0
    (Molecule.setCount scenarioAfterFirst.g 0 0) (by norm_num [lateConfig, plainConfig])
    (by
      simp only [passStart]
      rw [if_pos (by norm_num [scenarioStart, runInit]), scenario_first_pass]
      simp only []
      rw [if_pos (by norm_num [scenarioAfterFirst])])
    (by
      simp [processAll, processEvent, setMoleculeCount, Sched.processEvents,
        scenarioAfterFirst, setAZeroAtFive, abcNet, abcLoaded])
    (by
      simp [calcReactProbs, calcLoop, recalcReaction, Molecule.setCount, markDirty,
        scenarioAfterFirst, abcNet, abcLoaded, abcReaction, isPossible, getCount, List.range,
        List.range.loop, List.modify, List.modifyTailIdx, List.modifyHead])
    (by rfl)
  obtain ⟨h1, s', h2, h3, _⟩ := h
  exact ⟨h1, s', h2, h3⟩

end Gillespie

namespace Gillespie

/-! ### Reading a network -/

/-- C40: overriding a definition has no effect on the stored entry.  The two
assignment operators leave the object that is assigned to as it was; so a
`molecule` directive (or a `reaction` directive) whose id exists already, read
while overriding is allowed, completes and leaves the whole object, and with
it the entry and the length of the list, exactly as it was. -/
theorem override_leaves_entry_unchanged (g : Gillespie) (m : Molecule) (r : Reaction) :
    (∀ self other : Molecule, Molecule.assign self other = self)
    ∧ (∀ self other : Reaction, Reaction.assign self other = self)
    ∧ (moleculeIndex g.molecules m.id < g.molecules.length →
        storeMolecule g true m = .ok g)
    ∧ (reactionIndex g.reactions r.id < g.reactions.length →
        storeReaction g true r = .ok g) := by
  refine ⟨fun _ _ => rfl, fun _ _ => rfl, ?_, ?_⟩
  · intro h
    unfold storeMolecule
    rw [if_pos h]
    have : g.molecules.modify (fun x => Molecule.assign x m)
        (moleculeIndex g.molecules m.id) = g.molecules := List.modify_id _ _
    simp only [this, if_true]
  · intro h
    unfold storeReaction
    rw [if_pos h]
    have : g.reactions.modify (fun x => Reaction.assign x r)
        (reactionIndex g.reactions r.id) = g.reactions := List.modify_id _ _
    simp only [this, if_true]

/-- C40, at a concrete network: the directive for a molecule `a` with count 99
read over `abcNet`, where `A` has count 10, leaves `abcNet` as it is. -/
theorem override_leaves_entry_unchanged_witness :
    moleculeIndex abcNet.molecules "a" < abcNet.molecules.length
    ∧ storeMolecule abcNet true ⟨"a", "other", [], 99⟩ = .ok abcNet :=
  ⟨by decide,
   (override_leaves_entry_unchanged abcNet ⟨"a", "other", [], 99⟩ abcReaction).2.2.1
     (by decide)⟩

theorem digitChar_val (d : Nat) (hd : d < 10) : (Nat.digitChar d).toNat - 48 = d := by
  interval_cases d <;> rfl

theorem digitChar_lower (d : Nat) (hd : d < 10) :
    (Nat.digitChar d).toLower = Nat.digitChar d := by
  interval_cases d <;> rfl

theorem toDigitsCore_val (fuel n : Nat) (ds : List Char) (h : n < fuel) :
    (Nat.toDigitsCore 10 fuel n ds).foldl (fun v c => 10 * v + (c.toNat - 48)) 0
      = ds.foldl (fun v c => 10 * v + (c.toNat - 48)) n := by
  induction fuel generalizing n ds with
  | zero => omega
  | succ fuel ih =>
    simp only [Nat.toDigitsCore]
    have hmod : n % 10 < 10 := Nat.mod_lt _ (by norm_num)
    by_cases h0 : n / 10 = 0
    · rw [if_pos h0]
      simp only [List.foldl_cons, digitChar_val _ hmod]
      have : n % 10 = n := by omega
      rw [this]
      simp
    · rw [if_neg h0]
      rw [ih (n / 10) _ (by omega)]
      simp only [List.foldl_cons, digitChar_val _ hmod]
      have : 10 * (n / 10) + n % 10 = n := Nat.div_add_mod n 10
      rw [this]

theorem to_string_val (n : Nat) :
    (to_string n).foldl (fun v c => 10 * v + (c.toNat - 48)) 0 = n := by
  unfold to_string Nat.toDigits
  rw [toDigitsCore_val _ _ _ (by omega)]
  rfl

theorem to_string_injective (a b : Nat) (h : to_string a = to_string b) : a = b := by
  have := congrArg (fun l => l.foldl (fun v c => 10 * v + (c.toNat - 48)) 0) h
  simpa [to_string_val] using this

theorem toDigitsCore_lower (fuel n : Nat) (ds : List Char)
    (h : ∀ c ∈ ds, c.toLower = c) :
    ∀ c ∈ Nat.toDigitsCore 10 fuel n ds, c.toLower = c := by
  induction fuel generalizing n ds with
  | zero => simpa [Nat.toDigitsCore] using h
  | succ fuel ih =>
    have hmod : n % 10 < 10 := Nat.mod_lt _ (by norm_num)
    have hds : ∀ c ∈ Nat.digitChar (n % 10) :: ds, c.toLower = c := by
      intro c hc
      rcases List.mem_cons.mp hc with rfl | hc
      · exact digitChar_lower _ hmod
      · exact h c hc
    simp only [Nat.toDigitsCore]
    split_ifs
    · exact hds
    · exact ih _ _ hds

theorem to_string_lower (n : Nat) : (to_string n).map Char.toLower = to_string n := by
  have h : ∀ c ∈ to_string n, c.toLower = c :=
    toDigitsCore_lower _ _ _ (by simp)
  calc (to_string n).map Char.toLower = (to_string n).map id :=
        List.map_congr_left (fun c hc => h c hc)
    _ = to_string n := List.map_id _

theorem newId_toList (id : String) (n : Nat) :
    (newId id n).toList
      = id.toList.takeWhile (fun c => c ≠ '*') ++ to_string n
        ++ (id.toList.dropWhile (fun c => c ≠ '*')).tail := rfl

theorem newId_ci_injective (id : String) (a b : Nat)
    (h : (newId id a).toList.map Char.toLower = (newId id b).toList.map Char.toLower) :
    a = b := by
  rw [newId_toList, newId_toList] at h
  simp only [List.map_append, List.append_assoc, List.append_cancel_left_eq,
    List.append_cancel_right_eq] at h
  rw [to_string_lower, to_string_lower] at h
  exact to_string_injective a b h

theorem indexLoop_lt_iff (id : String) (ids : List String) (i0 : Nat)
    (h : i0 + ids.length ≤ UINT_RANGE - 1) :
    indexLoop id ids i0 < i0 + ids.length ↔ ∃ x ∈ ids, strCiEq id x = true := by
  induction ids generalizing i0 with
  | nil => simp [indexLoop]; omega
  | cons x rest ih =>
    simp only [List.length_cons] at h
    simp only [indexLoop, List.length_cons]
    by_cases hx : strCiEq id x = true
    · rw [if_pos hx]
      constructor
      · intro _
        exact ⟨x, List.mem_cons_self _ _, hx⟩
      · intro _
        omega
    · rw [if_neg hx]
      have := ih (i0 + 1) (by omega)
      have e : i0 + (rest.length + 1) = i0 + 1 + rest.length := by omega
      rw [e, this]
      constructor
      · rintro ⟨y, hy, hyx⟩
        exact ⟨y, List.mem_cons_of_mem _ hy, hyx⟩
      · rintro ⟨y, hy, hyx⟩
        rcases List.mem_cons.mp hy with rfl | hy
        · exact absurd hyx hx
        · exact ⟨y, hy, hyx⟩

theorem reactionIndex_lt_iff (rs : List Reaction) (id : String)
    (h : rs.length < UINT_RANGE) :
    reactionIndex rs id < rs.length ↔ ∃ r ∈ rs, strCiEq id r.id = true := by
  have := indexLoop_lt_iff id (rs.map (fun x => x.id)) 0 (by simp; omega)
  simp only [List.length_map, zero_add] at this
  unfold reactionIndex
  rw [this]
  simp

theorem exists_free_id (rs : List Reaction) (id : String) (c0 : Nat)
    (hlen : rs.length < UINT_RANGE) :
    ∃ k : Nat, c0 ≤ k ∧ k ≤ c0 + rs.length
      ∧ ¬ reactionIndex rs (newId id k) < rs.length := by
  by_contra hcon
  push_neg at hcon
  have hmaps : ∀ i ∈ Finset.range (rs.length + 1),
      (newId id (c0 + i)).toList.map Char.toLower
        ∈ (rs.map (fun r => r.id.toList.map Char.toLower)).toFinset := by
    intro i hi
    have hi' : i < rs.length + 1 := Finset.mem_range.mp hi
    have htaken := hcon (c0 + i) (by omega) (by omega)
    obtain ⟨r, hr, hci⟩ := (reactionIndex_lt_iff rs _ hlen).mp htaken
    rw [List.mem_toFinset, List.mem_map]
    refine ⟨r, hr, ?_⟩
    unfold strCiEq at hci
    exact (of_decide_eq_true hci).symm
  have hcard : (rs.map (fun r => r.id.toList.map Char.toLower)).toFinset.card
      < (Finset.range (rs.length + 1)).card := by
    have := List.toFinset_card_le (rs.map (fun r => r.id.toList.map Char.toLower))
    simp only [List.length_map] at this
    rw [Finset.card_range]
    omega
  obtain ⟨x, _, y, _, hxy, hf⟩ :=
    Finset.exists_ne_map_eq_of_card_lt_of_maps_to hcard hmaps
  have := newId_ci_injective id _ _ hf
  omega

theorem expandLoop_spec (rs : List Reaction) (id : String) (d : Nat) :
    ∀ (n fuel : Nat), d < fuel → n + d < UINT_RANGE →
      ¬ reactionIndex rs (newId id (n + d)) < rs.length →
      (∀ k : Nat, n ≤ k → k < n + d → reactionIndex rs (newId id k) < rs.length) →
      expandLoop rs id fuel n = some (n + d) := by
  induction d with
  | zero =>
    intro n fuel hf _ hfree _
    cases fuel with
    | zero => omega
    | succ fuel =>
      simp only [Nat.add_zero] at hfree ⊢
      simp only [expandLoop]
      rw [if_neg hfree]
  | succ d ih =>
    intro n fuel hf hlt hfree htaken
    cases fuel with
    | zero => omega
    | succ fuel =>
      simp only [expandLoop]
      rw [if_pos (htaken n (le_refl _) (by omega)), Nat.mod_eq_of_lt (by omega)]
      have e : n + (d + 1) = n + 1 + d := by omega
      rw [e] at hfree hlt ⊢
      exact ih (n + 1) fuel (by omega) hlt hfree
        (fun k hk1 hk2 => htaken k (by omega) (by omega))

theorem expandReactionWildcard_spec (rs : List Reaction) (rn : String → Option Nat)
    (id : String) (hstar : '*' ∈ id.toList)
    (hno : (rn id).getD 0 + rs.length + 1 < UINT_RANGE) :
    ∃ n : Nat,
      expandReactionWildcard rs rn id
        = .ok (newId id n, fun key => if key = id then some (n + 1) else rn key)
      ∧ (rn id).getD 0 ≤ n ∧ n ≤ (rn id).getD 0 + rs.length
      ∧ (∀ r ∈ rs, strCiEq (newId id n) r.id = false)
      ∧ (∀ k : Nat, (rn id).getD 0 ≤ k → k < n →
          ∃ r ∈ rs, strCiEq (newId id k) r.id = true) := by
  have hlen : rs.length < UINT_RANGE := by omega
  have hex : ∃ k : Nat, (rn id).getD 0 ≤ k ∧ ¬ reactionIndex rs (newId id k) < rs.length := by
    obtain ⟨k, hk1, _, hk3⟩ := exists_free_id rs id ((rn id).getD 0) hlen
    exact ⟨k, hk1, hk3⟩
  have hn := Nat.find_spec hex
  have hmin : ∀ k : Nat, (rn id).getD 0 ≤ k → k < Nat.find hex →
      reactionIndex rs (newId id k) < rs.length := by
    intro k hk1 hk2
    by_contra hfree
    exact Nat.find_min hex hk2 ⟨hk1, hfree⟩
  have hle : Nat.find hex ≤ (rn id).getD 0 + rs.length := by
    obtain ⟨k, hk1, hk2, hk3⟩ := exists_free_id rs id ((rn id).getD 0) hlen
    exact le_trans (Nat.find_min' hex ⟨hk1, hk3⟩) hk2
  obtain ⟨d, hd⟩ : ∃ d : Nat, Nat.find hex = (rn id).getD 0 + d :=
    ⟨Nat.find hex - (rn id).getD 0, by omega⟩
  have hloop : expandLoop rs id UINT_RANGE ((rn id).getD 0) = some (Nat.find hex) := by
    rw [hd]
    apply expandLoop_spec rs id d _ _ (by omega) (by omega)
    · rw [← hd]; exact hn.2
    · intro k hk1 hk2
      exact hmin k hk1 (by omega)
  refine ⟨Nat.find hex, ?_, hn.1, hle, ?_, ?_⟩
  · unfold expandReactionWildcard
    rw [if_pos hstar, hloop]
    simp only [Nat.mod_eq_of_lt (show Nat.find hex + 1 < UINT_RANGE by omega)]
  · intro r hr
    by_contra hne
    have htrue : strCiEq (newId id (Nat.find hex)) r.id = true := by
      simpa using hne
    exact hn.2 ((reactionIndex_lt_iff rs _ hlen).mpr ⟨r, hr, htrue⟩)
  · intro k hk1 hk2
    exact (reactionIndex_lt_iff rs _ hlen).mp (hmin k hk1 hk2)

/-- C35: `expandReactionWildcard` ends and gives a fresh id.  An id without
`*` is returned as it is, and the map of counters is left alone.  For an id
with a `*`, whose counter `c` (0 when the pattern is new) satisfies
`c + reactions.size() + 1 < 2 ^ 32`, the call returns: the new id is the id with
its first `*` replaced by the decimal digits of `n`, where `n` is the least
value `>= c` for which no reaction has that id up to case; `n` is at most
`c + reactions.size()`; the counter of the pattern becomes `n + 1` and no other
counter changes.  A following expansion of the same pattern, whatever the
reactions are then, gives an id that differs from the first one, also up to
case. -/
theorem expandReactionWildcard_fresh_id (rs : List Reaction) (rn : String → Option Nat)
    (id : String) :
    ('*' ∉ id.toList → expandReactionWildcard rs rn id = .ok (id, rn))
    ∧ ('*' ∈ id.toList → (rn id).getD 0 + rs.length + 1 < UINT_RANGE →
        ∃ n : Nat,
          expandReactionWildcard rs rn id
            = .ok (newId id n, fun key => if key = id then some (n + 1) else rn key)
          ∧ (newId id n).toList
              = id.toList.takeWhile (fun c => c ≠ '*') ++ to_string n
                ++ (id.toList.dropWhile (fun c => c ≠ '*')).tail
          ∧ (to_string n).foldl (fun v c => 10 * v + (c.toNat - 48)) 0 = n
          ∧ (rn id).getD 0 ≤ n ∧ n ≤ (rn id).getD 0 + rs.length
          ∧ (∀ r ∈ rs, strCiEq (newId id n) r.id = false)
          ∧ (∀ k : Nat, (rn id).getD 0 ≤ k → k < n →
              ∃ r ∈ rs, strCiEq (newId id k) r.id = true)
          ∧ (∀ (rs2 : List Reaction) (res : String × (String → Option Nat)),
              n + 1 + rs2.length + 1 < UINT_RANGE →
              expandReactionWildcard rs2
                (fun key => if key = id then some (n + 1) else rn key) id = .ok res →
              strCiEq res.1 (newId id n) = false)) := by
  refine ⟨?_, ?_⟩
  · intro h
    unfold expandReactionWildcard
    rw [if_neg h]
  · intro hstar hno
    obtain ⟨n, h1, h2, h3, h4, h5⟩ := expandReactionWildcard_spec rs rn id hstar hno
    refine ⟨n, h1, rfl, to_string_val n, h2, h3, h4, h5, ?_⟩
    intro rs2 res hno2 hres
    obtain ⟨n2, g1, g2, _, _, _⟩ :=
      expandReactionWildcard_spec rs2 (fun key => if key = id then some (n + 1) else rn key) id
        hstar (by simpa using hno2)
    rw [g1] at hres
    injection hres with hres
    rw [← hres]
    simp only [if_true, Option.getD_some] at g2
    by_contra hne
    have htrue : strCiEq (newId id n2) (newId id n) = true := by simpa using hne
    unfold strCiEq at htrue
    have := newId_ci_injective id _ _ (of_decide_eq_true htrue)
    omega

/-- C35, at a concrete call: with the reactions `r0` and `R1` and a new
pattern `r*` the new id is `r2` and the counter of the pattern becomes 3. -/
theorem expandReactionWildcard_fresh_id_witness :
    ∃ n : Nat,
      expandReactionWildcard [freshReaction "r0" "" 1, freshReaction "R1" "" 1]
          (fun _ => none) "r*"
        = .ok (newId "r*" n, fun key => if key = "r*" then some (n + 1) else none)
      ∧ (0 : Nat) ≤ n ∧ n ≤ 0 + 2 := by
  obtain ⟨n, h1, _, _, h2, h3, _⟩ :=
    (expandReactionWildcard_fresh_id [freshReaction "r0" "" 1, freshReaction "R1" "" 1]
      (fun _ => none) "r*").2 (by decide) (by decide)
  exact ⟨n, h1, h2, h3⟩

end Gillespie

namespace Gillespie

/-! ### The formula parser -/

theorem parseMolecule_ok (ms : List Molecule) (st st1 : ParseState) (token : String)
    (h : parseMolecule ms st token = .ok st1) :
    moleculeIndex ms token < ms.length
    ∧ st1.side = st.side ∧ st1.expect = .OPERATOR ∧ st1.count = st.count
    ∧ st1.left = (if st.side = .LEFT then st.left.set (moleculeIndex ms token) st.count
        else st.left)
    ∧ st1.right = (if st.side = .RIGHT then st.right.set (moleculeIndex ms token) st.count
        else st.right) := by
  unfold parseMolecule at h
  by_cases hm : moleculeIndex ms token < ms.length
  · rw [if_pos hm] at h
    cases hs : st.side with
    | LEFT =>
      simp only [hs] at h
      injection h with h
      subst h
      simp [hm, hs]
    | RIGHT =>
      simp only [hs] at h
      injection h with h
      subst h
      simp [hm, hs]
  · rw [if_neg hm] at h
    exact absurd h (by simp)

theorem parseToken_error (ms : List Molecule) (st : ParseState) (token : String) (e : Fault)
    (h : parseToken ms st token = .error e) : e = .fail := by
  unfold parseToken at h
  have hmol : ∀ st0 : ParseState, parseMolecule ms st0 token = .error e → e = .fail := by
    intro st0 h0
    unfold parseMolecule at h0
    split_ifs at h0
    · split at h0 <;> exact absurd h0 (by simp)
    · injection h0 with h0
      exact h0.symm
  split at h
  · split_ifs at h
    exact hmol _ h
  · exact hmol _ h
  · split_ifs at h
    injection h with h
    exact h.symm

theorem parseLoop_error (ms : List Molecule) (st : ParseState) (tokens : List String)
    (e : Fault) (h : parseLoop ms st tokens = .error e) : e = .fail := by
  induction tokens generalizing st with
  | nil => simp [parseLoop] at h
  | cons token rest ih =>
    simp only [parseLoop] at h
    split at h
    · exact ih _ h
    · rename_i e' he'
      injection h with h
      rw [← h]
      exact parseToken_error ms st token e' he'

theorem parseFormula_error (g : Gillespie) (r : Reaction) (tokens : List String) (e : Fault)
    (h : parseFormula g r tokens = .error e) : e = .fail := by
  unfold parseFormula at h
  split at h
  · rename_i e' he'
    injection h with h
    rw [← h]
    exact parseLoop_error _ _ _ _ he'
  · split_ifs at h
    injection h with h
    exact h.symm

/-- The first term of what the loop reads in state `COUNT`, when the loop goes
on to end in state `OPERATOR`. -/
theorem parseLoop_term (ms : List Molecule) (st st' : ParseState) (tokens : List String)
    (hexp : st.expect = .COUNT) (h : parseLoop ms st tokens = .ok st')
    (hend : st'.expect = .OPERATOR) :
    ∃ (t : Term) (rest : List String) (st1 : ParseState),
      Term.Valid ms t ∧ tokens = t.tokens ++ rest ∧ parseLoop ms st1 rest = .ok st'
      ∧ st1.side = st.side ∧ st1.expect = .OPERATOR
      ∧ st1.left = (if st.side = .LEFT then Term.assign ms st.left t else st.left)
      ∧ st1.right = (if st.side = .RIGHT then Term.assign ms st.right t else st.right) := by
  cases tokens with
  | nil =>
    simp only [parseLoop] at h
    injection h with h
    subst h
    rw [hexp] at hend
    exact absurd hend (by simp)
  | cons tok rest0 =>
    simp only [parseLoop] at h
    split at h
    · rename_i s1 hs1
      unfold parseToken at hs1
      simp only [hexp] at hs1
      by_cases hdig : isDigitsOnly tok = true
      · rw [if_pos hdig] at hs1
        injection hs1 with hs1
        by_cases hc : strtoul tok % UINT_RANGE = 0
        · refine ⟨.nothing tok, rest0, s1, ⟨hdig, hc⟩, rfl, h, ?_, ?_, ?_, ?_⟩
          · rw [← hs1]
          · rw [← hs1]; simp [hc]
          · rw [← hs1]; simp [Term.assign, Term.index]
          · rw [← hs1]; simp [Term.assign, Term.index]
        · cases rest0 with
          | nil =>
            simp only [parseLoop] at h
            injection h with h
            rw [← h, ← hs1] at hend
            simp [hc] at hend
          | cons tok2 rest =>
            simp only [parseLoop] at h
            split at h
            · rename_i s2 hs2
              have hs1e : s1.expect = .MOLECULE := by rw [← hs1]; simp [hc]
              unfold parseToken at hs2
              simp only [hs1e] at hs2
              obtain ⟨hm, g1, g2, g3, g4, g5⟩ := parseMolecule_ok ms s1 s2 tok2 hs2
              have hs1s : s1.side = st.side := by rw [← hs1]
              have hs1c : s1.count = strtoul tok % UINT_RANGE := by rw [← hs1]
              have hs1l : s1.left = st.left := by rw [← hs1]
              have hs1r : s1.right = st.right := by rw [← hs1]
              refine ⟨.counted tok tok2, rest, s2, ⟨hdig, hc, hm⟩, rfl, h, ?_, g2, ?_, ?_⟩
              · rw [g1, hs1s]
              · rw [g4, hs1s, hs1c, hs1l]
                simp [Term.assign, Term.index, Term.count]
              · rw [g5, hs1s, hs1c, hs1r]
                simp [Term.assign, Term.index, Term.count]
            · exact absurd h (by simp)
      · rw [if_neg hdig] at hs1
        obtain ⟨hm, g1, g2, g3, g4, g5⟩ := parseMolecule_ok ms _ s1 tok hs1
        refine ⟨.plain tok, rest0, s1, ⟨by simpa using hdig, hm⟩, rfl, h, g1, g2, ?_, ?_⟩
        · rw [g4]
          simp [Term.assign, Term.index, Term.count]
        · rw [g5]
          simp [Term.assign, Term.index, Term.count]
    · exact absurd h (by simp)

theorem Term.tokens_length_pos (t : Term) : 0 < t.tokens.length := by
  cases t <;> simp [Term.tokens]

/-- What the loop has read when it starts on the right side in state `COUNT`
and ends in state `OPERATOR`. -/
theorem parseLoop_right (ms : List Molecule) (n : Nat) :
    ∀ (tokens : List String), tokens.length ≤ n →
    ∀ (st st' : ParseState), st.side = .RIGHT → st.expect = .COUNT →
      parseLoop ms st tokens = .ok st' → st'.expect = .OPERATOR →
      ∃ R : List Term, R ≠ [] ∧ (∀ t ∈ R, Term.Valid ms t) ∧ tokens = sideTokens R
        ∧ st'.side = .RIGHT ∧ st'.left = st.left
        ∧ st'.right = R.foldl (Term.assign ms) st.right := by
  induction n with
  | zero =>
    intro tokens hlen st st' _ hexp h hend
    have : tokens = [] := List.length_eq_zero.mp (Nat.le_zero.mp hlen)
    subst this
    simp only [parseLoop] at h
    injection h with h
    subst h
    rw [hexp] at hend
    exact absurd hend (by simp)
  | succ n ih =>
    intro tokens hlen st st' hside hexp h hend
    obtain ⟨t, rest, st1, hv, htok, h1, g1, g2, g3, g4⟩ :=
      parseLoop_term ms st st' tokens hexp h hend
    rw [hside] at g1 g3 g4
    simp only [if_true, if_false, reduceCtorEq] at g3 g4
    have hpos := Term.tokens_length_pos t
    cases rest with
    | nil =>
      simp only [parseLoop] at h1
      injection h1 with h1
      subst h1
      refine ⟨[t], by simp, ?_, ?_, g1, g3, ?_⟩
      · intro u hu
        rw [List.mem_singleton.mp hu]
        exact hv
      · simpa [sideTokens] using htok
      · simpa using g4
    | cons op rest' =>
      simp only [parseLoop] at h1
      split at h1
      · rename_i s2 hs2
        unfold parseToken at hs2
        simp only [g2, g1, reduceCtorEq, false_and, if_false] at hs2
        by_cases hop : op = "+"
        · rw [if_pos hop] at hs2
          injection hs2 with hs2
          have hlen' : rest'.length ≤ n := by
            rw [htok] at hlen
            simp only [List.length_append, List.length_cons] at hlen
            omega
          obtain ⟨R, hne, hval, hR, k1, k2, k3⟩ :=
            ih rest' hlen' s2 st' (by rw [← hs2]) (by rw [← hs2]) h1 hend
          have hs2l : s2.left = st1.left := by rw [← hs2]
          have hs2r : s2.right = st1.right := by rw [← hs2]
          refine ⟨t :: R, by simp, ?_, ?_, k1, ?_, ?_⟩
          · intro u hu
            rcases List.mem_cons.mp hu with rfl | hu
            · exact hv
            · exact hval u hu
          · cases R with
            | nil => exact absurd rfl hne
            | cons u ts =>
              rw [htok, hop, hR]
              simp [sideTokens]
          · rw [k2, hs2l, g3]
          · rw [k3, hs2r, g4]
            rfl
        · rw [if_neg hop] at hs2
          exact absurd hs2 (by simp)
      · exact absurd h1 (by simp)

/-- What the loop has read when it starts on the left side in state `COUNT`
and ends on the right side in state `OPERATOR`. -/
theorem parseLoop_left (ms : List Molecule) (n : Nat) :
    ∀ (tokens : List String), tokens.length ≤ n →
    ∀ (st st' : ParseState), st.side = .LEFT → st.expect = .COUNT →
      parseLoop ms st tokens = .ok st' → st'.side = .RIGHT → st'.expect = .OPERATOR →
      ∃ L R : List Term, L ≠ [] ∧ R ≠ [] ∧ (∀ t ∈ L, Term.Valid ms t)
        ∧ (∀ t ∈ R, Term.Valid ms t)
        ∧ tokens = sideTokens L ++ "--->" :: sideTokens R
        ∧ st'.left = L.foldl (Term.assign ms) st.left
        ∧ st'.right = R.foldl (Term.assign ms) st.right := by
  induction n with
  | zero =>
    intro tokens hlen st st' _ hexp h _ hend
    have : tokens = [] := List.length_eq_zero.mp (Nat.le_zero.mp hlen)
    subst this
    simp only [parseLoop] at h
    injection h with h
    subst h
    rw [hexp] at hend
    exact absurd hend (by simp)
  | succ n ih =>
    intro tokens hlen st st' hside hexp h hsend hend
    obtain ⟨t, rest, st1, hv, htok, h1, g1, g2, g3, g4⟩ :=
      parseLoop_term ms st st' tokens hexp h hend
    rw [hside] at g1 g3 g4
    simp only [if_true, if_false, reduceCtorEq] at g3 g4
    have hpos := Term.tokens_length_pos t
    cases rest with
    | nil =>
      simp only [parseLoop] at h1
      injection h1 with h1
      subst h1
      rw [g1] at hsend
      exact absurd hsend (by simp)
    | cons op rest' =>
      have hlen' : rest'.length ≤ n := by
        rw [htok] at hlen
        simp only [List.length_append, List.length_cons] at hlen
        omega
      simp only [parseLoop] at h1
      split at h1
      · rename_i s2 hs2
        unfold parseToken at hs2
        simp only [g2, g1, true_and] at hs2
        by_cases harrow : op = "--->"
        · rw [if_pos harrow] at hs2
          injection hs2 with hs2
          have hs2l : s2.left = st1.left := by rw [← hs2]
          have hs2r : s2.right = st1.right := by rw [← hs2]
          obtain ⟨R, hne, hval, hR, _, k2, k3⟩ :=
            parseLoop_right ms n rest' hlen' s2 st' (by rw [← hs2]) (by rw [← hs2]) h1 hend
          refine ⟨[t], R, by simp, hne, ?_, hval, ?_, ?_, ?_⟩
          · intro u hu
            rw [List.mem_singleton.mp hu]
            exact hv
          · rw [htok, harrow, hR]
            simp [sideTokens]
          · rw [k2, hs2l, g3]
            rfl
          · rw [k3, hs2r, g4]
        · rw [if_neg harrow] at hs2
          by_cases hop : op = "+"
          · rw [if_pos hop] at hs2
            injection hs2 with hs2
            have hs2l : s2.left = st1.left := by rw [← hs2]
            have hs2r : s2.right = st1.right := by rw [← hs2]
            obtain ⟨L, R, hneL, hneR, hvalL, hvalR, hLR, k2, k3⟩ :=
              ih rest' hlen' s2 st' (by rw [← hs2]) (by rw [← hs2]) h1 hsend hend
            refine ⟨t :: L, R, by simp, hneR, ?_, hvalR, ?_, ?_, ?_⟩
            · intro u hu
              rcases List.mem_cons.mp hu with rfl | hu
              · exact hv
              · exact hvalL u hu
            · cases L with
              | nil => exact absurd rfl hneL
              | cons u ts =>
                rw [htok, hop, hLR]
                simp [sideTokens]
            · rw [k2, hs2l, g3]
              rfl
            · rw [k3, hs2r, g4]
          · rw [if_neg hop] at hs2
            exact absurd hs2 (by simp)
      · exact absurd h1 (by simp)

theorem assign_length (ms : List Molecule) (terms : List Term) (v : List Nat) :
    (terms.foldl (Term.assign ms) v).length = v.length := by
  induction terms generalizing v with
  | nil => rfl
  | cons t ts ih =>
    rw [List.foldl_cons, ih]
    unfold Term.assign
    split <;> simp

/-- A formula that `parseFormula` accepts is two sides of well-formed terms
with `--->` between them, and the vectors are what the terms assign, one
after the other, to vectors of zeros. -/
theorem parseFormula_shape (g : Gillespie) (r r' : Reaction) (tokens : List String)
    (h : parseFormula g r tokens = .ok r') :
    ∃ L R : List Term, L ≠ [] ∧ R ≠ [] ∧ (∀ t ∈ L, Term.Valid g.molecules t)
      ∧ (∀ t ∈ R, Term.Valid g.molecules t)
      ∧ tokens = sideTokens L ++ "--->" :: sideTokens R
      ∧ r'.left = L.foldl (Term.assign g.molecules) (List.replicate g.molecules.length 0)
      ∧ r'.right = R.foldl (Term.assign g.molecules) (List.replicate g.molecules.length 0) := by
  unfold parseFormula at h
  split at h
  · exact absurd h (by simp)
  · rename_i st hst
    by_cases hfin : st.side ≠ .RIGHT ∨ st.expect ≠ .OPERATOR
    · rw [if_pos hfin] at h
      exact absurd h (by simp)
    · rw [if_neg hfin] at h
      push_neg at hfin
      injection h with h
      obtain ⟨L, R, h1, h2, h3, h4, h5, h6, h7⟩ :=
        parseLoop_left g.molecules tokens.length tokens (le_refl _) _ st rfl rfl hst
          hfin.1 hfin.2
      refine ⟨L, R, h1, h2, h3, h4, h5, ?_, ?_⟩
      · rw [← h]
        exact h6
      · rw [← h]
        exact h7

theorem assign_last (ms : List Molecule) (terms : List Term) (v : List Nat) (m : Nat)
    (hm : m < v.length) :
    (terms.foldl (Term.assign ms) v).getD m 0
      = ((lastOccurrence ms terms m).map Term.count).getD (v.getD m 0) := by
  induction terms using List.reverseRecOn with
  | nil => simp [lastOccurrence]
  | append_singleton ts t ih =>
    rw [List.foldl_append, List.foldl_cons, List.foldl_nil]
    have hlen : m < (ts.foldl (Term.assign ms) v).length := by
      rw [assign_length]; exact hm
    unfold lastOccurrence at ih ⊢
    rw [List.filter_append]
    by_cases hidx : Term.index ms t = some m
    · have hf : [t].filter (fun t => decide (Term.index ms t = some m)) = [t] := by
        simp [hidx]
      rw [hf, List.getLast?_append_of_ne_nil _ (by simp)]
      simp only [List.getLast?_singleton, Option.map_some', Option.getD_some]
      have ha : Term.assign ms (ts.foldl (Term.assign ms) v) t
          = (ts.foldl (Term.assign ms) v).set m t.count := by
        rw [Term.assign, hidx]
      rw [ha, List.getD_eq_getElem?_getD, List.getElem?_set_self hlen]
      rfl
    · have hf : [t].filter (fun t => decide (Term.index ms t = some m)) = [] := by
        simp [hidx]
      rw [hf, List.append_nil, ← ih]
      unfold Term.assign
      cases hi : Term.index ms t with
      | none => rfl
      | some i =>
        simp only []
        have hne : i ≠ m := by
          intro hcon
          rw [hi, hcon] at hidx
          exact hidx rfl
        rw [List.getD_eq_getElem?_getD, List.getD_eq_getElem?_getD,
          List.getElem?_set_ne hne]

/-- C38: `parseFormula` overwrites rather than accumulates.  When it succeeds,
`left` and `right` have one entry per molecule; the tokens are two sides of
well-formed terms separated by `+`, with `--->` between the sides; and the
entry of every molecule in `left` (in `right`) is the count of the last term
of the left (right) side that names the molecule, which is 1 when that term
has no count written, and 0 when no term of the side names it.  So the tokens
of `A + A ---> B` give `left[A] = 1`, and those of `2 A ---> B` give
`left[A] = 2`. -/
theorem parseFormula_overwrites (g : Gillespie) (r r' : Reaction) (tokens : List String)
    (h : parseFormula g r tokens = .ok r') :
    r'.left.length = g.molecules.length ∧ r'.right.length = g.molecules.length
    ∧ (∃ L R : List Term, (∀ t ∈ L, Term.Valid g.molecules t)
        ∧ (∀ t ∈ R, Term.Valid g.molecules t)
        ∧ tokens = sideTokens L ++ "--->" :: sideTokens R
        ∧ ∀ m : Nat, m < g.molecules.length →
            r'.left.getD m 0 = ((lastOccurrence g.molecules L m).map Term.count).getD 0
            ∧ r'.right.getD m 0
                = ((lastOccurrence g.molecules R m).map Term.count).getD 0)
    ∧ (parseFormula abNet (freshReaction "r" "A + A ---> B" 1)
          ["A", "+", "A", "--->", "B"]).map (fun x => (x.left, x.right))
        = .ok ([1, 0], [0, 1])
    ∧ (parseFormula abNet (freshReaction "r" "2 A ---> B" 1)
          ["2", "A", "--->", "B"]).map (fun x => (x.left, x.right))
        = .ok ([2, 0], [0, 1]) := by
  obtain ⟨L, R, _, _, hL, hR, htok, hl, hr⟩ := parseFormula_shape g r r' tokens h
  refine ⟨?_, ?_, ⟨L, R, hL, hR, htok, ?_⟩, by rfl, by rfl⟩
  · rw [hl, assign_length, List.length_replicate]
  · rw [hr, assign_length, List.length_replicate]
  · intro m hm
    have hz : (List.replicate g.molecules.length 0).getD m 0 = 0 := by
      rw [List.getD_eq_getElem?_getD]
      simp [List.getElem?_replicate, hm]
    rw [hl, hr, assign_last _ _ _ _ (by simpa using hm),
      assign_last _ _ _ _ (by simpa using hm), hz]
    exact ⟨rfl, rfl⟩

/-- C38, at a concrete formula: for the tokens of `A + A ---> B` over the
molecules `A` and `B`, `parseFormula` succeeds with `left = [1, 0]`. -/
theorem parseFormula_overwrites_witness :
    ∃ r' : Reaction,
      parseFormula abNet (freshReaction "r" "A + A ---> B" 1) ["A", "+", "A", "--->", "B"]
        = .ok r'
      ∧ r'.left.length = abNet.molecules.length := by
  cases hres : parseFormula abNet (freshReaction "r" "A + A ---> B" 1)
      ["A", "+", "A", "--->", "B"] with
  | error e =>
    have hfact : (parseFormula abNet (freshReaction "r" "A + A ---> B" 1)
        ["A", "+", "A", "--->", "B"]).map (fun x => (x.left, x.right))
        = .ok ([1, 0], [0, 1]) := by rfl
    rw [hres] at hfact
    exact absurd hfact (by simp [Except.map])
  | ok r' =>
    exact ⟨r', rfl, (parseFormula_overwrites abNet _ r' _ hres).1⟩

theorem sideTokens_mem (terms : List Term) (tok : String) (h : tok ∈ sideTokens terms) :
    tok = "+" ∨ ∃ t ∈ terms, tok ∈ t.tokens := by
  induction terms with
  | nil => simp [sideTokens] at h
  | cons t ts ih =>
    cases ts with
    | nil =>
      right
      exact ⟨t, by simp, by simpa [sideTokens] using h⟩
    | cons u us =>
      simp only [sideTokens, List.mem_append, List.mem_cons] at h
      rcases h with h | h | h
      · right
        exact ⟨t, by simp, h⟩
      · left
        exact h
      · rcases ih h with h' | ⟨x, hx, hx'⟩
        · left; exact h'
        · right
          exact ⟨x, List.mem_cons_of_mem _ hx, hx'⟩

theorem term_token_kind (ms : List Molecule) (t : Term) (hv : Term.Valid ms t)
    (tok : String) (h : tok ∈ t.tokens) :
    isDigitsOnly tok = true ∨ moleculeIndex ms tok < ms.length := by
  cases t with
  | nothing z =>
    simp only [Term.tokens, List.mem_singleton] at h
    left
    rw [h]
    exact hv.1
  | plain m =>
    simp only [Term.tokens, List.mem_singleton] at h
    right
    rw [h]
    exact hv.2
  | counted c m =>
    simp only [Term.tokens, List.mem_cons, List.mem_singleton, List.not_mem_nil,
      or_false] at h
    rcases h with h | h
    · left
      rw [h]
      exact hv.1
    · right
      rw [h]
      exact hv.2.2

theorem arrow_not_in_side (ms : List Molecule) (terms : List Term)
    (hv : ∀ t ∈ terms, Term.Valid ms t) (hno : ¬ moleculeIndex ms "--->" < ms.length) :
    "--->" ∉ sideTokens terms := by
  intro h
  rcases sideTokens_mem terms _ h with h | ⟨t, ht, htok⟩
  · exact absurd h (by decide)
  · rcases term_token_kind ms t (hv t ht) _ htok with h | h
    · exact absurd h (by decide)
    · exact hno h

theorem getLast?_cons_ne (a : String) (l : List String) (h : l ≠ []) :
    (a :: l).getLast? = l.getLast? := by
  cases l with
  | nil => exact absurd rfl h
  | cons b l => exact List.getLast?_cons_cons

theorem sideTokens_last (ms : List Molecule) (terms : List Term) (hne : terms ≠ [])
    (hv : ∀ t ∈ terms, Term.Valid ms t) :
    ∃ last : String, (sideTokens terms).getLast? = some last
      ∧ (moleculeIndex ms last < ms.length
          ∨ (isDigitsOnly last = true ∧ strtoul last % UINT_RANGE = 0)) := by
  induction terms with
  | nil => exact absurd rfl hne
  | cons t ts ih =>
    cases ts with
    | nil =>
      have hvt := hv t (by simp)
      cases t with
      | nothing z => exact ⟨z, by simp [sideTokens, Term.tokens], Or.inr hvt⟩
      | plain m => exact ⟨m, by simp [sideTokens, Term.tokens], Or.inl hvt.2⟩
      | counted c m => exact ⟨m, by simp [sideTokens, Term.tokens], Or.inl hvt.2.2⟩
    | cons u us =>
      obtain ⟨last, hl, hk⟩ := ih (by simp) (fun x hx => hv x (List.mem_cons_of_mem _ hx))
      refine ⟨last, ?_, hk⟩
      have hne' : sideTokens (u :: us) ≠ [] := by
        intro hnil
        rw [hnil] at hl
        simp at hl
      simp only [sideTokens]
      rw [List.getLast?_append_of_ne_nil _ (by simp), getLast?_cons_ne _ _ hne']
      exact hl

/-- C39, amended: `parseFormula` rejects malformed formulas.  It succeeds only
on two sides of well-formed terms separated by `+`, with `--->` between the
sides, where a term is a lone count of value 0, a known molecule id that is
not made of digits, or a count other than 0 followed by a known molecule id;
in every other case it takes the path of `fail`.  So it fails when no token is
`--->`; it fails when more than one token is `--->`, provided `--->` is not
the id of a molecule; and it fails when the last token is neither the id of a
molecule nor a count of value 0, as are an operator and a count other than 0
that are not ids of molecules. -/
theorem parseFormula_rejects_malformed (g : Gillespie) (r : Reaction)
    (tokens : List String) :
    (∀ r' : Reaction, parseFormula g r tokens = .ok r' →
        ∃ L R : List Term, L ≠ [] ∧ R ≠ [] ∧ (∀ t ∈ L, Term.Valid g.molecules t)
          ∧ (∀ t ∈ R, Term.Valid g.molecules t)
          ∧ tokens = sideTokens L ++ "--->" :: sideTokens R)
    ∧ (∀ e : Fault, parseFormula g r tokens = .error e → e = .fail)
    ∧ ("--->" ∉ tokens → parseFormula g r tokens = .error .fail)
    ∧ (¬ moleculeIndex g.molecules "--->" < g.molecules.length →
        tokens.count "--->" ≠ 1 → parseFormula g r tokens = .error .fail)
    ∧ (∀ (init : List String) (last : String), tokens = init ++ [last] →
        ¬ moleculeIndex g.molecules last < g.molecules.length →
        ¬ (isDigitsOnly last = true ∧ strtoul last % UINT_RANGE = 0) →
        parseFormula g r tokens = .error .fail) := by
  have hfail : ∀ (P : Prop), (∀ r' : Reaction, parseFormula g r tokens = .ok r' → P → False) →
      P → parseFormula g r tokens = .error .fail := by
    intro P hP hp
    cases hres : parseFormula g r tokens with
    | error e => rw [parseFormula_error g r tokens e hres]
    | ok r' => exact absurd hp (fun hp => hP r' hres hp)
  refine ⟨?_, fun e he => parseFormula_error g r tokens e he, ?_, ?_, ?_⟩
  · intro r' h
    obtain ⟨L, R, h1, h2, h3, h4, h5, _, _⟩ := parseFormula_shape g r r' tokens h
    exact ⟨L, R, h1, h2, h3, h4, h5⟩
  · apply hfail
    intro r' h hno
    obtain ⟨L, R, _, _, _, _, h5, _, _⟩ := parseFormula_shape g r r' tokens h
    apply hno
    rw [h5]
    simp
  · intro hmol
    apply hfail
    intro r' h hcount
    obtain ⟨L, R, _, _, h3, h4, h5, _, _⟩ := parseFormula_shape g r r' tokens h
    apply hcount
    rw [h5, List.count_append, List.count_cons_self,
      List.count_eq_zero_of_not_mem (arrow_not_in_side _ L h3 hmol),
      List.count_eq_zero_of_not_mem (arrow_not_in_side _ R h4 hmol)]
  · intro init last htok hmol hzero
    have := hfail (tokens = init ++ [last]) (fun r' h htok' => by
      obtain ⟨L, R, _, h2, _, h4, h5, _, _⟩ := parseFormula_shape g r r' tokens h
      obtain ⟨last', hl, hk⟩ := sideTokens_last g.molecules R h2 h4
      have hne : sideTokens R ≠ [] := by
        intro hnil
        rw [hnil] at hl
        simp at hl
      have h1 : tokens.getLast? = some last' := by
        rw [h5, List.getLast?_append_of_ne_nil _ (by simp), getLast?_cons_ne _ _ hne]
        exact hl
      have h2' : tokens.getLast? = some last := by
        rw [htok']
        simp
      rw [h1] at h2'
      injection h2' with h2'
      rw [h2'] at hk
      rcases hk with hk | hk
      · exact hmol hk
      · exact hzero hk) htok
    exact this

/-- C39 amended, at a concrete formula: over the molecules `A` and `B` the
tokens of `A + B`, which has no `--->`, are rejected. -/
theorem parseFormula_rejects_malformed_witness :
    "--->" ∉ ["A", "+", "B"]
    ∧ parseFormula abNet (freshReaction "r" "A + B" 1) ["A", "+", "B"] = .error .fail :=
  ⟨by decide,
   (parseFormula_rejects_malformed abNet (freshReaction "r" "A + B" 1)
      ["A", "+", "B"]).2.2.1 (by decide)⟩

/-- C39 (counterexample): over the molecules `A` and `--->`, the tokens
`A`, `--->`, `--->` contain more than one `--->`, and `parseFormula` succeeds
on them: the second `--->` is read as the id of a molecule, with
`right = [0, 1]`. -/
theorem formula_with_two_arrows_is_accepted :
    arrowNet.molecules.map (fun x => x.id) = ["A", "--->"]
    ∧ List.count "--->" ["A", "--->", "--->"] = 2
    ∧ (parseFormula arrowNet (freshReaction "r" "A ---> --->" 1)
          ["A", "--->", "--->"]).map (fun x => (x.left, x.right))
        = .ok ([1, 0], [0, 1]) :=
  ⟨by rfl, by decide, by rfl⟩

end Gillespie

namespace Gillespie

end Gillespie
